import Mathlib

/-!
Low-latency all-reduce of `csrc/cpu/comm/ccl.cpp`: a shallow embedding of the bf16
reduction kernels and of the busy-wait protocol of `all_reduce_low_latency`, with the
properties of the specification proved or refuted on it.

Conventions of the embedding.

* A bf16 element is its 16-bit pattern and an fp32 value its 32-bit pattern, both as `Nat`.
* A vector register (`__m256i` with sixteen 16-bit lanes, `__m512i` / `__m512` with sixteen
  32-bit lanes) is the function from the lane index to the lane's pattern; lanes `0 .. 15` are
  the register.  Operations that work on 128-bit groups pack the four lanes of a group into
  one 128-bit number first, so that bits could move from one lane to the next.
* A buffer reached through a `void*` is the function from the element index (byte offset
  divided by two) to the bf16 pattern stored there; buffers passed to one kernel call do not
  overlap.  A slot buffer `char buffer[32768]` has room for `16384` elements; the kernels
  stay inside it exactly when the block range they touch ends at or before element `16384`,
  and `num_elements * 2` stays far below the range of `int` there.
* `_mm512_add_ps` is IEEE 754 binary32 addition, round to nearest even, in the default
  MXCSR state (no flush-to-zero, no denormals-are-zero), with the x86 rule for NaN operands.
* The ranks are processes that interleave on a sequentially consistent shared memory.  One
  step of a rank is one statement of `all_reduce_low_latency`, or one poll of a wait loop
  that finds the awaited value; a poll that does not find it changes nothing and is not a
  step.  The accesses of one invocation are free of data races (a buffer is written only
  while no other rank reads it), which is what makes whole statements a sound grain.
* The segment functions `shared_open`, `shared_create` and `shared_close` are functions of
  the handle; what the operating system answers to `shm_open`, `write` and `mmap` is a
  parameter, and so are the integer values of the Python enumeration `ReduceOp` in
  `get_ccl_reduce_op`.
* `next_unique_val` receives the `std::set<int>` as the list of its elements in ascending
  order; the value read through the past-the-end iterator is a parameter.
* Several invocations in a row: a rank that has returned enters the next invocation at
  line 530, on the workspace as it is at that moment, with its tensor as the last call left
  it (`back_to_back`) or filled with the same inputs again (`repeat_calls`).
* The slots of the workspace are separate arrays here, while in the code the state field of
  slot `r + 1` follows element `16383` of slot `r`; statements about other slots or about
  the state fields therefore assume at most `16384` elements per tensor.
* `ds_quantize` and `ds_quantize_asym` of `csrc/quantization/pt_binding.cpp`: values of
  type `int` are integers, `/` is the division that truncates toward zero; the kernels are
  defined elsewhere, so a call is described by the list of launches and the returned tensor.
-/

namespace CCL

/-! ## Vector registers and the integer intrinsics -/

/-- A vector register, lane index to lane pattern. -/
abbrev Lanes := Nat → Nat

/-- The intrinsic `_mm512_cvtepu16_epi32`: zero-extend each 16-bit lane to a 32-bit lane. -/
def mm512_cvtepu16_epi32 (a : Lanes) : Lanes := fun j => a j % 2 ^ 16

/-- The four 32-bit lanes of 128-bit group `g`, packed little-endian into one number. -/
def pack128 (a : Lanes) (g : Nat) : Nat :=
  a (4 * g) % 2 ^ 32 + (a (4 * g + 1) % 2 ^ 32) * 2 ^ 32 + (a (4 * g + 2) % 2 ^ 32) * 2 ^ 64
    + (a (4 * g + 3) % 2 ^ 32) * 2 ^ 96

/-- The intrinsic `_mm512_bslli_epi128`: shift every 128-bit group left by `imm8` bytes,
shifting in zeros; bits leaving the group are lost. -/
def mm512_bslli_epi128 (a : Lanes) (imm8 : Nat) : Lanes := fun j =>
  (pack128 a (j / 4) * 2 ^ (8 * imm8) % 2 ^ 128) / 2 ^ (32 * (j % 4)) % 2 ^ 32

/-- The intrinsic `_mm512_set1_epi32`: broadcast a 32-bit value to every lane. -/
def mm512_set1_epi32 (x : Nat) : Lanes := fun _ => x % 2 ^ 32

/-- The intrinsic `_mm512_srli_epi32`: logical right shift of every 32-bit lane. -/
def mm512_srli_epi32 (a : Lanes) (n : Nat) : Lanes := fun j => a j / 2 ^ n

/-- The intrinsic `_mm512_and_si512`: bitwise and. -/
def mm512_and_si512 (a b : Lanes) : Lanes := fun j => a j &&& b j

/-- The intrinsic `_mm512_add_epi32`: lane-wise addition modulo `2 ^ 32`. -/
def mm512_add_epi32 (a b : Lanes) : Lanes := fun j => (a j + b j) % 2 ^ 32

/-- The intrinsic `_mm512_mask_blend_epi32`: lane of `b` where the mask bit is set, lane of
`a` where it is clear. -/
def mm512_mask_blend_epi32 (k : Nat → Bool) (a b : Lanes) : Lanes := fun j =>
  if k j then b j else a j

/-- The intrinsic `_mm512_cvtusepi32_epi16`: narrow every 32-bit lane to 16 bits with
unsigned saturation. -/
def mm512_cvtusepi32_epi16 (a : Lanes) : Lanes := fun j => min (a j) 0xFFFF

/-! ## binary32 patterns and `_mm512_add_ps` -/

/-- Sign bit of a 32-bit pattern. -/
def fp32_sign (x : Nat) : Nat := x / 2 ^ 31 % 2

/-- Biased exponent field of a 32-bit pattern. -/
def fp32_exp (x : Nat) : Nat := x / 2 ^ 23 % 256

/-- Fraction field of a 32-bit pattern. -/
def fp32_frac (x : Nat) : Nat := x % 2 ^ 23

/-- A 32-bit pattern is a NaN: exponent bits all ones, fraction non-zero. -/
def fp32_isNaN (x : Nat) : Bool := fp32_exp x == 255 && fp32_frac x != 0

/-- A 32-bit pattern is an infinity. -/
def fp32_isInf (x : Nat) : Bool := fp32_exp x == 255 && fp32_frac x == 0

/-- A 16-bit pattern is a bf16 NaN: exponent bits all ones, mantissa non-zero. -/
def bf16_isNaN (x : Nat) : Bool := x / 2 ^ 7 % 256 == 255 && x % 2 ^ 7 != 0

/-- Magnitude of a finite binary32 pattern as a multiple of `2 ^ (-149)`. -/
def fp32_mag (x : Nat) : Nat :=
  if fp32_exp x = 0 then fp32_frac x else (2 ^ 23 + fp32_frac x) * 2 ^ (fp32_exp x - 1)

/-- Value of a finite binary32 pattern as a signed multiple of `2 ^ (-149)`. -/
def fp32_val (x : Nat) : Int :=
  if fp32_sign x = 1 then -(fp32_mag x : Int) else (fp32_mag x : Int)

/-- Number of binary digits of `m`, for `m < 2 ^ fuel`. -/
def bit_length : Nat → Nat → Nat
  | 0, _ => 0
  | fuel + 1, m => if m = 0 then 0 else bit_length fuel (m / 2) + 1

/-- Round a positive multiple `m` of `2 ^ (-149)` to the nearest binary32 magnitude, ties to
even, overflowing to infinity. The result is the pattern without the sign bit. -/
def fp32_round (m : Nat) : Nat :=
  let sh := bit_length 300 m - 24
  let q := m / 2 ^ sh
  let r := m % 2 ^ sh
  let q1 := if 2 ^ sh < 2 * r ∨ (2 * r = 2 ^ sh ∧ q % 2 = 1) then q + 1 else q
  let bits := sh * 2 ^ 23 + q1
  if 0x7F800000 ≤ bits then 0x7F800000 else bits

/-- Set bit 22, the quiet bit, of a NaN pattern. -/
def fp32_quiet (x : Nat) : Nat := if x / 2 ^ 22 % 2 = 1 then x else x + 2 ^ 22

/-- One lane of `_mm512_add_ps` on patterns. A NaN operand is returned quieted, the first
operand taking precedence; infinities of opposite sign give the default NaN; an exact zero
sum is `+0` unless both operands are negative. -/
def fp32_add (a b : Nat) : Nat :=
  if fp32_isNaN a then fp32_quiet a
  else if fp32_isNaN b then fp32_quiet b
  else if fp32_isInf a then
    (if fp32_isInf b && fp32_sign a != fp32_sign b then 0xFFC00000 else a)
  else if fp32_isInf b then b
  else
    let s := fp32_val a + fp32_val b
    if s = 0 then (if fp32_sign a = 1 ∧ fp32_sign b = 1 then 0x80000000 else 0)
    else if s < 0 then 0x80000000 + fp32_round s.natAbs
    else fp32_round s.natAbs

/-- The intrinsic `_mm512_add_ps`: lane-wise binary32 addition. -/
def mm512_add_ps (a b : Lanes) : Lanes := fun j => fp32_add (a j) (b j)

/-- The intrinsic `_mm512_cmp_ps_mask` with predicate `_CMP_ORD_Q`: the mask bit of a lane is
set when neither operand is a NaN. -/
def mm512_cmp_ps_mask_ord (a b : Lanes) : Nat → Bool := fun j =>
  !fp32_isNaN (a j) && !fp32_isNaN (b j)

/-! ## The two conversions -/

/-- Source `cvt_bf16_to_fp32` (ccl.cpp 266-270). The casts are bit reinterpretations. -/
def cvt_bf16_to_fp32 (src : Lanes) : Lanes :=
  let y := mm512_cvtepu16_epi32 src
  mm512_bslli_epi128 y 2

/-- Source `cvt_fp32_to_bf16` up to the rounding shift (ccl.cpp 279-291): the value of
`t_value` just before the NaN blend. -/
def cvt_fp32_to_bf16_rounded (src : Lanes) : Lanes :=
  let value := src
  let ones := mm512_set1_epi32 0x1
  let vec_bias := mm512_set1_epi32 0x7fff
  let t_value := mm512_and_si512 (mm512_srli_epi32 value 16) ones
  let t_value := mm512_add_epi32 t_value vec_bias
  let t_value := mm512_add_epi32 t_value value
  mm512_srli_epi32 t_value 16

/-- Source `cvt_fp32_to_bf16` (ccl.cpp 273-296), the branch that is compiled (`#if 0`). -/
def cvt_fp32_to_bf16 (src : Lanes) : Lanes :=
  let nan := mm512_set1_epi32 0xffff
  let mask_value := mm512_cmp_ps_mask_ord src src
  let t_value := cvt_fp32_to_bf16_rounded src
  let t_value := mm512_mask_blend_epi32 mask_value nan t_value
  mm512_cvtusepi32_epi16 t_value

/-- One bf16 pattern widened: lane 0 of `cvt_bf16_to_fp32` on the broadcast of `x`. -/
def widen (x : Nat) : Nat := cvt_bf16_to_fp32 (fun _ => x) 0

/-- One fp32 pattern narrowed: lane 0 of `cvt_fp32_to_bf16` on the broadcast of `v`. -/
def narrow (v : Nat) : Nat := cvt_fp32_to_bf16 (fun _ => v) 0

/-! ## Buffers, unaligned loads and stores -/

/-- A buffer behind a `void*`: element index to bf16 pattern. -/
abbrev Buf := Nat → Nat

/-- The intrinsic `_mm256_loadu_si256` at byte offset `i` of buffer `p`: sixteen consecutive
elements starting at element `i / 2`. -/
def mm256_loadu_si256 (p : Buf) (i : Nat) : Lanes := fun j => p (i / 2 + j)

/-- The intrinsic `_mm256_storeu_si256` at byte offset `i` of buffer `p`: the sixteen lanes
of `v` overwrite elements `i / 2 .. i / 2 + 15`. -/
def mm256_storeu_si256 (p : Buf) (i : Nat) (v : Lanes) : Buf := fun e =>
  if i / 2 ≤ e ∧ e < i / 2 + 16 then v (e - i / 2) else p e

/-- The loop `for (int i = start; i < bound; i += 32) body` over the destination buffer.
`fuel` bounds the number of iterations; `bound` itself is always enough. -/
def for_blocks : Nat → Nat → Nat → (Nat → Buf → Buf) → Buf → Buf
  | 0, _, _, _, m => m
  | fuel + 1, i, bound, body, m =>
    if i < bound then for_blocks fuel (i + 32) bound body (body i m) else m

/-! ## The reduction kernels -/

/-- Source `reduce_bf16_buffers` (ccl.cpp 384-392); the result is the new content of
`in_out`. -/
def reduce_bf16_buffers (in_out in_ : Buf) (num_elements : Nat) : Buf :=
  for_blocks (num_elements * 2) 0 (num_elements * 2) (fun i in_out =>
    let in1 := cvt_bf16_to_fp32 (mm256_loadu_si256 in_ i)
    let inout1 := cvt_bf16_to_fp32 (mm256_loadu_si256 in_out i)
    let inout1 := mm512_add_ps inout1 in1
    mm256_storeu_si256 in_out i (cvt_fp32_to_bf16 inout1)) in_out

/-- Source `reduce_3_bf16_buffers` (ccl.cpp 394-404). -/
def reduce_3_bf16_buffers (in_out in1 in2 : Buf) (num_elements : Nat) : Buf :=
  for_blocks (num_elements * 2) 0 (num_elements * 2) (fun i in_out =>
    let inout_val := cvt_bf16_to_fp32 (mm256_loadu_si256 in_out i)
    let in1_val := cvt_bf16_to_fp32 (mm256_loadu_si256 in1 i)
    let inout_val := mm512_add_ps inout_val in1_val
    let in2_val := cvt_bf16_to_fp32 (mm256_loadu_si256 in2 i)
    let inout_val := mm512_add_ps inout_val in2_val
    mm256_storeu_si256 in_out i (cvt_fp32_to_bf16 inout_val)) in_out

/-- Source `reduce_4_bf16_buffers` (ccl.cpp 406-418). -/
def reduce_4_bf16_buffers (in_out in1 in2 in3 : Buf) (num_elements : Nat) : Buf :=
  for_blocks (num_elements * 2) 0 (num_elements * 2) (fun i in_out =>
    let inout_val := cvt_bf16_to_fp32 (mm256_loadu_si256 in_out i)
    let in1_val := cvt_bf16_to_fp32 (mm256_loadu_si256 in1 i)
    let inout_val := mm512_add_ps inout_val in1_val
    let in2_val := cvt_bf16_to_fp32 (mm256_loadu_si256 in2 i)
    let inout_val := mm512_add_ps inout_val in2_val
    let in3_val := cvt_bf16_to_fp32 (mm256_loadu_si256 in3 i)
    let inout_val := mm512_add_ps inout_val in3_val
    mm256_storeu_si256 in_out i (cvt_fp32_to_bf16 inout_val)) in_out

/-- Source `reduce_5_bf16_buffers` (ccl.cpp 420-439). -/
def reduce_5_bf16_buffers (in_out in1 in2 in3 in4 : Buf) (num_elements : Nat) : Buf :=
  for_blocks (num_elements * 2) 0 (num_elements * 2) (fun i in_out =>
    let inout_val := cvt_bf16_to_fp32 (mm256_loadu_si256 in_out i)
    let in1_val := cvt_bf16_to_fp32 (mm256_loadu_si256 in1 i)
    let inout_val := mm512_add_ps inout_val in1_val
    let in2_val := cvt_bf16_to_fp32 (mm256_loadu_si256 in2 i)
    let inout_val := mm512_add_ps inout_val in2_val
    let in3_val := cvt_bf16_to_fp32 (mm256_loadu_si256 in3 i)
    let inout_val := mm512_add_ps inout_val in3_val
    let in4_val := cvt_bf16_to_fp32 (mm256_loadu_si256 in4 i)
    let inout_val := mm512_add_ps inout_val in4_val
    mm256_storeu_si256 in_out i (cvt_fp32_to_bf16 inout_val)) in_out

/-- Source `reduce_6_bf16_buffers` (ccl.cpp 441-463). -/
def reduce_6_bf16_buffers (in_out in1 in2 in3 in4 in5 : Buf) (num_elements : Nat) : Buf :=
  for_blocks (num_elements * 2) 0 (num_elements * 2) (fun i in_out =>
    let inout_val := cvt_bf16_to_fp32 (mm256_loadu_si256 in_out i)
    let in1_val := cvt_bf16_to_fp32 (mm256_loadu_si256 in1 i)
    let inout_val := mm512_add_ps inout_val in1_val
    let in2_val := cvt_bf16_to_fp32 (mm256_loadu_si256 in2 i)
    let inout_val := mm512_add_ps inout_val in2_val
    let in3_val := cvt_bf16_to_fp32 (mm256_loadu_si256 in3 i)
    let inout_val := mm512_add_ps inout_val in3_val
    let in4_val := cvt_bf16_to_fp32 (mm256_loadu_si256 in4 i)
    let inout_val := mm512_add_ps inout_val in4_val
    let in5_val := cvt_bf16_to_fp32 (mm256_loadu_si256 in5 i)
    let inout_val := mm512_add_ps inout_val in5_val
    mm256_storeu_si256 in_out i (cvt_fp32_to_bf16 inout_val)) in_out

/-- Source `reduce_7_bf16_buffers` (ccl.cpp 465-490). -/
def reduce_7_bf16_buffers (in_out in1 in2 in3 in4 in5 in6 : Buf) (num_elements : Nat) : Buf :=
  for_blocks (num_elements * 2) 0 (num_elements * 2) (fun i in_out =>
    let inout_val := cvt_bf16_to_fp32 (mm256_loadu_si256 in_out i)
    let in1_val := cvt_bf16_to_fp32 (mm256_loadu_si256 in1 i)
    let inout_val := mm512_add_ps inout_val in1_val
    let in2_val := cvt_bf16_to_fp32 (mm256_loadu_si256 in2 i)
    let inout_val := mm512_add_ps inout_val in2_val
    let in3_val := cvt_bf16_to_fp32 (mm256_loadu_si256 in3 i)
    let inout_val := mm512_add_ps inout_val in3_val
    let in4_val := cvt_bf16_to_fp32 (mm256_loadu_si256 in4 i)
    let inout_val := mm512_add_ps inout_val in4_val
    let in5_val := cvt_bf16_to_fp32 (mm256_loadu_si256 in5 i)
    let inout_val := mm512_add_ps inout_val in5_val
    let in6_val := cvt_bf16_to_fp32 (mm256_loadu_si256 in6 i)
    let inout_val := mm512_add_ps inout_val in6_val
    mm256_storeu_si256 in_out i (cvt_fp32_to_bf16 inout_val)) in_out

/-- Source `reduce_8_bf16_buffers` (ccl.cpp 492-520). -/
def reduce_8_bf16_buffers (in_out in1 in2 in3 in4 in5 in6 in7 : Buf) (num_elements : Nat) :
    Buf :=
  for_blocks (num_elements * 2) 0 (num_elements * 2) (fun i in_out =>
    let inout_val := cvt_bf16_to_fp32 (mm256_loadu_si256 in_out i)
    let in1_val := cvt_bf16_to_fp32 (mm256_loadu_si256 in1 i)
    let inout_val := mm512_add_ps inout_val in1_val
    let in2_val := cvt_bf16_to_fp32 (mm256_loadu_si256 in2 i)
    let inout_val := mm512_add_ps inout_val in2_val
    let in3_val := cvt_bf16_to_fp32 (mm256_loadu_si256 in3 i)
    let inout_val := mm512_add_ps inout_val in3_val
    let in4_val := cvt_bf16_to_fp32 (mm256_loadu_si256 in4 i)
    let inout_val := mm512_add_ps inout_val in4_val
    let in5_val := cvt_bf16_to_fp32 (mm256_loadu_si256 in5 i)
    let inout_val := mm512_add_ps inout_val in5_val
    let in6_val := cvt_bf16_to_fp32 (mm256_loadu_si256 in6 i)
    let inout_val := mm512_add_ps inout_val in6_val
    let in7_val := cvt_bf16_to_fp32 (mm256_loadu_si256 in7 i)
    let inout_val := mm512_add_ps inout_val in7_val
    mm256_storeu_si256 in_out i (cvt_fp32_to_bf16 inout_val)) in_out

/-! ## The workspace and the dispatcher -/

/-- Source `struct allreduce_workspace` (ccl.cpp 82-85): one mailbox slot. -/
structure allreduce_workspace where
  /-- The field `int state`. -/
  state : Int
  /-- The field `char buffer[32768]`, viewed as bf16 elements. -/
  buffer : Buf

/-- The shared array `buffer` of slots, indexed by rank. -/
abbrev Workspace := Nat → allreduce_workspace

/-- Number of bf16 elements that fit `char buffer[32768]`. -/
def slot_capacity : Nat := 32768 / 2

/-- Store a new content into the buffer of slot 0, keeping its state field. -/
def set_slot0 (ws : Workspace) (b : Buf) : Workspace :=
  Function.update ws 0 { ws 0 with buffer := b }

/-- The fallback loop of `reduce_all_bf16_buffers` (ccl.cpp 378-380):
`for (int i = 1; i < num_buffers; i++) reduce_bf16_buffers(buffer[0].buffer,
buffer[i].buffer, num_elements)`. -/
def reduce_all_fallback : Nat → Nat → Nat → Nat → Workspace → Workspace
  | 0, _, _, _, ws => ws
  | fuel + 1, i, num_buffers, num_elements, ws =>
    if i < num_buffers then
      reduce_all_fallback fuel (i + 1) num_buffers num_elements
        (set_slot0 ws (reduce_bf16_buffers (ws 0).buffer (ws i).buffer num_elements))
    else ws

/-- Source `reduce_all_bf16_buffers` (ccl.cpp 336-382). -/
def reduce_all_bf16_buffers (buffer : Workspace) (num_elements num_buffers : Nat) :
    Workspace :=
  if num_buffers = 8 then
    set_slot0 buffer (reduce_8_bf16_buffers (buffer 0).buffer (buffer 1).buffer
      (buffer 2).buffer (buffer 3).buffer (buffer 4).buffer (buffer 5).buffer
      (buffer 6).buffer (buffer 7).buffer num_elements)
  else if num_buffers = 7 then
    set_slot0 buffer (reduce_7_bf16_buffers (buffer 0).buffer (buffer 1).buffer
      (buffer 2).buffer (buffer 3).buffer (buffer 4).buffer (buffer 5).buffer
      (buffer 6).buffer num_elements)
  else if num_buffers = 6 then
    set_slot0 buffer (reduce_6_bf16_buffers (buffer 0).buffer (buffer 1).buffer
      (buffer 2).buffer (buffer 3).buffer (buffer 4).buffer (buffer 5).buffer num_elements)
  else if num_buffers = 5 then
    set_slot0 buffer (reduce_5_bf16_buffers (buffer 0).buffer (buffer 1).buffer
      (buffer 2).buffer (buffer 3).buffer (buffer 4).buffer num_elements)
  else if num_buffers = 4 then
    set_slot0 buffer (reduce_4_bf16_buffers (buffer 0).buffer (buffer 1).buffer
      (buffer 2).buffer (buffer 3).buffer num_elements)
  else if num_buffers = 3 then
    set_slot0 buffer (reduce_3_bf16_buffers (buffer 0).buffer (buffer 1).buffer
      (buffer 2).buffer num_elements)
  else
    reduce_all_fallback num_buffers 1 num_buffers num_elements buffer

/-! ## Reference values of one reduced element -/

/-- First element index that a kernel called with `num_elements` does not touch: the loop
runs over whole blocks of sixteen elements. -/
def blocks_end (num_elements : Nat) : Nat := 16 * ((num_elements * 2 + 31) / 32)

/-- The fp32 accumulator of one element: the widened dest value, then the widened sources
added one after the other from the left. -/
def accumulate (x : Nat) (ys : List Nat) : Nat :=
  List.foldl fp32_add (widen x) (ys.map widen)

/-- Sum with a single narrowing: the accumulator narrowed to bf16 once at the end. -/
def sum_once (x : Nat) (ys : List Nat) : Nat := narrow (accumulate x ys)

/-- Sum with a narrowing after every addition: what repeated two-operand reductions into
dest compute for one element. -/
def sum_pairwise (x : Nat) (ys : List Nat) : Nat :=
  List.foldl (fun d y => narrow (fp32_add (widen d) (widen y))) x ys

/-- The elements at index `e` of the source slots `i, i + 1, .., i + n - 1`. -/
def source_elems (ws : Workspace) (i n e : Nat) : List Nat :=
  (List.range' i n).map (fun s => (ws s).buffer e)

/-- One loop body of a kernel with the list `srcs` of source buffers: load and widen the
dest block, add the widened source blocks in order, narrow, store. -/
def block_body (srcs : List Buf) : Nat → Buf → Buf := fun i in_out =>
  mm256_storeu_si256 in_out i (cvt_fp32_to_bf16
    (List.foldl (fun acc s => mm512_add_ps acc (cvt_bf16_to_fp32 (mm256_loadu_si256 s i)))
      (cvt_bf16_to_fp32 (mm256_loadu_si256 in_out i)) srcs))

/-- The sequential pairwise reduction of the specification: `reduce_bf16_buffers` into
dest once per source, in source order. -/
def pairwise_sequence (dest : Buf) (srcs : List Buf) (num_elements : Nat) : Buf :=
  List.foldl (fun d s => reduce_bf16_buffers d s num_elements) dest srcs

/-- A 32-bit pattern that narrowing followed by widening leaves a NaN or unchanged: a NaN,
or a value whose low sixteen bits are zero. -/
def bf16_exact (v : Nat) : Bool := fp32_isNaN v || v % 65536 == 0

/-- The step of the specification's pairwise fallback: one `reduce_bf16_buffers` of slot `i`
into slot 0. -/
def pairwise_step (num_elements : Nat) (ws : Workspace) (i : Nat) : Workspace :=
  set_slot0 ws (reduce_bf16_buffers (ws 0).buffer (ws i).buffer num_elements)

/-- The specification's fallback for `num_buffers` slots: `pairwise_step` for
`i = 1, 2, .., num_buffers - 1` in that order. -/
def pairwise_reduction (ws : Workspace) (num_elements num_buffers : Nat) : Workspace :=
  List.foldl (pairwise_step num_elements) ws (List.range' 1 (num_buffers - 1))

/-! ## The protocol of `all_reduce_low_latency` -/

/-- Source `wait_buffer_state_until` (ccl.cpp 257-263), one evaluation of the loop condition
of `while (*state_ptr != state);`: `true` when the loop is left. The loop writes nothing. -/
def wait_buffer_state_until (buffer : Workspace) (index : Nat) (state : Int) : Bool :=
  (buffer index).state == state

/-- The call `memcpy(dst, src, nbytes)` on buffers of two-byte elements. -/
def memcpy (dst src : Buf) (nbytes : Nat) : Buf := fun e =>
  if e < nbytes / 2 then src e else dst e

/-- Program points of `all_reduce_low_latency`, named by the line of ccl.cpp whose statement
is executed next. -/
inductive PC where
  /-- Before `memcpy(buffer[world_rank].buffer, data_ptr, numel * 2)`. -/
  | l530 : PC
  /-- Before `buffer[world_rank].state = 1`. -/
  | l531 : PC
  /-- Rank 0, in the loop of line 535 with loop variable `i`, before
  `wait_buffer_state_until(i, 1)`. -/
  | l537 (i : Nat) : PC
  /-- Rank 0, before `reduce_all_bf16_buffers(buffer, numel, world_size)`. -/
  | l539 : PC
  /-- Rank 0, before `buffer[world_rank].state = 2`. -/
  | l543 : PC
  /-- Rank 0, before `memcpy(data_ptr, buffer[0].buffer, numel * 2)`. -/
  | l544 : PC
  /-- Other ranks, in `wait_buffer_state_until(0, 2)`. -/
  | l547 : PC
  /-- Other ranks, before `memcpy(data_ptr, buffer[0].buffer, numel * 2)`. -/
  | l548 : PC
  /-- Other ranks, before `buffer[world_rank].state = 2`. -/
  | l549 : PC
  /-- Rank 0, in the loop of line 552 with loop variable `i`, before
  `wait_buffer_state_until(i, 2)`. -/
  | l552 (i : Nat) : PC
  /-- Rank 0, before `buffer[world_rank].state = 0`. -/
  | l553 : PC
  /-- Other ranks, in `wait_buffer_state_until(0, 0)`. -/
  | l556 : PC
  /-- Other ranks, before `buffer[world_rank].state = 0`. -/
  | l557 : PC
  /-- After the last access to the workspace: the call returns. -/
  | l559 : PC
  deriving DecidableEq

/-- The part of one rank's process that the protocol reads and writes. -/
structure Rank where
  /-- Where the rank is in `all_reduce_low_latency`. -/
  pc : PC
  /-- The content of the tensor `data`, read at line 530 and overwritten at 544 / 548. -/
  data : Buf

/-- A state of the whole system: the shared workspace and every rank's process. -/
structure Config where
  /-- The shared array `buffer`. -/
  buffer : Workspace
  /-- The ranks' processes. -/
  rank : Nat → Rank

/-- Assign the state field of slot `r`. -/
def set_state (ws : Workspace) (r : Nat) (s : Int) : Workspace :=
  Function.update ws r { ws r with state := s }

/-- Assign the buffer of slot `r`. -/
def set_buffer (ws : Workspace) (r : Nat) (b : Buf) : Workspace :=
  Function.update ws r { ws r with buffer := b }

/-- Rank `r` continues at `pc` with workspace `ws` and tensor content `data`. -/
def goto (c : Config) (r : Nat) (pc : PC) (ws : Workspace) (data : Buf) : Config :=
  { buffer := ws, rank := Function.update c.rank r { pc := pc, data := data } }

/-- Source `all_reduce_low_latency` (ccl.cpp 522-569) as the next step of the process of
rank `world_rank`: one statement, or one successful poll of a wait loop. `none` when the
rank is spinning in a wait loop whose flag does not have the awaited value, or has
returned. The time measurement of lines 529 and 559-568 touches no shared data. -/
def all_reduce_low_latency (world_size numel world_rank : Nat) (c : Config) :
    Option Config :=
  let data_ptr := (c.rank world_rank).data
  let buffer := c.buffer
  match (c.rank world_rank).pc with
  | .l530 =>
    some (goto c world_rank .l531
      (set_buffer buffer world_rank (memcpy (buffer world_rank).buffer data_ptr (numel * 2)))
      data_ptr)
  | .l531 =>
    some (goto c world_rank (if world_rank = 0 then .l537 1 else .l547)
      (set_state buffer world_rank 1) data_ptr)
  | .l537 i =>
    if i < world_size then
      (if wait_buffer_state_until buffer i 1
       then some (goto c world_rank (.l537 (i + 1)) buffer data_ptr) else none)
    else some (goto c world_rank .l539 buffer data_ptr)
  | .l539 =>
    some (goto c world_rank .l543 (reduce_all_bf16_buffers buffer numel world_size) data_ptr)
  | .l543 => some (goto c world_rank .l544 (set_state buffer world_rank 2) data_ptr)
  | .l544 =>
    some (goto c world_rank (.l552 1) buffer (memcpy data_ptr (buffer 0).buffer (numel * 2)))
  | .l547 =>
    if wait_buffer_state_until buffer 0 2
    then some (goto c world_rank .l548 buffer data_ptr) else none
  | .l548 =>
    some (goto c world_rank .l549 buffer (memcpy data_ptr (buffer 0).buffer (numel * 2)))
  | .l549 => some (goto c world_rank .l556 (set_state buffer world_rank 2) data_ptr)
  | .l552 i =>
    if i < world_size then
      (if wait_buffer_state_until buffer i 2
       then some (goto c world_rank (.l552 (i + 1)) buffer data_ptr) else none)
    else some (goto c world_rank .l553 buffer data_ptr)
  | .l553 => some (goto c world_rank .l559 (set_state buffer world_rank 0) data_ptr)
  | .l556 =>
    if wait_buffer_state_until buffer 0 0
    then some (goto c world_rank .l557 buffer data_ptr) else none
  | .l557 => some (goto c world_rank .l559 (set_state buffer world_rank 0) data_ptr)
  | .l559 => none

/-- One step of the system: some rank below `world_size` takes its next step. -/
def Step (world_size numel : Nat) (c c' : Config) : Prop :=
  ∃ r, r < world_size ∧ all_reduce_low_latency world_size numel r c = some c'

/-- The states the system can reach from `c` under any interleaving of the ranks. -/
def Reachable (world_size numel : Nat) (c c' : Config) : Prop :=
  Relation.ReflTransGen (Step world_size numel) c c'

/-- The start of one invocation: every rank is about to copy its tensor `inputs r` in. -/
def init (ws0 : Workspace) (inputs : Nat → Buf) : Config :=
  { buffer := ws0, rank := fun r => { pc := .l530, data := inputs r } }

/-- Every rank below `world_size` has returned. -/
def finished (world_size : Nat) (c : Config) : Prop :=
  ∀ r, r < world_size → (c.rank r).pc = .l559

/-- Run the ranks in the order given by a schedule; `none` when a scheduled rank cannot
take a step. -/
def run (world_size numel : Nat) : List Nat → Config → Option Config
  | [], c => some c
  | r :: rest, c =>
    if r < world_size then
      (match all_reduce_low_latency world_size numel r c with
       | some c' => run world_size numel rest c'
       | none => none)
    else none

/-! ## The invariant of one invocation -/

/-- The content of slot `r` after rank `r` copied its tensor in. -/
def loaded (ws0 : Workspace) (inputs : Nat → Buf) (numel r : Nat) : Buf :=
  memcpy (ws0 r).buffer (inputs r) (numel * 2)

/-- The workspace when every rank has copied its tensor in. -/
def loaded_ws (ws0 : Workspace) (inputs : Nat → Buf) (numel : Nat) : Workspace := fun r =>
  { ws0 r with buffer := loaded ws0 inputs numel r }

/-- The content of slot 0 after `reduce_all_bf16_buffers` ran on the loaded workspace. -/
def reduced (world_size numel : Nat) (ws0 : Workspace) (inputs : Nat → Buf) : Buf :=
  ((reduce_all_bf16_buffers (loaded_ws ws0 inputs numel) numel world_size) 0).buffer

/-- The value of the state field of a rank's own slot at each program point. -/
def state_of_pc : PC → Int
  | .l530 => 0
  | .l531 => 0
  | .l537 _ => 1
  | .l539 => 1
  | .l543 => 1
  | .l544 => 2
  | .l547 => 1
  | .l548 => 1
  | .l549 => 1
  | .l552 _ => 2
  | .l553 => 2
  | .l556 => 2
  | .l557 => 2
  | .l559 => 0

/-- The program points after the rank copied the result out of slot 0. -/
def copied_out : PC → Bool
  | .l549 => true
  | .l552 _ => true
  | .l553 => true
  | .l556 => true
  | .l557 => true
  | .l559 => true
  | _ => false

/-- The program points of rank 0. -/
def is_rank0_pc : PC → Bool
  | .l547 => false
  | .l548 => false
  | .l549 => false
  | .l556 => false
  | .l557 => false
  | _ => true

/-- Where peer `j` can be, given where rank 0 is. -/
def compat (pc0 : PC) (j : Nat) (pcj : PC) : Prop :=
  match pc0 with
  | .l530 => pcj = .l530 ∨ pcj = .l531 ∨ pcj = .l547
  | .l531 => pcj = .l530 ∨ pcj = .l531 ∨ pcj = .l547
  | .l537 i => 1 ≤ i ∧ (pcj = .l547 ∨ ((pcj = .l530 ∨ pcj = .l531) ∧ i ≤ j))
  | .l539 => pcj = .l547
  | .l543 => pcj = .l547
  | .l544 => pcj = .l547 ∨ pcj = .l548 ∨ pcj = .l549 ∨ pcj = .l556
  | .l552 i =>
    1 ≤ i ∧ (pcj = .l556 ∨ ((pcj = .l547 ∨ pcj = .l548 ∨ pcj = .l549) ∧ i ≤ j))
  | .l553 => pcj = .l556
  | .l559 => pcj = .l556 ∨ pcj = .l557 ∨ pcj = .l559
  | _ => False

/-- The content of slot `r` at each program point of rank `r`. -/
def expected_buffer (world_size numel : Nat) (ws0 : Workspace) (inputs : Nat → Buf)
    (r : Nat) : PC → Buf
  | .l530 => (ws0 r).buffer
  | .l543 => reduced world_size numel ws0 inputs
  | .l544 => reduced world_size numel ws0 inputs
  | .l552 _ => reduced world_size numel ws0 inputs
  | .l553 => reduced world_size numel ws0 inputs
  | .l559 => if r = 0 then reduced world_size numel ws0 inputs else loaded ws0 inputs numel r
  | _ => loaded ws0 inputs numel r

/-- The content of the tensor of rank `r` at each program point. -/
def expected_data (world_size numel : Nat) (ws0 : Workspace) (inputs : Nat → Buf)
    (r : Nat) (pc : PC) : Buf :=
  if copied_out pc then memcpy (inputs r) (reduced world_size numel ws0 inputs) (numel * 2)
  else inputs r

/-- The invariant of the protocol: what holds in every state reachable from `init`. -/
structure Inv (world_size numel : Nat) (ws0 : Workspace) (inputs : Nat → Buf)
    (c : Config) : Prop where
  /-- Rank 0 is at one of its program points. -/
  role0 : is_rank0_pc (c.rank 0).pc = true
  /-- Every peer is where the position of rank 0 allows it to be. -/
  peers : ∀ j, 0 < j → j < world_size → compat (c.rank 0).pc j (c.rank j).pc
  /-- The state field of every slot is determined by its owner's program point. -/
  state : ∀ r, r < world_size → (c.buffer r).state = state_of_pc (c.rank r).pc
  /-- So is the content of every slot. -/
  buf : ∀ r, r < world_size →
    (c.buffer r).buffer = expected_buffer world_size numel ws0 inputs r (c.rank r).pc
  /-- So is the content of every tensor. -/
  data : ∀ r, r < world_size →
    (c.rank r).data = expected_data world_size numel ws0 inputs r (c.rank r).pc

/-! ## Concrete inputs -/

/-- A register whose lane `j` holds the bf16 pattern `0x3F80 + j`. -/
def lanes_sample : Lanes := fun j => 0x3F80 + j

/-- A register holding the fp32 pattern `0x3F808000` in every lane: exactly half way between
the bf16 values `0x3F80` and `0x3F81`. -/
def lanes_tie : Lanes := fun _ => 0x3F808000

/-- A buffer of `256.0` in every element. -/
def buf_256 : Buf := fun _ => 0x4380

/-- A buffer of `1.0` in every element. -/
def buf_one : Buf := fun _ => 0x3F80

/-- A workspace with all slots idle and zeroed. -/
def ws_idle : Workspace := fun _ => { state := 0, buffer := fun _ => 0 }

/-- A workspace whose slot `s` holds the pattern `0x3F80 + s + e` at element `e`. -/
def ws_sample : Workspace := fun s => { state := 0, buffer := fun e => 0x3F80 + s + e }

/-- A workspace of `1.0` everywhere. -/
def ws_ones : Workspace := fun _ => { state := 0, buffer := buf_one }

/-- A workspace of `1.0` everywhere, but a quiet NaN at element 1 of slot 2. -/
def ws_nan : Workspace := fun s =>
  { state := 0, buffer := fun e => if s = 2 ∧ e = 1 then 0x7FC0 else 0x3F80 }

/-- Two ranks: rank 0 holds `1.0` everywhere, rank 1 holds `2.0`. -/
def in2 : Nat → Buf := fun r _ => if r = 0 then 0x3F80 else 0x4000

/-- A complete interleaving of two ranks. -/
def sched2 : List Nat := [0, 0, 1, 1, 0, 0, 0, 0, 0, 1, 1, 1, 0, 0, 0, 1, 1]

/-- The state at the end of `sched2`, for sixteen elements per rank. -/
def final2 : Config := (run 2 16 sched2 (init ws_idle in2)).getD (init ws_idle in2)

/-- Nine ranks: rank 0 holds `256.0` everywhere, the others hold `1.0`. -/
def in9 : Nat → Buf := fun r => if r = 0 then buf_256 else buf_one

/-- A complete interleaving of nine ranks. -/
def sched9 : List Nat :=
  [1, 1, 2, 2, 3, 3, 4, 4, 5, 5, 6, 6, 7, 7, 8, 8] ++ List.replicate 14 0
    ++ [1, 1, 1, 2, 2, 2, 3, 3, 3, 4, 4, 4, 5, 5, 5, 6, 6, 6, 7, 7, 7, 8, 8, 8]
    ++ List.replicate 10 0 ++ [1, 1, 2, 2, 3, 3, 4, 4, 5, 5, 6, 6, 7, 7, 8, 8]

/-- The state at the end of `sched9`, for sixteen elements per rank. -/
def final9 : Config := (run 9 16 sched9 (init ws_idle in9)).getD (init ws_idle in9)

/-! ## Progress of one invocation -/

/-- How far a program point is from the start: it grows with every step a rank takes. -/
def pc_index (world_size : Nat) : PC → Nat
  | .l530 => 0
  | .l531 => 1
  | .l537 i => 1 + min i world_size
  | .l539 => world_size + 2
  | .l543 => world_size + 3
  | .l544 => world_size + 4
  | .l547 => 2
  | .l548 => 3
  | .l549 => 4
  | .l552 i => world_size + 4 + min i world_size
  | .l553 => 2 * world_size + 5
  | .l556 => 5
  | .l557 => 6
  | .l559 => 2 * world_size + 6

/-- The sum of `pc_index` over the ranks `0 .. n-1`. -/
def progress (world_size : Nat) (c : Config) : Nat → Nat
  | 0 => 0
  | n + 1 => progress world_size c n + pc_index world_size (c.rank n).pc

/-! ## Locations of the shared workspace and what a step writes -/

/-- A location of the shared workspace: the state field of a slot, or one bf16 element of
its buffer. -/
inductive Loc where
  /-- The field `buffer[slot].state`. -/
  | state (slot : Nat) : Loc
  /-- The two bytes at offset `2 * e` of `buffer[slot].buffer`. -/
  | elem (slot : Nat) (e : Nat) : Loc
  deriving DecidableEq

/-- The content of a location. -/
def read_loc (ws : Workspace) : Loc → Int
  | .state s => (ws s).state
  | .elem s e => ((ws s).buffer e : Nat)

/-- The locations the next statement of rank `world_rank` stores to, read off the source:
`memcpy` into the own buffer writes the first `numel * 2` bytes (line 530); the assignments
to `buffer[world_rank].state` write that field (lines 531, 543, 549, 553, 557);
`reduce_all_bf16_buffers` stores whole 32-byte blocks into `buffer[0].buffer` while
`i < num_elements * 2`, provided a kernel or a fallback iteration runs at all, that is for
two or more buffers (line 539); the polls and the copies into the tensor write nothing
shared. -/
def writes (world_size numel world_rank : Nat) (pc : PC) (l : Loc) : Bool :=
  match pc, l with
  | .l530, .elem s e => s == world_rank && decide (e < numel * 2 / 2)
  | .l531, .state s => s == world_rank
  | .l539, .elem s e => s == 0 && decide (2 ≤ world_size) && decide (e < blocks_end numel)
  | .l543, .state s => s == world_rank
  | .l549, .state s => s == world_rank
  | .l553, .state s => s == world_rank
  | .l557, .state s => s == world_rank
  | _, _ => false

/-- Size in bytes of `struct allreduce_workspace`: the `int` state and the 32768 bytes of
the buffer, without padding. -/
def slot_bytes : Nat := 4 + 32768

/-- First byte of a location and first byte after it, as offsets into the shared segment.
Slot `s` starts at `s * slot_bytes`, its buffer four bytes later. -/
def loc_bytes : Loc → Nat × Nat
  | .state s => (s * slot_bytes, s * slot_bytes + 4)
  | .elem s e => (s * slot_bytes + 4 + 2 * e, s * slot_bytes + 4 + 2 * e + 2)

/-- One change of a state field along the cycle IDLE (0), COPIED (1), FINAL (2), IDLE. -/
def cycle_step (old new : Int) : Prop :=
  (old = 0 ∧ new = 1) ∨ (old = 1 ∧ new = 2) ∨ (old = 2 ∧ new = 0)

/-! ## The shared segment -/

/-- Source `struct SharedData` (ccl.cpp 18-23). Pointers are addresses. -/
structure SharedData where
  /-- The field `const char* name`. -/
  name : Nat
  /-- The field `int descriptor`. -/
  descriptor : Int
  /-- The field `void* bytes`. -/
  bytes : Nat
  /-- The field `size_t nbytes`. -/
  nbytes : Nat
  deriving DecidableEq

/-- What the operating system answers to the calls of the segment functions. -/
structure Os where
  /-- The call `shm_open(name, O_RDWR, ..)`: a descriptor, or `-1`. -/
  shm_open_rdwr : Nat → Int
  /-- The call `shm_open(name, O_CREAT | O_RDWR, ..)`: a descriptor, or `-1`. -/
  shm_open_creat : Nat → Int
  /-- The call `write(d, bytes, nbytes)`: the number of bytes written, or `-1`. -/
  write : Int → Nat → Nat → Int
  /-- The call `mmap(NULL, nbytes, .., MAP_SHARED, d, 0)`: the address of the mapping. -/
  mmap : Nat → Int → Nat

/-- A call that releases a resource. -/
inductive OsCall where
  /-- The call `munmap(bytes, nbytes)`. -/
  | munmap (bytes nbytes : Nat) : OsCall
  /-- The call `shm_unlink(name)`. -/
  | shm_unlink (name : Nat) : OsCall
  deriving DecidableEq

/-- Source `shared_open` (ccl.cpp 28-41): the handle after the call. The message printed on
failure is not part of the handle. -/
def shared_open (os : Os) (data : SharedData) (name : Nat) (nbytes : Nat) : SharedData :=
  let d := os.shm_open_rdwr name
  if d ≠ -1 then
    let bytes := os.mmap nbytes d
    { name := name, descriptor := d, bytes := bytes, nbytes := nbytes }
  else
    { data with descriptor := -1 }

/-- Source `shared_create` (ccl.cpp 43-51): the handle after the call. The assignment
`nbytes = write(..)` converts the `ssize_t` result to `size_t`, so `-1` becomes
`2 ^ 64 - 1`. -/
def shared_create (os : Os) (data : SharedData) (name : Nat) (bytes : Nat) (nbytes : Nat) :
    SharedData :=
  let d := os.shm_open_creat name
  if d ≠ -1 then
    let nbytes := (os.write d bytes nbytes % 2 ^ 64).toNat
    if nbytes ≠ 0 then shared_open os data name nbytes else data
  else
    data

/-- Source `shared_close` (ccl.cpp 53-59): the calls it makes, in order. -/
def shared_close (data : SharedData) : List OsCall :=
  if data.descriptor ≠ -1 then [.munmap data.bytes data.nbytes, .shm_unlink data.name]
  else []

/-! ## The reduction operator -/

/-- The values of `ccl::reduction` that `get_ccl_reduce_op` can return. -/
inductive reduction where
  /-- The value `ccl::reduction::sum`. -/
  | sum : reduction
  /-- The value `ccl::reduction::min`. -/
  | min : reduction
  /-- The value `ccl::reduction::max`. -/
  | max : reduction
  /-- The value `ccl::reduction::prod`. -/
  | prod : reduction
  deriving DecidableEq

/-- The exceptions `get_ccl_reduce_op` throws. -/
inductive runtime_error where
  /-- The message "Error: Op must be of type ReduceOp". -/
  | op_type : runtime_error
  /-- The message "Error: For bool tensors, op must be of type ReduceOp". -/
  | bool_avg : runtime_error
  /-- The message "Error: Unrecognized ReduceOp type". -/
  | unrecognized : runtime_error
  deriving DecidableEq

/-- The integer values of the members of the Python enumeration `deepspeed.comm.ReduceOp`
that the function compares with. -/
structure ReduceOp where
  /-- The value of `ReduceOp.SUM`. -/
  SUM : Int
  /-- The value of `ReduceOp.MIN`. -/
  MIN : Int
  /-- The value of `ReduceOp.MAX`. -/
  MAX : Int
  /-- The value of `ReduceOp.PRODUCT`. -/
  PRODUCT : Int
  /-- The value of `ReduceOp.AVG`. -/
  AVG : Int

/-- Source `get_ccl_reduce_op` (ccl.cpp 182-215). `isinstance` is the result of
`py::isinstance(op, ReduceOp)`, `op_val` the value of `op`, `is_bool` whether the scalar
type of the tensor is `at::kBool`, and `indeterminate` the content of the local `ccl_op`
before its first assignment. -/
def get_ccl_reduce_op (ReduceOp : ReduceOp) (isinstance : Bool) (op_val : Int)
    (is_bool : Bool) (indeterminate : reduction) : Except runtime_error reduction := do
  if !isinstance then throw .op_type
  let mut ccl_op := indeterminate
  if is_bool then
    if op_val = ReduceOp.SUM then
      ccl_op := .max
    else if op_val = ReduceOp.AVG then
      throw .bool_avg
  if op_val = ReduceOp.SUM then
    ccl_op := .sum
  else if op_val = ReduceOp.MIN then
    ccl_op := .min
  else if op_val = ReduceOp.MAX then
    ccl_op := .max
  else if op_val = ReduceOp.PRODUCT then
    ccl_op := .prod
  else
    throw .unrecognized
  return ccl_op

/-! ## Concrete inputs of the second part -/

/-- The interleaving `sched2` without the last two steps of rank 1: rank 0 has returned,
rank 1 is still waiting for slot 0 to become IDLE. -/
def sched2_rank0_returned : List Nat := [0, 0, 1, 1, 0, 0, 0, 0, 0, 1, 1, 1, 0, 0, 0]

/-- The state at the end of `sched2_rank0_returned`. -/
def returned2 : Config :=
  (run 2 16 sched2_rank0_returned (init ws_idle in2)).getD (init ws_idle in2)

/-- The state at the end of `sched2` for five elements per rank, from a zeroed workspace. -/
def final5 : Config := (run 2 5 sched2 (init ws_idle in2)).getD (init ws_idle in2)

/-- The state at the end of `sched2` for five elements per rank, from a workspace with
other content in its buffers. -/
def final5_stale : Config := (run 2 5 sched2 (init ws_sample in2)).getD (init ws_sample in2)

/-- The state after rank 0 copied its tensor in. -/
def copied2 : Config := (run 2 16 [0] (init ws_idle in2)).getD (init ws_idle in2)

/-- The state after rank 0 then set its flag to COPIED. -/
def flagged2 : Config := (all_reduce_low_latency 2 16 0 copied2).getD copied2

/-- Four ranks, each holding `1.0` everywhere. -/
def in_ones : Nat → Buf := fun _ => buf_one

/-- A complete interleaving of four ranks. -/
def sched4 : List Nat :=
  [1, 1, 2, 2, 3, 3] ++ List.replicate 9 0 ++ [1, 1, 1, 2, 2, 2, 3, 3, 3]
    ++ List.replicate 5 0 ++ [1, 1, 2, 2, 3, 3]

/-- The state at the end of `sched4`, for sixteen elements per rank. -/
def final4 : Config := (run 4 16 sched4 (init ws_idle in_ones)).getD (init ws_idle in_ones)

/-- Two ranks of two elements: rank 0 holds `[x, 1.0]`, rank 1 holds `[2.0, 3.0]`. -/
def in_nan (x : Nat) : Nat → Buf := fun r e =>
  if r = 0 then (if e = 0 then x else 0x3F80) else (if e = 0 then 0x4000 else 0x4040)

/-- The state at the end of `sched2` for the inputs `in_nan 0x7FC0`, two elements per
rank. -/
def final_nan : Config :=
  (run 2 2 sched2 (init ws_idle (in_nan 0x7FC0))).getD (init ws_idle (in_nan 0x7FC0))

/-- A handle as the zero-initialised global `allreduce_buffer` is before `initialize`. -/
def handle_zero : SharedData := { name := 0, descriptor := 0, bytes := 0, nbytes := 0 }

/-- An operating system on which `shm_open` fails for every name. -/
def os_no_shm : Os :=
  { shm_open_rdwr := fun _ => -1, shm_open_creat := fun _ => -1,
    write := fun _ _ n => n, mmap := fun _ _ => 0 }

/-- An operating system on which `shm_open` returns descriptor 3, `write` writes nothing
and `mmap` returns the address 4096. -/
def os_write_nothing : Os :=
  { shm_open_rdwr := fun _ => 3, shm_open_creat := fun _ => 3,
    write := fun _ _ _ => 0, mmap := fun _ _ => 4096 }

/-- An operating system on which `shm_open` returns descriptor 3, `write` fails with `-1`
and `mmap` of the resulting size fails with `MAP_FAILED`, the address `2 ^ 64 - 1`. -/
def os_write_fails : Os :=
  { shm_open_rdwr := fun _ => 3, shm_open_creat := fun _ => 3,
    write := fun _ _ _ => -1, mmap := fun _ _ => 2 ^ 64 - 1 }

/-- The values of `ReduceOp` in DeepSpeed: SUM 0, PRODUCT 1, MIN 2, MAX 3, AVG 7. -/
def reduce_op_values : ReduceOp := { SUM := 0, MIN := 2, MAX := 3, PRODUCT := 1, AVG := 7 }

/-- A handle left over from an earlier successful open. -/
def handle_old : SharedData := { name := 5, descriptor := 9, bytes := 4096, nbytes := 64 }

/-- A buffer holding the pattern `0x3F80 + e` at element `e`. -/
def buf_ramp : Buf := fun e => 0x3F80 + e

/-! ## `next_unique_val` -/

/-- The loop of `next_unique_val` (ccl.cpp 151-155): `prev_val` is the element before the
iterator, the list holds the elements from the iterator to the end of the set in ascending
order, and `past_end` is the value that `*(s.end())` reads at line 156. The iterator `end()`
points behind the last element, so this value is not an element of the set; the language
does not define it and the model leaves it open. -/
def next_unique_val_loop (past_end : Int) : Int → List Int → Int
  | _, [] => past_end + 1
  | prev_val, x :: itr =>
    if x ≠ prev_val + 1 then prev_val + 1 else next_unique_val_loop past_end x itr

/-- Source `next_unique_val` (ccl.cpp 140-158). The `std::set<int>` is given by its
elements in iteration order, which is ascending and without repetition. -/
def next_unique_val (s : List Int) (past_end : Int) : Int :=
  match s with
  | [] => 0
  | b :: rest =>
    if b ≠ 0 then 0
    else if s.length = 1 then 1
    else next_unique_val_loop past_end b rest

/-- The set `{0, 1, .., n}` in iteration order. -/
def gap_free (n : Nat) : List Int := (List.range (n + 1)).map (fun (i : Nat) => (i : Int))

/-- The value `v` is the smallest non-negative integer that is not a member of `s`. -/
def least_missing (s : List Int) (v : Int) : Prop :=
  0 ≤ v ∧ v ∉ s ∧ ∀ k, 0 ≤ k → k < v → k ∈ s

/-! ## The launch guard of `ds_quantize` (pt_binding.cpp) -/

/-- Conversion of a 64-bit value to `int`: the low 32 bits in two's complement. -/
def to_int (x : Int) : Int := (x + 2 ^ 31) % 2 ^ 32 - 2 ^ 31

/-- The part of an `at::Tensor` handle that `ds_quantize` reads: the dimensions and the
address of the data. -/
structure Tensor where
  /-- The result of `sizes()`. -/
  sizes : List Int
  /-- The result of `data_ptr()`. -/
  data_ptr : Nat
  deriving DecidableEq

/-- One kernel launch with its arguments. The kernels themselves are CUDA code outside
this translation unit; only the decision to launch them is modelled. -/
structure Launch where
  /-- Whether the kernel is `launch_fake_quantize_kernel_asym`. -/
  asym : Bool
  /-- The data pointer passed as first argument. -/
  vals : Nat
  /-- The argument `total_count`. -/
  size : Int
  /-- The argument `group_num`. -/
  groups : Int
  /-- The argument `num_bits`. -/
  bits : Int
  deriving DecidableEq

/-- The loop `int size = 1; for (auto dim : t_size) size *= dim;` (pt_binding.cpp 10-11):
each product is computed in 64 bits and stored back into the `int`. -/
def element_count (t_size : List Int) : Int :=
  t_size.foldl (fun size dim => to_int (size * dim)) 1

/-- Source `ds_quantize` (pt_binding.cpp 6-18): the launches it performs and the tensor it
returns. The divisions are those of C on `int`, truncating toward zero. -/
def ds_quantize (vals : Tensor) (groups bits : Int) : List Launch × Tensor :=
  let t_size := vals.sizes
  let size := element_count t_size
  if ((size.tdiv groups) - 1).tdiv 4096 + 1 ≤ 256 then
    ([{ asym := false, vals := vals.data_ptr, size := size, groups := groups, bits := bits }],
      vals)
  else ([], vals)

/-- Source `ds_quantize_asym` (pt_binding.cpp 34-46). -/
def ds_quantize_asym (vals : Tensor) (groups bits : Int) : List Launch × Tensor :=
  let t_size := vals.sizes
  let size := element_count t_size
  if ((size.tdiv groups) - 1).tdiv 4096 + 1 ≤ 256 then
    ([{ asym := true, vals := vals.data_ptr, size := size, groups := groups, bits := bits }],
      vals)
  else ([], vals)

/-! ## Consecutive invocations of `all_reduce_low_latency` -/

/-- The system when every rank calls `all_reduce_low_latency` several times in a row on
its tensor. -/
structure Caller where
  /-- The workspace and the ranks inside their current invocation. -/
  cfg : Config
  /-- How many invocations each rank has returned from and left behind. -/
  completed : Nat → Nat

/-- The next step of rank `world_rank` when it makes `calls` invocations back to back: a
step of the current invocation, or, once that has returned and invocations remain, the
entry into the next one at line 530 with the tensor as the last invocation left it. -/
def back_to_back (calls world_size numel world_rank : Nat) (c : Caller) : Option Caller :=
  match all_reduce_low_latency world_size numel world_rank c.cfg with
  | some cfg' => some { c with cfg := cfg' }
  | none =>
    if (c.cfg.rank world_rank).pc = .l559 ∧ c.completed world_rank + 1 < calls then
      some { cfg := goto c.cfg world_rank .l530 c.cfg.buffer (c.cfg.rank world_rank).data,
             completed := Function.update c.completed world_rank
               (c.completed world_rank + 1) }
    else none

/-- One step of the system of callers. -/
def StepCalls (calls world_size numel : Nat) (c c' : Caller) : Prop :=
  ∃ r, r < world_size ∧ back_to_back calls world_size numel r c = some c'

/-- The states the callers can reach from `c` under any interleaving. -/
def ReachableCalls (calls world_size numel : Nat) (c c' : Caller) : Prop :=
  Relation.ReflTransGen (StepCalls calls world_size numel) c c'

/-- Every rank is about to make its first call. -/
def init_calls (ws0 : Workspace) (inputs : Nat → Buf) : Caller :=
  { cfg := init ws0 inputs, completed := fun _ => 0 }

/-- Every rank below `world_size` has returned from its last invocation. -/
def finished_calls (calls world_size : Nat) (c : Caller) : Prop :=
  ∀ r, r < world_size → (c.cfg.rank r).pc = .l559 ∧ c.completed r + 1 = calls

/-- No rank below `world_size` is able to take a step. -/
def stuck (calls world_size numel : Nat) (c : Caller) : Prop :=
  ∀ r, r < world_size → (back_to_back calls world_size numel r c).isSome = false

/-- Run the callers in the order given by a schedule; `none` when a scheduled rank cannot
take a step. -/
def run_calls (calls world_size numel : Nat) : List Nat → Caller → Option Caller
  | [], c => some c
  | r :: rest, c =>
    if r < world_size then
      (match back_to_back calls world_size numel r c with
       | some c' => run_calls calls world_size numel rest c'
       | none => none)
    else none

/-- Two ranks, two calls each: rank 0 finishes its first invocation while rank 1 has not
yet polled slot 0 for IDLE, then rank 0 enters its second invocation and sets its flag. -/
def sched_reenter : List Nat := [0, 0, 1, 1, 0, 0, 0, 0, 0, 1, 1, 1, 0, 0, 0, 0, 0, 0]

/-- The state the schedule `sched_reenter` leads to. -/
def reentered2 : Caller :=
  (run_calls 2 2 16 sched_reenter (init_calls ws_idle in2)).getD (init_calls ws_idle in2)

/-- A tensor of 2048 x 1024 elements. -/
def tensor_2m : Tensor := { sizes := [2048, 1024], data_ptr := 4096 }

/-- A register whose lanes hold the largest finite binary32 value with negative sign. -/
def lanes_max : Lanes := fun _ => 0xFF7FFFFF

/-- A buffer of ones whose element 0 is a quiet NaN with payload 1. -/
def buf_nan_a : Buf := fun e => if e = 0 then 0x7FC1 else 0x3F80

/-- A buffer of twos whose element 0 is a negative signalling NaN with payload 0x25. -/
def buf_nan_b : Buf := fun e => if e = 0 then 0xFFA5 else 0x4000

/-! ## Repeated invocations on the same inputs -/

/-- The next step of rank `world_rank` when it makes `calls` invocations in a row and its
caller puts `inputs world_rank` into the tensor before every call: a step of the current
invocation, or, once that has returned and invocations remain, the entry into the next one
at line 530. No rank waits for another between two calls. -/
def repeat_calls (calls world_size numel : Nat) (inputs : Nat → Buf) (world_rank : Nat)
    (c : Caller) : Option Caller :=
  match all_reduce_low_latency world_size numel world_rank c.cfg with
  | some cfg' => some { c with cfg := cfg' }
  | none =>
    if (c.cfg.rank world_rank).pc = .l559 ∧ c.completed world_rank + 1 < calls then
      some { cfg := goto c.cfg world_rank .l530 c.cfg.buffer (inputs world_rank),
             completed := Function.update c.completed world_rank
               (c.completed world_rank + 1) }
    else none

/-- One step of the system of callers that repeat the same inputs. -/
def StepRepeat (calls world_size numel : Nat) (inputs : Nat → Buf) (c c' : Caller) : Prop :=
  ∃ r, r < world_size ∧ repeat_calls calls world_size numel inputs r c = some c'

/-- The states these callers can reach from `c` under any interleaving. -/
def ReachableRepeat (calls world_size numel : Nat) (inputs : Nat → Buf) (c c' : Caller) :
    Prop :=
  Relation.ReflTransGen (StepRepeat calls world_size numel inputs) c c'

/-- The workspace that a finished invocation leaves behind. -/
def ws_after (world_size numel : Nat) (ws0 : Workspace) (inputs : Nat → Buf) : Workspace :=
  fun r => { state := 0, buffer := expected_buffer world_size numel ws0 inputs r .l559 }

/-- A workspace as the second invocation sees it: the state field of a slot whose owner has
not yet entered the second invocation counts as IDLE. -/
def view_ws (completed : Nat → Nat) (ws : Workspace) : Workspace := fun s =>
  if completed s = 0 then { ws s with state := 0 } else ws s

/-- The system as the second invocation sees it: a rank that has not yet entered the second
invocation stands at its entry. -/
def second_view (inputs : Nat → Buf) (c : Caller) : Config :=
  { buffer := view_ws c.completed c.cfg.buffer,
    rank := fun s =>
      if c.completed s = 0 then { pc := .l530, data := inputs s } else c.cfg.rank s }

/-- What holds of a rank `r` that is still behind in the first invocation while another
rank has entered the second: it has copied the result out and is past its last wait but
one. -/
structure Lag (world_size numel : Nat) (ws0 : Workspace) (inputs : Nat → Buf) (c : Caller)
    (r : Nat) : Prop where
  /-- The rank has returned, or it is a peer in its last wait or right after it. -/
  pc : (c.cfg.rank r).pc = .l559
    ∨ (0 < r ∧ ((c.cfg.rank r).pc = .l556 ∨ (c.cfg.rank r).pc = .l557))
  /-- The state field of its slot is the one of its program point. -/
  state : (c.cfg.buffer r).state = state_of_pc (c.cfg.rank r).pc
  /-- Its slot holds what the first invocation leaves there. -/
  buf : (c.cfg.buffer r).buffer = expected_buffer world_size numel ws0 inputs r .l559
  /-- Its tensor holds the result of the first invocation. -/
  data : (c.cfg.rank r).data = expected_data world_size numel ws0 inputs r .l559

/-- The invariant of two invocations in a row: either every rank is in its first
invocation, or the ranks that entered the second one satisfy the invariant of one
invocation started on the workspace the first left behind, and the others lag. -/
def Inv2 (world_size numel : Nat) (ws0 : Workspace) (inputs : Nat → Buf) (c : Caller) :
    Prop :=
  ((∀ r, r < world_size → c.completed r = 0) ∧ Inv world_size numel ws0 inputs c.cfg)
    ∨ (Inv world_size numel (ws_after world_size numel ws0 inputs) inputs
          (second_view inputs c)
        ∧ ∀ r, r < world_size →
            c.completed r = 1 ∨ (c.completed r = 0 ∧ Lag world_size numel ws0 inputs c r))

/-- The callers after the ranks below `m` have entered their second invocation. -/
def entered (inputs : Nat → Buf) (m : Nat) (c : Config) : Caller :=
  { cfg := { buffer := c.buffer,
             rank := fun r => if r < m then { pc := .l530, data := inputs r } else c.rank r },
    completed := fun r => if r < m then 1 else 0 }

/-! ## Lemmas and theorems -/

/-! ### The conversions, lane by lane -/

theorem cvt_bf16_to_fp32_lane (a : Lanes) (j : Nat) :
    cvt_bf16_to_fp32 a j = a j % 65536 * 65536 := by
  have h1 : j / 4 * 4 + j % 4 = j := Nat.div_add_mod' j 4
  have ht : j % 4 < 4 := Nat.mod_lt _ (by decide)
  simp only [cvt_bf16_to_fp32, mm512_bslli_epi128, pack128, mm512_cvtepu16_epi32]
  generalize j / 4 = g at *
  generalize j % 4 = t at *
  subst h1
  have e0 := Nat.mod_lt (a (4 * g)) (show 0 < 2 ^ 16 by decide)
  have e1 := Nat.mod_lt (a (4 * g + 1)) (show 0 < 2 ^ 16 by decide)
  have e2 := Nat.mod_lt (a (4 * g + 2)) (show 0 < 2 ^ 16 by decide)
  have e3 := Nat.mod_lt (a (4 * g + 3)) (show 0 < 2 ^ 16 by decide)
  interval_cases t
  · have : g * 4 + 0 = 4 * g := by omega
    rw [this]
    generalize a (4 * g) % 2 ^ 16 = x0 at *
    generalize a (4 * g + 1) % 2 ^ 16 = x1 at *
    generalize a (4 * g + 2) % 2 ^ 16 = x2 at *
    generalize a (4 * g + 3) % 2 ^ 16 = x3 at *
    norm_num
    omega
  · have : g * 4 + 1 = 4 * g + 1 := by omega
    rw [this]
    generalize a (4 * g) % 2 ^ 16 = x0 at *
    generalize a (4 * g + 1) % 2 ^ 16 = x1 at *
    generalize a (4 * g + 2) % 2 ^ 16 = x2 at *
    generalize a (4 * g + 3) % 2 ^ 16 = x3 at *
    norm_num
    omega
  · have : g * 4 + 2 = 4 * g + 2 := by omega
    rw [this]
    generalize a (4 * g) % 2 ^ 16 = x0 at *
    generalize a (4 * g + 1) % 2 ^ 16 = x1 at *
    generalize a (4 * g + 2) % 2 ^ 16 = x2 at *
    generalize a (4 * g + 3) % 2 ^ 16 = x3 at *
    norm_num
    omega
  · have : g * 4 + 3 = 4 * g + 3 := by omega
    rw [this]
    generalize a (4 * g) % 2 ^ 16 = x0 at *
    generalize a (4 * g + 1) % 2 ^ 16 = x1 at *
    generalize a (4 * g + 2) % 2 ^ 16 = x2 at *
    generalize a (4 * g + 3) % 2 ^ 16 = x3 at *
    norm_num
    omega

theorem widen_eq (x : Nat) : widen x = x % 65536 * 65536 := by
  unfold widen
  rw [cvt_bf16_to_fp32_lane]

theorem cvt_fp32_to_bf16_lane (a : Lanes) (j : Nat) :
    cvt_fp32_to_bf16 a j = narrow (a j) := by
  simp only [narrow, cvt_fp32_to_bf16, cvt_fp32_to_bf16_rounded, mm512_cvtusepi32_epi16,
    mm512_mask_blend_epi32, mm512_cmp_ps_mask_ord, mm512_set1_epi32, mm512_srli_epi32,
    mm512_add_epi32, mm512_and_si512]

theorem rounded_eq (src : Lanes) (j : Nat) :
    cvt_fp32_to_bf16_rounded src j
      = ((src j / 65536 % 2 + 0x7fff) % 2 ^ 32 + src j) % 2 ^ 32 / 65536 := by
  simp only [cvt_fp32_to_bf16_rounded, mm512_srli_epi32, mm512_add_epi32, mm512_and_si512,
    mm512_set1_epi32]
  norm_num [Nat.and_one_is_mod]

theorem isNaN_false_iff (v : Nat) :
    fp32_isNaN v = false ↔ (v / 2 ^ 23 % 256 = 255 → v % 2 ^ 23 = 0) := by
  unfold fp32_isNaN fp32_exp fp32_frac
  cases h1 : (v / 2 ^ 23 % 256 == 255) <;> cases h2 : (v % 2 ^ 23 != 0) <;> simp_all

theorem isNaN_true_iff (v : Nat) :
    fp32_isNaN v = true ↔ (v / 2 ^ 23 % 256 = 255 ∧ v % 2 ^ 23 ≠ 0) := by
  unfold fp32_isNaN fp32_exp fp32_frac
  cases h1 : (v / 2 ^ 23 % 256 == 255) <;> cases h2 : (v % 2 ^ 23 != 0) <;> simp_all

theorem cvt_fp32_to_bf16_guard (src : Lanes) (j : Nat) :
    cvt_fp32_to_bf16 src j
      = if fp32_isNaN (src j) then 0xFFFF
        else mm512_cvtusepi32_epi16 (cvt_fp32_to_bf16_rounded src) j := by
  simp only [cvt_fp32_to_bf16, mm512_cvtusepi32_epi16, mm512_mask_blend_epi32,
    mm512_cmp_ps_mask_ord, mm512_set1_epi32]
  cases h : fp32_isNaN (src j) <;> simp

theorem rne (src : Lanes) (j : Nat) (hv : src j < 2 ^ 32) (hn : fp32_isNaN (src j) = false) :
    cvt_fp32_to_bf16 src j
        = (if src j % 65536 < 0x8000 then src j / 65536
           else if 0x8000 < src j % 65536 then src j / 65536 + 1
           else if src j / 65536 % 2 = 0 then src j / 65536 else src j / 65536 + 1)
      ∧ mm512_and_si512 (mm512_srli_epi32 src 16) (mm512_set1_epi32 0x1) j
          + mm512_set1_epi32 0x7fff j + src j < 2 ^ 32
      ∧ mm512_cvtusepi32_epi16 (cvt_fp32_to_bf16_rounded src) j
          = cvt_fp32_to_bf16_rounded src j := by
  rw [cvt_fp32_to_bf16_guard, hn]
  rw [isNaN_false_iff] at hn
  simp only [mm512_cvtusepi32_epi16, rounded_eq, mm512_and_si512, mm512_srli_epi32,
    mm512_set1_epi32, Nat.and_one_is_mod]
  generalize src j = v at *
  norm_num at hn hv ⊢
  have hb : v ≤ 0xFF800000 := by omega
  have hw : v / 65536 % 2 + 32767 + v < 4294967296 := by omega
  rw [Nat.mod_eq_of_lt hw]
  refine ⟨?_, ?_, ?_⟩
  · split_ifs <;> omega
  · omega
  · omega

/-! ### The kernels, element by element -/

theorem storeu_apply (p : Buf) (i : Nat) (v : Lanes) (e : Nat) :
    mm256_storeu_si256 p i v e = if i / 2 ≤ e ∧ e < i / 2 + 16 then v (e - i / 2) else p e :=
  rfl

theorem foldl_add_ps_lane (srcs : List Buf) (i j : Nat) (init : Lanes) :
    List.foldl (fun acc s => mm512_add_ps acc (cvt_bf16_to_fp32 (mm256_loadu_si256 s i)))
        init srcs j
      = List.foldl fp32_add (init j) ((srcs.map (fun s => s (i / 2 + j))).map widen) := by
  induction srcs generalizing init with
  | nil => rfl
  | cons s rest ih =>
    simp only [List.foldl_cons, List.map_cons]
    rw [ih]
    simp only [mm512_add_ps, cvt_bf16_to_fp32_lane, widen_eq, mm256_loadu_si256]

theorem block_body_apply (srcs : List Buf) (i : Nat) (m : Buf) (e : Nat) :
    block_body srcs i m e
      = if i / 2 ≤ e ∧ e < i / 2 + 16 then sum_once (m e) (srcs.map (fun s => s e))
        else m e := by
  unfold block_body
  rw [storeu_apply]
  split_ifs with h
  · rw [cvt_fp32_to_bf16_lane, foldl_add_ps_lane]
    have he : i / 2 + (e - i / 2) = e := by omega
    simp only [sum_once, accumulate, cvt_bf16_to_fp32_lane, widen_eq, mm256_loadu_si256, he]
  · rfl

theorem for_blocks_block_body (srcs : List Buf) (fuel : Nat) :
    ∀ (i bound : Nat) (m : Buf) (e : Nat), (bound - i + 31) / 32 ≤ fuel →
      for_blocks fuel i bound (block_body srcs) m e
        = if i / 2 ≤ e ∧ e < i / 2 + 16 * ((bound - i + 31) / 32)
          then sum_once (m e) (srcs.map (fun s => s e)) else m e := by
  induction fuel with
  | zero =>
    intro i bound m e h
    have h0 : (bound - i + 31) / 32 = 0 := by omega
    have c : ¬ (i / 2 ≤ e ∧ e < i / 2 + 16 * 0) := by omega
    rw [h0, if_neg c]
    rfl
  | succ fuel ih =>
    intro i bound m e h
    unfold for_blocks
    by_cases hlt : i < bound
    · rw [if_pos hlt, ih (i + 32) bound _ e (by omega), block_body_apply]
      have h1 : (i + 32) / 2 = i / 2 + 16 := by omega
      have h2 : (bound - i + 31) / 32 = (bound - (i + 32) + 31) / 32 + 1 := by omega
      rw [h1, h2]
      generalize (bound - (i + 32) + 31) / 32 = n
      by_cases c1 : i / 2 + 16 ≤ e ∧ e < i / 2 + 16 + 16 * n
      · have c2 : ¬ (i / 2 ≤ e ∧ e < i / 2 + 16) := by omega
        have c3 : i / 2 ≤ e ∧ e < i / 2 + 16 * (n + 1) := by omega
        rw [if_pos c1, if_neg c2, if_pos c3]
      · rw [if_neg c1]
        by_cases c2 : i / 2 ≤ e ∧ e < i / 2 + 16
        · have c3 : i / 2 ≤ e ∧ e < i / 2 + 16 * (n + 1) := by omega
          rw [if_pos c2, if_pos c3]
        · have c3 : ¬ (i / 2 ≤ e ∧ e < i / 2 + 16 * (n + 1)) := by omega
          rw [if_neg c2, if_neg c3]
    · rw [if_neg hlt]
      have h0 : (bound - i + 31) / 32 = 0 := by omega
      have c : ¬ (i / 2 ≤ e ∧ e < i / 2 + 16 * 0) := by omega
      rw [h0, if_neg c]

theorem kernel_apply (srcs : List Buf) (in_out : Buf) (n e : Nat) :
    for_blocks (n * 2) 0 (n * 2) (block_body srcs) in_out e
      = if e < blocks_end n then sum_once (in_out e) (srcs.map (fun s => s e))
        else in_out e := by
  rw [for_blocks_block_body srcs (n * 2) 0 (n * 2) in_out e (by omega)]
  simp [blocks_end]

theorem reduce_bf16_buffers_apply (in_out in_ : Buf) (n e : Nat) :
    reduce_bf16_buffers in_out in_ n e
      = if e < blocks_end n then sum_once (in_out e) [in_ e] else in_out e :=
  kernel_apply [in_] in_out n e

theorem reduce_3_apply (in_out in1 in2 : Buf) (n e : Nat) :
    reduce_3_bf16_buffers in_out in1 in2 n e
      = if e < blocks_end n then sum_once (in_out e) [in1 e, in2 e] else in_out e :=
  kernel_apply [in1, in2] in_out n e

theorem reduce_4_apply (in_out in1 in2 in3 : Buf) (n e : Nat) :
    reduce_4_bf16_buffers in_out in1 in2 in3 n e
      = if e < blocks_end n then sum_once (in_out e) [in1 e, in2 e, in3 e]
        else in_out e :=
  kernel_apply [in1, in2, in3] in_out n e

theorem reduce_5_apply (in_out in1 in2 in3 in4 : Buf) (n e : Nat) :
    reduce_5_bf16_buffers in_out in1 in2 in3 in4 n e
      = if e < blocks_end n then sum_once (in_out e) [in1 e, in2 e, in3 e, in4 e]
        else in_out e :=
  kernel_apply [in1, in2, in3, in4] in_out n e

theorem reduce_6_apply (in_out in1 in2 in3 in4 in5 : Buf) (n e : Nat) :
    reduce_6_bf16_buffers in_out in1 in2 in3 in4 in5 n e
      = if e < blocks_end n then sum_once (in_out e) [in1 e, in2 e, in3 e, in4 e, in5 e]
        else in_out e :=
  kernel_apply [in1, in2, in3, in4, in5] in_out n e

theorem reduce_7_apply (in_out in1 in2 in3 in4 in5 in6 : Buf) (n e : Nat) :
    reduce_7_bf16_buffers in_out in1 in2 in3 in4 in5 in6 n e
      = if e < blocks_end n
        then sum_once (in_out e) [in1 e, in2 e, in3 e, in4 e, in5 e, in6 e]
        else in_out e :=
  kernel_apply [in1, in2, in3, in4, in5, in6] in_out n e

theorem reduce_8_apply (in_out in1 in2 in3 in4 in5 in6 in7 : Buf) (n e : Nat) :
    reduce_8_bf16_buffers in_out in1 in2 in3 in4 in5 in6 in7 n e
      = if e < blocks_end n
        then sum_once (in_out e) [in1 e, in2 e, in3 e, in4 e, in5 e, in6 e, in7 e]
        else in_out e :=
  kernel_apply [in1, in2, in3, in4, in5, in6, in7] in_out n e

/-! ### The dispatcher on the workspace -/

theorem set_slot0_zero (ws : Workspace) (b : Buf) :
    (set_slot0 ws b 0).buffer = b ∧ (set_slot0 ws b 0).state = (ws 0).state := by
  simp [set_slot0]

theorem set_slot0_ne (ws : Workspace) (b : Buf) (s : Nat) (hs : s ≠ 0) :
    set_slot0 ws b s = ws s := by
  simp [set_slot0, Function.update_noteq hs]

theorem fallback_eq_foldl (fuel : Nat) :
    ∀ (i nb n : Nat) (ws : Workspace), nb - i ≤ fuel →
      reduce_all_fallback fuel i nb n ws
        = List.foldl (pairwise_step n) ws (List.range' i (nb - i)) := by
  induction fuel with
  | zero =>
    intro i nb n ws h
    have h0 : nb - i = 0 := by omega
    rw [h0]
    rfl
  | succ fuel ih =>
    intro i nb n ws h
    unfold reduce_all_fallback
    by_cases hlt : i < nb
    · rw [if_pos hlt, ih (i + 1) nb n _ (by omega)]
      have h1 : nb - i = (nb - (i + 1)) + 1 := by omega
      rw [h1, List.range'_succ, List.foldl_cons]
      rfl
    · rw [if_neg hlt]
      have h0 : nb - i = 0 := by omega
      rw [h0]
      rfl

theorem foldl_pairwise_step_other (n : Nat) (l : List Nat) :
    ∀ (ws : Workspace) (s : Nat), s ≠ 0 → List.foldl (pairwise_step n) ws l s = ws s := by
  induction l with
  | nil => intro ws s _; rfl
  | cons a l ih =>
    intro ws s hs
    rw [List.foldl_cons, ih _ s hs]
    exact set_slot0_ne _ _ s hs

theorem foldl_pairwise_step_state (n : Nat) (l : List Nat) :
    ∀ (ws : Workspace), (List.foldl (pairwise_step n) ws l 0).state = (ws 0).state := by
  induction l with
  | nil => intro ws; rfl
  | cons a l ih =>
    intro ws
    rw [List.foldl_cons, ih]
    exact (set_slot0_zero _ _).2

theorem sum_once_single (x y : Nat) : sum_once x [y] = narrow (fp32_add (widen x) (widen y)) :=
  rfl

theorem foldl_pairwise_step_buffer (n e : Nat) (l : List Nat) :
    ∀ (ws : Workspace), (∀ s ∈ l, s ≠ 0) →
      (List.foldl (pairwise_step n) ws l 0).buffer e
        = if e < blocks_end n
          then sum_pairwise ((ws 0).buffer e) (l.map (fun s => (ws s).buffer e))
          else (ws 0).buffer e := by
  induction l with
  | nil => intro ws _; simp [sum_pairwise]
  | cons a l ih =>
    intro ws hl
    have ha : a ≠ 0 := hl a (List.mem_cons_self a l)
    have hl2 : ∀ s ∈ l, s ≠ 0 := fun s hs => hl s (List.mem_cons_of_mem a hs)
    rw [List.foldl_cons, ih _ hl2]
    have hsrc : l.map (fun s => (pairwise_step n ws a s).buffer e)
        = l.map (fun s => (ws s).buffer e) := by
      apply List.map_congr_left
      intro s hs
      show (set_slot0 _ _ s).buffer e = _
      rw [set_slot0_ne _ _ s (hl2 s hs)]
    have h0 : (pairwise_step n ws a 0).buffer e
        = if e < blocks_end n then sum_once ((ws 0).buffer e) [(ws a).buffer e]
          else (ws 0).buffer e := by
      show (set_slot0 _ _ 0).buffer e = _
      rw [(set_slot0_zero _ _).1, reduce_bf16_buffers_apply]
    rw [hsrc, h0]
    by_cases c : e < blocks_end n
    · simp only [if_pos c, List.map_cons, sum_pairwise, List.foldl_cons, sum_once_single]
    · simp only [if_neg c]

theorem mem_range'_ne_zero (i n : Nat) (hi : 1 ≤ i) : ∀ s ∈ List.range' i n, s ≠ 0 := by
  intro s hs
  rw [List.mem_range'_1] at hs
  omega

theorem reduce_all_apply (ws : Workspace) (n k e : Nat) :
    ((reduce_all_bf16_buffers ws n k) 0).buffer e
      = if e < blocks_end n then
          (if 3 ≤ k ∧ k ≤ 8 then sum_once ((ws 0).buffer e) (source_elems ws 1 (k - 1) e)
           else sum_pairwise ((ws 0).buffer e) (source_elems ws 1 (k - 1) e))
        else (ws 0).buffer e := by
  unfold reduce_all_bf16_buffers
  by_cases h8 : k = 8
  · subst h8
    simp [set_slot0, reduce_8_apply, source_elems, List.range']
  by_cases h7 : k = 7
  · subst h7
    simp [set_slot0, reduce_7_apply, source_elems, List.range']
  by_cases h6 : k = 6
  · subst h6
    simp [set_slot0, reduce_6_apply, source_elems, List.range']
  by_cases h5 : k = 5
  · subst h5
    simp [set_slot0, reduce_5_apply, source_elems, List.range']
  by_cases h4 : k = 4
  · subst h4
    simp [set_slot0, reduce_4_apply, source_elems, List.range']
  by_cases h3 : k = 3
  · subst h3
    simp [set_slot0, reduce_3_apply, source_elems, List.range']
  have hk : ¬ (3 ≤ k ∧ k ≤ 8) := by omega
  rw [if_neg h8, if_neg h7, if_neg h6, if_neg h5, if_neg h4, if_neg h3, if_neg hk,
    fallback_eq_foldl k 1 k n ws (by omega),
    foldl_pairwise_step_buffer n e _ ws (mem_range'_ne_zero 1 (k - 1) (le_refl 1))]
  rfl

theorem reduce_all_other (ws : Workspace) (n k s : Nat) (hs : s ≠ 0) :
    (reduce_all_bf16_buffers ws n k) s = ws s := by
  unfold reduce_all_bf16_buffers
  split_ifs
  all_goals first
    | exact set_slot0_ne _ _ s hs
    | (rw [fallback_eq_foldl k 1 k n ws (by omega)]
       exact foldl_pairwise_step_other n _ ws s hs)

theorem reduce_all_state (ws : Workspace) (n k : Nat) :
    ((reduce_all_bf16_buffers ws n k) 0).state = (ws 0).state := by
  unfold reduce_all_bf16_buffers
  split_ifs
  all_goals first
    | exact (set_slot0_zero _ _).2
    | (rw [fallback_eq_foldl k 1 k n ws (by omega)]
       exact foldl_pairwise_step_state n _ ws)

theorem lt_blocks_end (n e : Nat) (h : e < n) : e < blocks_end n := by
  unfold blocks_end
  omega

/-! ### NaN operands -/

theorem bf16_isNaN_iff (x : Nat) :
    bf16_isNaN x = true ↔ (x / 2 ^ 7 % 256 = 255 ∧ x % 2 ^ 7 ≠ 0) := by
  unfold bf16_isNaN
  cases h1 : (x / 2 ^ 7 % 256 == 255) <;> cases h2 : (x % 2 ^ 7 != 0) <;> simp_all

theorem widen_isNaN (x : Nat) (h : bf16_isNaN x = true) : fp32_isNaN (widen x) = true := by
  rw [bf16_isNaN_iff] at h
  rw [isNaN_true_iff, widen_eq]
  norm_num at h ⊢
  omega

theorem widen_lt (x : Nat) : widen x < 2 ^ 32 := by
  rw [widen_eq]
  norm_num
  omega

theorem quiet_isNaN (a : Nat) (h : fp32_isNaN a = true) : fp32_isNaN (fp32_quiet a) = true := by
  rw [isNaN_true_iff] at h ⊢
  unfold fp32_quiet
  norm_num at h ⊢
  split_ifs <;> omega

theorem fp32_add_isNaN_left (a b : Nat) (h : fp32_isNaN a = true) :
    fp32_isNaN (fp32_add a b) = true := by
  unfold fp32_add
  rw [if_pos h]
  exact quiet_isNaN a h

theorem fp32_add_isNaN_right (a b : Nat) (h : fp32_isNaN b = true) :
    fp32_isNaN (fp32_add a b) = true := by
  unfold fp32_add
  by_cases ha : fp32_isNaN a = true
  · rw [if_pos ha]
    exact quiet_isNaN a ha
  · rw [if_neg ha, if_pos h]
    exact quiet_isNaN b h

theorem narrow_of_isNaN (v : Nat) (h : fp32_isNaN v = true) : narrow v = 0xFFFF := by
  unfold narrow
  rw [cvt_fp32_to_bf16_guard]
  simp [h]

theorem foldl_add_isNaN_init (l : List Nat) :
    ∀ acc, fp32_isNaN acc = true → fp32_isNaN (List.foldl fp32_add acc l) = true := by
  induction l with
  | nil => intro acc h; exact h
  | cons y l ih =>
    intro acc h
    exact ih _ (fp32_add_isNaN_left acc y h)

theorem foldl_add_isNaN_mem (l : List Nat) :
    ∀ acc, (∃ y ∈ l, fp32_isNaN y = true) →
      fp32_isNaN (List.foldl fp32_add acc l) = true := by
  induction l with
  | nil => intro acc h; obtain ⟨y, hy, _⟩ := h; cases hy
  | cons z l ih =>
    intro acc h
    obtain ⟨y, hy, hn⟩ := h
    rw [List.foldl_cons]
    rcases List.mem_cons.mp hy with rfl | hmem
    · exact foldl_add_isNaN_init l _ (fp32_add_isNaN_right acc y hn)
    · exact ih _ ⟨y, hmem, hn⟩

theorem sum_once_nan (x : Nat) (ys : List Nat)
    (h : bf16_isNaN x = true ∨ ∃ y ∈ ys, bf16_isNaN y = true) : sum_once x ys = 0xFFFF := by
  unfold sum_once accumulate
  apply narrow_of_isNaN
  rcases h with hx | ⟨y, hy, hn⟩
  · exact foldl_add_isNaN_init _ _ (widen_isNaN x hx)
  · exact foldl_add_isNaN_mem _ _ ⟨widen y, List.mem_map_of_mem widen hy, widen_isNaN y hn⟩

theorem sentinel_isNaN : bf16_isNaN 0xFFFF = true := by decide

theorem pairwise_step_nan (d y : Nat) (h : bf16_isNaN d = true ∨ bf16_isNaN y = true) :
    narrow (fp32_add (widen d) (widen y)) = 0xFFFF := by
  apply narrow_of_isNaN
  rcases h with hd | hy
  · exact fp32_add_isNaN_left _ _ (widen_isNaN d hd)
  · exact fp32_add_isNaN_right _ _ (widen_isNaN y hy)

theorem sum_pairwise_sentinel (ys : List Nat) : ys ≠ [] → sum_pairwise 0xFFFF ys = 0xFFFF := by
  induction ys with
  | nil => intro h; exact absurd rfl h
  | cons y l ih =>
    intro _
    unfold sum_pairwise
    rw [List.foldl_cons, pairwise_step_nan 0xFFFF y (Or.inl sentinel_isNaN)]
    by_cases hl : l = []
    · subst hl; rfl
    · exact ih hl

theorem sum_pairwise_nan (ys : List Nat) :
    ∀ x, ys ≠ [] → (bf16_isNaN x = true ∨ ∃ y ∈ ys, bf16_isNaN y = true) →
      sum_pairwise x ys = 0xFFFF := by
  induction ys with
  | nil => intro x h; exact absurd rfl h
  | cons z l ih =>
    intro x _ h
    have hstep : sum_pairwise x (z :: l)
        = sum_pairwise (narrow (fp32_add (widen x) (widen z))) l := rfl
    rw [hstep]
    by_cases hl : l = []
    · subst hl
      rcases h with hx | ⟨y, hy, hn⟩
      · exact pairwise_step_nan x z (Or.inl hx)
      · rcases List.mem_cons.mp hy with rfl | hmem
        · exact pairwise_step_nan x y (Or.inr hn)
        · cases hmem
    · rcases h with hx | ⟨y, hy, hn⟩
      · rw [pairwise_step_nan x z (Or.inl hx)]
        exact sum_pairwise_sentinel l hl
      · rcases List.mem_cons.mp hy with rfl | hmem
        · rw [pairwise_step_nan x y (Or.inr hn)]
          exact sum_pairwise_sentinel l hl
        · exact ih _ hl (Or.inr ⟨y, hmem, hn⟩)

theorem mem_source_elems (ws : Workspace) (k e j : Nat) (h1 : 1 ≤ j) (hj : j < k) :
    (ws j).buffer e ∈ source_elems ws 1 (k - 1) e := by
  unfold source_elems
  apply List.mem_map.mpr
  refine ⟨j, ?_, rfl⟩
  rw [List.mem_range'_1]
  omega

theorem source_elems_ne_nil (ws : Workspace) (k e : Nat) (hk : 2 ≤ k) :
    source_elems ws 1 (k - 1) e ≠ [] := by
  intro h
  have := congrArg List.length h
  simp [source_elems] at this
  omega

theorem reduce_all_nan (ws : Workspace) (n k i j : Nat) (hk : 2 ≤ k) (hi : i < n)
    (hj : j < k) (hnan : bf16_isNaN ((ws j).buffer i) = true) :
    ((reduce_all_bf16_buffers ws n k) 0).buffer i = 0xFFFF := by
  rw [reduce_all_apply, if_pos (lt_blocks_end n i hi)]
  have hop : bf16_isNaN ((ws 0).buffer i) = true
      ∨ ∃ y ∈ source_elems ws 1 (k - 1) i, bf16_isNaN y = true := by
    by_cases h0 : j = 0
    · subst h0; exact Or.inl hnan
    · exact Or.inr ⟨_, mem_source_elems ws k i j (by omega) hj, hnan⟩
  split_ifs
  · exact sum_once_nan _ _ hop
  · exact sum_pairwise_nan _ _ (source_elems_ne_nil ws k i hk) hop

/-! ### When narrowing after every addition changes nothing -/

theorem narrow_congr (a b : Nat)
    (h : (fp32_isNaN a = true ∧ fp32_isNaN b = true) ∨ a = b) : narrow a = narrow b := by
  rcases h with ⟨ha, hb⟩ | rfl
  · rw [narrow_of_isNaN a ha, narrow_of_isNaN b hb]
  · rfl

theorem fp32_add_congr (a b y : Nat)
    (h : (fp32_isNaN a = true ∧ fp32_isNaN b = true) ∨ a = b) :
    (fp32_isNaN (fp32_add a y) = true ∧ fp32_isNaN (fp32_add b y) = true)
      ∨ fp32_add a y = fp32_add b y := by
  rcases h with ⟨ha, hb⟩ | rfl
  · exact Or.inl ⟨fp32_add_isNaN_left a y ha, fp32_add_isNaN_left b y hb⟩
  · exact Or.inr rfl

theorem narrow_eq_hi (v : Nat) (hv : v < 2 ^ 32) (hn : fp32_isNaN v = false)
    (hlo : v % 65536 = 0) : narrow v = v / 65536 := by
  have h := (rne (fun _ => v) 0 hv hn).1
  unfold narrow
  rw [h]
  simp [hlo]

theorem widen_narrow_exact (v : Nat) (hv : v < 2 ^ 32) (hn : fp32_isNaN v = false)
    (hlo : v % 65536 = 0) : widen (narrow v) = v := by
  rw [narrow_eq_hi v hv hn hlo, widen_eq]
  norm_num at hv
  omega

theorem fp32_round_le (m : Nat) : fp32_round m ≤ 0x7F800000 := by
  unfold fp32_round
  simp only
  split_ifs <;> first | exact le_refl _ | exact le_of_lt (lt_of_not_le ‹_›)

theorem fp32_quiet_lt (a : Nat) (ha : a < 2 ^ 32) : fp32_quiet a < 2 ^ 32 := by
  unfold fp32_quiet
  norm_num at ha ⊢
  split_ifs <;> omega

theorem fp32_add_lt (a b : Nat) (ha : a < 2 ^ 32) (hb : b < 2 ^ 32) :
    fp32_add a b < 2 ^ 32 := by
  have hr := fp32_round_le (fp32_val a + fp32_val b).natAbs
  unfold fp32_add
  simp only
  split_ifs
  · exact fp32_quiet_lt a ha
  · exact fp32_quiet_lt b hb
  · norm_num
  · exact ha
  · exact hb
  · norm_num
  · norm_num
  · norm_num at hr ⊢; omega
  · norm_num at hr ⊢; omega

theorem sum_pairwise_eq_of_exact (ys : List Nat) :
    ∀ (d acc : Nat), ys ≠ [] →
      ((fp32_isNaN (widen d) = true ∧ fp32_isNaN acc = true) ∨ widen d = acc) →
      (∀ t, 0 < t → t < ys.length →
        bf16_exact (List.foldl fp32_add acc ((ys.take t).map widen)) = true) →
      sum_pairwise d ys = narrow (List.foldl fp32_add acc (ys.map widen)) := by
  induction ys with
  | nil => intro d acc h; exact absurd rfl h
  | cons y l ih =>
    intro d acc _ hrel hex
    have hstep : sum_pairwise d (y :: l)
        = sum_pairwise (narrow (fp32_add (widen d) (widen y))) l := rfl
    have hu := fp32_add_congr (widen d) acc (widen y) hrel
    rw [hstep, List.map_cons, List.foldl_cons]
    by_cases hl : l = []
    · subst hl
      exact narrow_congr _ _ hu
    · have hlen : 0 < l.length := List.length_pos.mpr hl
      have hex1 : bf16_exact (fp32_add acc (widen y)) = true := by
        have := hex 1 (by omega) (by simp; omega)
        simpa using this
      apply ih _ _ hl
      · by_cases hnan : fp32_isNaN (fp32_add acc (widen y)) = true
        · left
          refine ⟨?_, hnan⟩
          have hun : fp32_isNaN (fp32_add (widen d) (widen y)) = true := by
            rcases hu with ⟨h1, _⟩ | h1
            · exact h1
            · rw [h1]; exact hnan
          rw [narrow_of_isNaN _ hun]
          exact widen_isNaN _ sentinel_isNaN
        · right
          have hueq : fp32_add (widen d) (widen y) = fp32_add acc (widen y) := by
            rcases hu with ⟨_, h2⟩ | h1
            · exact absurd h2 hnan
            · exact h1
          have hnf : fp32_isNaN (fp32_add acc (widen y)) = false := by
            simpa using hnan
          have hlo : fp32_add acc (widen y) % 65536 = 0 := by
            unfold bf16_exact at hex1
            rw [hnf] at hex1
            simpa using hex1
          rw [hueq]
          apply widen_narrow_exact _ _ hnf hlo
          rw [← hueq]
          exact fp32_add_lt _ _ (widen_lt d) (widen_lt y)
      · intro t ht0 htl
        have := hex (t + 1) (by omega) (by simp; omega)
        simpa using this

theorem pairwise_sequence_apply (srcs : List Buf) (n e : Nat) :
    ∀ (dest : Buf), pairwise_sequence dest srcs n e
      = if e < blocks_end n then sum_pairwise (dest e) (srcs.map (fun s => s e))
        else dest e := by
  induction srcs with
  | nil => intro dest; simp [pairwise_sequence, sum_pairwise]
  | cons s l ih =>
    intro dest
    have hstep : pairwise_sequence dest (s :: l) n
        = pairwise_sequence (reduce_bf16_buffers dest s n) l n := rfl
    rw [hstep, ih, reduce_bf16_buffers_apply]
    by_cases c : e < blocks_end n
    · simp only [if_pos c, List.map_cons, sum_pairwise, List.foldl_cons, sum_once_single]
    · simp only [if_neg c]

theorem take_range'_le (s n t : Nat) (h : t ≤ n) :
    (List.range' s n).take t = List.range' s t := by
  have hsplit : List.range' s n = List.range' s t ++ List.range' (s + t) (n - t) := by
    rw [List.range'_append_1]
    congr 1
    omega
  rw [hsplit, List.take_left' (by simp)]

theorem source_elems_take (ws : Workspace) (n t e : Nat) (h : t ≤ n) :
    (source_elems ws 1 n e).take t = source_elems ws 1 t e := by
  unfold source_elems
  rw [← List.map_take, take_range'_le 1 n t h]

theorem source_elems_eq_map (ws : Workspace) (n e : Nat) :
    ((List.range' 1 n).map (fun s => (ws s).buffer)).map (fun s => s e)
      = source_elems ws 1 n e := by
  simp [source_elems, List.map_map, Function.comp_def]

theorem reduce_all_eq_pairwise_of_exact (ws : Workspace) (n k e : Nat) (hk : 2 ≤ k)
    (hex : ∀ t, 0 < t → t < k - 1 →
      bf16_exact (accumulate ((ws 0).buffer e) (source_elems ws 1 t e)) = true) :
    ((reduce_all_bf16_buffers ws n k) 0).buffer e
      = pairwise_sequence (ws 0).buffer
          ((List.range' 1 (k - 1)).map (fun s => (ws s).buffer)) n e := by
  rw [reduce_all_apply, pairwise_sequence_apply, source_elems_eq_map]
  by_cases c : e < blocks_end n
  · rw [if_pos c, if_pos c]
    split_ifs with h38
    · symm
      unfold sum_once accumulate
      apply sum_pairwise_eq_of_exact _ _ _ (source_elems_ne_nil ws k e hk) (Or.inr rfl)
      intro t ht0 htl
      have hlen : (source_elems ws 1 (k - 1) e).length = k - 1 := by simp [source_elems]
      rw [hlen] at htl
      rw [source_elems_take ws (k - 1) t e (by omega)]
      exact hex t ht0 htl
    · rfl
  · rw [if_neg c, if_neg c]

/-! ### The invariant is kept by every step -/

theorem goto_rank_self (c : Config) (r : Nat) (pc : PC) (ws : Workspace) (d : Buf) :
    (goto c r pc ws d).rank r = { pc := pc, data := d } := by
  simp [goto]

theorem goto_rank_ne (c : Config) (r : Nat) (pc : PC) (ws : Workspace) (d : Buf) (s : Nat)
    (h : s ≠ r) : (goto c r pc ws d).rank s = c.rank s := by
  simp [goto, Function.update_noteq h]

theorem goto_buffer (c : Config) (r : Nat) (pc : PC) (ws : Workspace) (d : Buf) :
    (goto c r pc ws d).buffer = ws := rfl

theorem set_state_self (ws : Workspace) (r : Nat) (s : Int) :
    (set_state ws r s r).state = s ∧ (set_state ws r s r).buffer = (ws r).buffer := by
  simp [set_state]

theorem set_state_ne (ws : Workspace) (r : Nat) (s : Int) (t : Nat) (h : t ≠ r) :
    set_state ws r s t = ws t := by
  simp [set_state, Function.update_noteq h]

theorem set_buffer_self (ws : Workspace) (r : Nat) (b : Buf) :
    (set_buffer ws r b r).state = (ws r).state ∧ (set_buffer ws r b r).buffer = b := by
  simp [set_buffer]

theorem set_buffer_ne (ws : Workspace) (r : Nat) (b : Buf) (t : Nat) (h : t ≠ r) :
    set_buffer ws r b t = ws t := by
  simp [set_buffer, Function.update_noteq h]

theorem inv_init {R N : Nat} {ws0 : Workspace} {inp : Nat → Buf} (hidle : ∀ r, r < R → (ws0 r).state = 0) : Inv R N ws0 inp (init ws0 inp) where
  role0 := rfl
  peers := fun _ _ _ => Or.inl rfl
  state := fun r hr => hidle r hr
  buf := fun _ _ => rfl
  data := fun _ _ => rfl

/-- A step of rank 0 that leaves the other ranks and slots alone keeps the invariant when
rank 0 itself satisfies it afterwards and the peers' positions stay allowed. -/
theorem inv_of_rank0 {R N : Nat} {ws0 : Workspace} {inp : Nat → Buf} {c c' : Config} (h : Inv R N ws0 inp c)
    (hrank : ∀ j, j ≠ 0 → c'.rank j = c.rank j)
    (hslot : ∀ j, j ≠ 0 → c'.buffer j = c.buffer j)
    (hrole : is_rank0_pc (c'.rank 0).pc = true)
    (hpeers : ∀ j, 0 < j → j < R → compat (c'.rank 0).pc j (c.rank j).pc)
    (hstate : (c'.buffer 0).state = state_of_pc (c'.rank 0).pc)
    (hbuf : (c'.buffer 0).buffer = expected_buffer R N ws0 inp 0 (c'.rank 0).pc)
    (hdata : (c'.rank 0).data = expected_data R N ws0 inp 0 (c'.rank 0).pc) :
    Inv R N ws0 inp c' where
  role0 := hrole
  peers := fun j hj hjR => by
    rw [hrank j (by omega)]
    exact hpeers j hj hjR
  state := fun r hr => by
    by_cases h0 : r = 0
    · subst h0; exact hstate
    · rw [hrank r h0, hslot r h0]; exact h.state r hr
  buf := fun r hr => by
    by_cases h0 : r = 0
    · subst h0; exact hbuf
    · rw [hrank r h0, hslot r h0]; exact h.buf r hr
  data := fun r hr => by
    by_cases h0 : r = 0
    · subst h0; exact hdata
    · rw [hrank r h0]; exact h.data r hr

/-- A step of peer `r` that leaves the other ranks and slots alone keeps the invariant when
the peer itself satisfies it afterwards. -/
theorem inv_of_peer {R N : Nat} {ws0 : Workspace} {inp : Nat → Buf} {c c' : Config} (h : Inv R N ws0 inp c) (r : Nat) (hr0 : 0 < r)
    (hrR : r < R)
    (hrank : ∀ j, j ≠ r → c'.rank j = c.rank j)
    (hslot : ∀ j, j ≠ r → c'.buffer j = c.buffer j)
    (hpeer : compat (c.rank 0).pc r (c'.rank r).pc)
    (hstate : (c'.buffer r).state = state_of_pc (c'.rank r).pc)
    (hbuf : (c'.buffer r).buffer = expected_buffer R N ws0 inp r (c'.rank r).pc)
    (hdata : (c'.rank r).data = expected_data R N ws0 inp r (c'.rank r).pc) :
    Inv R N ws0 inp c' where
  role0 := by rw [hrank 0 (by omega)]; exact h.role0
  peers := fun j hj hjR => by
    rw [hrank 0 (by omega)]
    by_cases hjr : j = r
    · subst hjr; exact hpeer
    · rw [hrank j hjr]; exact h.peers j hj hjR
  state := fun s hs => by
    by_cases hsr : s = r
    · subst hsr; exact hstate
    · rw [hrank s hsr, hslot s hsr]; exact h.state s hs
  buf := fun s hs => by
    by_cases hsr : s = r
    · subst hsr; exact hbuf
    · rw [hrank s hsr, hslot s hsr]; exact h.buf s hs
  data := fun s hs => by
    by_cases hsr : s = r
    · subst hsr; exact hdata
    · rw [hrank s hsr]; exact h.data s hs

theorem source_elems_congr (ws ws' : Workspace) (k e : Nat)
    (h : ∀ s, s < k → (ws s).buffer = (ws' s).buffer) :
    source_elems ws 1 (k - 1) e = source_elems ws' 1 (k - 1) e := by
  unfold source_elems
  apply List.map_congr_left
  intro s hs
  rw [List.mem_range'_1] at hs
  rw [h s (by omega)]

theorem reduce_all_congr (ws ws' : Workspace) (n k : Nat) (hk : 0 < k)
    (h : ∀ s, s < k → (ws s).buffer = (ws' s).buffer) :
    ((reduce_all_bf16_buffers ws n k) 0).buffer
      = ((reduce_all_bf16_buffers ws' n k) 0).buffer := by
  funext e
  rw [reduce_all_apply, reduce_all_apply, source_elems_congr ws ws' k e h, h 0 hk]

theorem inv_step_rank0 {R N : Nat} {ws0 : Workspace} {inp : Nat → Buf} {c c' : Config}
    (h : Inv R N ws0 inp c) (h0 : 0 < R)
    (hs : all_reduce_low_latency R N 0 c = some c') : Inv R N ws0 inp c' := by
  have hrole := h.role0
  have hst := h.state 0 h0
  have hb := h.buf 0 h0
  have hd := h.data 0 h0
  have hp := h.peers
  unfold all_reduce_low_latency at hs
  cases hpc : (c.rank 0).pc with
  | l530 =>
    simp only [hpc, Option.some.injEq] at hs
    subst hs
    rw [hpc] at hst hb hd hp
    refine inv_of_rank0 h (fun j hj => goto_rank_ne _ _ _ _ _ j hj)
      (fun j hj => by rw [goto_buffer, set_buffer_ne _ _ _ j hj]) ?_ ?_ ?_ ?_ ?_
    · rw [goto_rank_self]; rfl
    · intro j hj hjR
      rw [goto_rank_self]
      exact hp j hj hjR
    · rw [goto_rank_self, goto_buffer, (set_buffer_self _ _ _).1, hst]; rfl
    · rw [goto_rank_self, goto_buffer, (set_buffer_self _ _ _).2, hb, hd]; rfl
    · rw [goto_rank_self]; exact hd
  | l531 =>
    simp only [hpc, Option.some.injEq, if_true] at hs
    subst hs
    rw [hpc] at hst hb hd hp
    refine inv_of_rank0 h (fun j hj => goto_rank_ne _ _ _ _ _ j hj)
      (fun j hj => by rw [goto_buffer, set_state_ne _ _ _ j hj]) ?_ ?_ ?_ ?_ ?_
    · rw [goto_rank_self]; rfl
    · intro j hj hjR
      rw [goto_rank_self]
      have := hp j hj hjR
      simp only [compat] at this ⊢
      refine ⟨le_refl 1, ?_⟩
      rcases this with h1 | h1 | h1
      · exact Or.inr ⟨Or.inl h1, hj⟩
      · exact Or.inr ⟨Or.inr h1, hj⟩
      · exact Or.inl h1
    · rw [goto_rank_self, goto_buffer, (set_state_self _ _ _).1]; rfl
    · rw [goto_rank_self, goto_buffer, (set_state_self _ _ _).2, hb]; rfl
    · rw [goto_rank_self]; exact hd
  | l537 i =>
    simp only [hpc] at hs
    rw [hpc] at hst hb hd hp
    by_cases hi : i < R
    · rw [if_pos hi] at hs
      by_cases hw : wait_buffer_state_until c.buffer i 1 = true
      · rw [if_pos hw] at hs
        simp only [Option.some.injEq] at hs
        subst hs
        refine inv_of_rank0 h (fun j hj => goto_rank_ne _ _ _ _ _ j hj)
          (fun j _ => by rw [goto_buffer]) ?_ ?_ ?_ ?_ ?_
        · rw [goto_rank_self]; rfl
        · intro j hj hjR
          rw [goto_rank_self]
          have hc := hp j hj hjR
          simp only [compat] at hc ⊢
          refine ⟨by omega, ?_⟩
          rcases hc.2 with h1 | ⟨h1, h2⟩
          · exact Or.inl h1
          · right
            refine ⟨h1, ?_⟩
            have hne : j ≠ i := by
              intro hji
              subst hji
              have hsj := h.state j hjR
              simp only [wait_buffer_state_until, beq_iff_eq] at hw
              rw [hw] at hsj
              rcases h1 with h1 | h1 <;> rw [h1] at hsj <;> simp [state_of_pc] at hsj
            omega
        · rw [goto_rank_self, goto_buffer, hst]; rfl
        · rw [goto_rank_self, goto_buffer, hb]; rfl
        · rw [goto_rank_self]; exact hd
      · rw [if_neg hw] at hs
        cases hs
    · rw [if_neg hi] at hs
      simp only [Option.some.injEq] at hs
      subst hs
      refine inv_of_rank0 h (fun j hj => goto_rank_ne _ _ _ _ _ j hj)
        (fun j _ => by rw [goto_buffer]) ?_ ?_ ?_ ?_ ?_
      · rw [goto_rank_self]; rfl
      · intro j hj hjR
        rw [goto_rank_self]
        have hc := hp j hj hjR
        simp only [compat] at hc ⊢
        rcases hc.2 with h1 | ⟨_, h2⟩
        · exact h1
        · omega
      · rw [goto_rank_self, goto_buffer, hst]; rfl
      · rw [goto_rank_self, goto_buffer, hb]; rfl
      · rw [goto_rank_self]; exact hd
  | l539 =>
    simp only [hpc, Option.some.injEq] at hs
    subst hs
    rw [hpc] at hst hb hd hp
    refine inv_of_rank0 h (fun j hj => goto_rank_ne _ _ _ _ _ j hj)
      (fun j hj => by rw [goto_buffer, reduce_all_other _ _ _ j hj]) ?_ ?_ ?_ ?_ ?_
    · rw [goto_rank_self]; rfl
    · intro j hj hjR
      rw [goto_rank_self]
      exact hp j hj hjR
    · rw [goto_rank_self, goto_buffer, reduce_all_state, hst]; rfl
    · rw [goto_rank_self, goto_buffer]
      show _ = reduced R N ws0 inp
      unfold reduced
      apply reduce_all_congr _ _ _ _ h0
      intro s hsR
      by_cases hs0 : s = 0
      · subst hs0; rw [hb]; rfl
      · have hc := hp s (by omega) hsR
        simp only [compat] at hc
        rw [h.buf s hsR, hc]
        rfl
    · rw [goto_rank_self]; exact hd
  | l543 =>
    simp only [hpc, Option.some.injEq] at hs
    subst hs
    rw [hpc] at hst hb hd hp
    refine inv_of_rank0 h (fun j hj => goto_rank_ne _ _ _ _ _ j hj)
      (fun j hj => by rw [goto_buffer, set_state_ne _ _ _ j hj]) ?_ ?_ ?_ ?_ ?_
    · rw [goto_rank_self]; rfl
    · intro j hj hjR
      rw [goto_rank_self]
      have hc := hp j hj hjR
      simp only [compat] at hc ⊢
      exact Or.inl hc
    · rw [goto_rank_self, goto_buffer, (set_state_self _ _ _).1]; rfl
    · rw [goto_rank_self, goto_buffer, (set_state_self _ _ _).2, hb]; rfl
    · rw [goto_rank_self]; exact hd
  | l544 =>
    simp only [hpc, Option.some.injEq] at hs
    subst hs
    rw [hpc] at hst hb hd hp
    refine inv_of_rank0 h (fun j hj => goto_rank_ne _ _ _ _ _ j hj)
      (fun j _ => by rw [goto_buffer]) ?_ ?_ ?_ ?_ ?_
    · rw [goto_rank_self]; rfl
    · intro j hj hjR
      rw [goto_rank_self]
      have hc := hp j hj hjR
      simp only [compat] at hc ⊢
      refine ⟨le_refl 1, ?_⟩
      rcases hc with h1 | h1 | h1 | h1
      · exact Or.inr ⟨Or.inl h1, hj⟩
      · exact Or.inr ⟨Or.inr (Or.inl h1), hj⟩
      · exact Or.inr ⟨Or.inr (Or.inr h1), hj⟩
      · exact Or.inl h1
    · rw [goto_rank_self, goto_buffer, hst]; rfl
    · rw [goto_rank_self, goto_buffer, hb]; rfl
    · rw [goto_rank_self, hb, hd]; rfl
  | l552 i =>
    simp only [hpc] at hs
    rw [hpc] at hst hb hd hp
    by_cases hi : i < R
    · rw [if_pos hi] at hs
      by_cases hw : wait_buffer_state_until c.buffer i 2 = true
      · rw [if_pos hw] at hs
        simp only [Option.some.injEq] at hs
        subst hs
        refine inv_of_rank0 h (fun j hj => goto_rank_ne _ _ _ _ _ j hj)
          (fun j _ => by rw [goto_buffer]) ?_ ?_ ?_ ?_ ?_
        · rw [goto_rank_self]; rfl
        · intro j hj hjR
          rw [goto_rank_self]
          have hc := hp j hj hjR
          simp only [compat] at hc ⊢
          refine ⟨by omega, ?_⟩
          rcases hc.2 with h1 | ⟨h1, h2⟩
          · exact Or.inl h1
          · right
            refine ⟨h1, ?_⟩
            have hne : j ≠ i := by
              intro hji
              subst hji
              have hsj := h.state j hjR
              simp only [wait_buffer_state_until, beq_iff_eq] at hw
              rw [hw] at hsj
              rcases h1 with h1 | h1 | h1 <;> rw [h1] at hsj <;> simp [state_of_pc] at hsj
            omega
        · rw [goto_rank_self, goto_buffer, hst]; rfl
        · rw [goto_rank_self, goto_buffer, hb]; rfl
        · rw [goto_rank_self]; exact hd
      · rw [if_neg hw] at hs
        cases hs
    · rw [if_neg hi] at hs
      simp only [Option.some.injEq] at hs
      subst hs
      refine inv_of_rank0 h (fun j hj => goto_rank_ne _ _ _ _ _ j hj)
        (fun j _ => by rw [goto_buffer]) ?_ ?_ ?_ ?_ ?_
      · rw [goto_rank_self]; rfl
      · intro j hj hjR
        rw [goto_rank_self]
        have hc := hp j hj hjR
        simp only [compat] at hc ⊢
        rcases hc.2 with h1 | ⟨_, h2⟩
        · exact h1
        · omega
      · rw [goto_rank_self, goto_buffer, hst]; rfl
      · rw [goto_rank_self, goto_buffer, hb]; rfl
      · rw [goto_rank_self]; exact hd
  | l553 =>
    simp only [hpc, Option.some.injEq] at hs
    subst hs
    rw [hpc] at hst hb hd hp
    refine inv_of_rank0 h (fun j hj => goto_rank_ne _ _ _ _ _ j hj)
      (fun j hj => by rw [goto_buffer, set_state_ne _ _ _ j hj]) ?_ ?_ ?_ ?_ ?_
    · rw [goto_rank_self]; rfl
    · intro j hj hjR
      rw [goto_rank_self]
      have hc := hp j hj hjR
      simp only [compat] at hc ⊢
      exact Or.inl hc
    · rw [goto_rank_self, goto_buffer, (set_state_self _ _ _).1]; rfl
    · rw [goto_rank_self, goto_buffer, (set_state_self _ _ _).2, hb]; rfl
    · rw [goto_rank_self]; exact hd
  | l559 =>
    simp only [hpc] at hs
    cases hs
  | l547 => rw [hpc] at hrole; cases hrole
  | l548 => rw [hpc] at hrole; cases hrole
  | l549 => rw [hpc] at hrole; cases hrole
  | l556 => rw [hpc] at hrole; cases hrole
  | l557 => rw [hpc] at hrole; cases hrole

theorem compat_peer_pc {pc0 pcj : PC} {j : Nat} (h : compat pc0 j pcj) :
    is_rank0_pc pcj = false ∨ pcj = .l530 ∨ pcj = .l531 ∨ pcj = .l559 := by
  cases pc0 <;> simp only [compat] at h
  all_goals first
    | exact absurd h id
    | (rcases h with h | h | h | h <;> subst h <;> simp [is_rank0_pc])
    | (rcases h with h | h | h <;> subst h <;> simp [is_rank0_pc])
    | (subst h; simp [is_rank0_pc])
    | (rcases h.2 with h1 | ⟨h1 | h1, _⟩ <;> subst h1 <;> simp [is_rank0_pc])
    | (rcases h.2 with h1 | ⟨h1 | h1 | h1, _⟩ <;> subst h1 <;> simp [is_rank0_pc])

theorem inv_step_peer {R N : Nat} {ws0 : Workspace} {inp : Nat → Buf} {c c' : Config}
    (h : Inv R N ws0 inp c) (r : Nat) (hr0 : 0 < r) (hrR : r < R)
    (hs : all_reduce_low_latency R N r c = some c') : Inv R N ws0 inp c' := by
  have hne : r ≠ 0 := by omega
  have hst := h.state r hrR
  have hb := h.buf r hrR
  have hd := h.data r hrR
  have hp := h.peers r hr0 hrR
  have hst0 := h.state 0 (by omega)
  have hb0 := h.buf 0 (by omega)
  have hrole := compat_peer_pc hp
  unfold all_reduce_low_latency at hs
  cases hpc : (c.rank r).pc with
  | l530 =>
    simp only [hpc, Option.some.injEq] at hs
    subst hs
    rw [hpc] at hst hb hd hp
    refine inv_of_peer h r hr0 hrR (fun j hj => goto_rank_ne _ _ _ _ _ j hj)
      (fun j hj => by rw [goto_buffer, set_buffer_ne _ _ _ j hj]) ?_ ?_ ?_ ?_
    · rw [goto_rank_self]
      cases hpc0 : (c.rank 0).pc <;> rw [hpc0] at hp <;> simp only [compat] at hp ⊢ <;>
        simp_all
    · rw [goto_rank_self, goto_buffer, (set_buffer_self _ _ _).1, hst]; rfl
    · rw [goto_rank_self, goto_buffer, (set_buffer_self _ _ _).2, hb, hd]; rfl
    · rw [goto_rank_self]; exact hd
  | l531 =>
    simp only [hpc, Option.some.injEq, if_neg hne] at hs
    subst hs
    rw [hpc] at hst hb hd hp
    refine inv_of_peer h r hr0 hrR (fun j hj => goto_rank_ne _ _ _ _ _ j hj)
      (fun j hj => by rw [goto_buffer, set_state_ne _ _ _ j hj]) ?_ ?_ ?_ ?_
    · rw [goto_rank_self]
      cases hpc0 : (c.rank 0).pc <;> rw [hpc0] at hp <;> simp only [compat] at hp ⊢ <;>
        simp_all
    · rw [goto_rank_self, goto_buffer, (set_state_self _ _ _).1]; rfl
    · rw [goto_rank_self, goto_buffer, (set_state_self _ _ _).2, hb]; rfl
    · rw [goto_rank_self]; exact hd
  | l547 =>
    simp only [hpc] at hs
    rw [hpc] at hst hb hd hp
    by_cases hw : wait_buffer_state_until c.buffer 0 2 = true
    · rw [if_pos hw] at hs
      simp only [Option.some.injEq] at hs
      subst hs
      simp only [wait_buffer_state_until, beq_iff_eq] at hw
      rw [hw] at hst0
      refine inv_of_peer h r hr0 hrR (fun j hj => goto_rank_ne _ _ _ _ _ j hj)
        (fun j _ => by rw [goto_buffer]) ?_ ?_ ?_ ?_
      · rw [goto_rank_self]
        cases hpc0 : (c.rank 0).pc <;> rw [hpc0] at hp hst0 <;>
          simp only [compat, state_of_pc] at hp hst0 ⊢ <;> simp_all
      · rw [goto_rank_self, goto_buffer, hst]; rfl
      · rw [goto_rank_self, goto_buffer, hb]; rfl
      · rw [goto_rank_self]; exact hd
    · rw [if_neg hw] at hs
      cases hs
  | l548 =>
    simp only [hpc, Option.some.injEq] at hs
    subst hs
    rw [hpc] at hst hb hd hp
    have hred : (c.buffer 0).buffer = reduced R N ws0 inp := by
      rw [hb0]
      cases hpc0 : (c.rank 0).pc <;> rw [hpc0] at hp <;> simp only [compat] at hp <;>
        first
          | rfl
          | exact absurd hp id
          | simp at hp
    refine inv_of_peer h r hr0 hrR (fun j hj => goto_rank_ne _ _ _ _ _ j hj)
      (fun j _ => by rw [goto_buffer]) ?_ ?_ ?_ ?_
    · rw [goto_rank_self]
      cases hpc0 : (c.rank 0).pc <;> rw [hpc0] at hp <;> simp only [compat] at hp ⊢ <;>
        simp_all
    · rw [goto_rank_self, goto_buffer, hst]; rfl
    · rw [goto_rank_self, goto_buffer, hb]; rfl
    · rw [goto_rank_self, hred, hd]; rfl
  | l549 =>
    simp only [hpc, Option.some.injEq] at hs
    subst hs
    rw [hpc] at hst hb hd hp
    refine inv_of_peer h r hr0 hrR (fun j hj => goto_rank_ne _ _ _ _ _ j hj)
      (fun j hj => by rw [goto_buffer, set_state_ne _ _ _ j hj]) ?_ ?_ ?_ ?_
    · rw [goto_rank_self]
      cases hpc0 : (c.rank 0).pc <;> rw [hpc0] at hp <;> simp only [compat] at hp ⊢ <;>
        simp_all
    · rw [goto_rank_self, goto_buffer, (set_state_self _ _ _).1]; rfl
    · rw [goto_rank_self, goto_buffer, (set_state_self _ _ _).2, hb]; rfl
    · rw [goto_rank_self]; exact hd
  | l556 =>
    simp only [hpc] at hs
    rw [hpc] at hst hb hd hp
    by_cases hw : wait_buffer_state_until c.buffer 0 0 = true
    · rw [if_pos hw] at hs
      simp only [Option.some.injEq] at hs
      subst hs
      simp only [wait_buffer_state_until, beq_iff_eq] at hw
      rw [hw] at hst0
      refine inv_of_peer h r hr0 hrR (fun j hj => goto_rank_ne _ _ _ _ _ j hj)
        (fun j _ => by rw [goto_buffer]) ?_ ?_ ?_ ?_
      · rw [goto_rank_self]
        cases hpc0 : (c.rank 0).pc <;> rw [hpc0] at hp hst0 <;>
          simp only [compat, state_of_pc] at hp hst0 ⊢ <;> simp_all
      · rw [goto_rank_self, goto_buffer, hst]; rfl
      · rw [goto_rank_self, goto_buffer, hb]; rfl
      · rw [goto_rank_self]; exact hd
    · rw [if_neg hw] at hs
      cases hs
  | l557 =>
    simp only [hpc, Option.some.injEq] at hs
    subst hs
    rw [hpc] at hst hb hd hp
    refine inv_of_peer h r hr0 hrR (fun j hj => goto_rank_ne _ _ _ _ _ j hj)
      (fun j hj => by rw [goto_buffer, set_state_ne _ _ _ j hj]) ?_ ?_ ?_ ?_
    · rw [goto_rank_self]
      cases hpc0 : (c.rank 0).pc <;> rw [hpc0] at hp <;> simp only [compat] at hp ⊢ <;>
        simp_all
    · rw [goto_rank_self, goto_buffer, (set_state_self _ _ _).1]; rfl
    · rw [goto_rank_self, goto_buffer, (set_state_self _ _ _).2, hb]
      simp [expected_buffer, hne]
    · rw [goto_rank_self]; exact hd
  | l559 =>
    simp only [hpc] at hs
    cases hs
  | l537 i => rw [hpc] at hrole; simp [is_rank0_pc] at hrole
  | l539 => rw [hpc] at hrole; simp [is_rank0_pc] at hrole
  | l543 => rw [hpc] at hrole; simp [is_rank0_pc] at hrole
  | l544 => rw [hpc] at hrole; simp [is_rank0_pc] at hrole
  | l552 i => rw [hpc] at hrole; simp [is_rank0_pc] at hrole
  | l553 => rw [hpc] at hrole; simp [is_rank0_pc] at hrole

/-! ### Consequences of the invariant -/

theorem inv_step {R N : Nat} {ws0 : Workspace} {inp : Nat → Buf} {c c' : Config}
    (h : Inv R N ws0 inp c) (hs : Step R N c c') : Inv R N ws0 inp c' := by
  obtain ⟨r, hrR, hstep⟩ := hs
  by_cases h0 : r = 0
  · subst h0
    exact inv_step_rank0 h hrR hstep
  · exact inv_step_peer h r (by omega) hrR hstep

theorem inv_reachable {R N : Nat} {ws0 : Workspace} {inp : Nat → Buf} {c : Config}
    (hidle : ∀ r, r < R → (ws0 r).state = 0)
    (hreach : Reachable R N (init ws0 inp) c) : Inv R N ws0 inp c := by
  induction hreach with
  | refl => exact inv_init hidle
  | tail _ hstep ih => exact inv_step ih hstep

theorem run_reachable (R N : Nat) (sched : List Nat) :
    ∀ (c c' : Config), run R N sched c = some c' → Reachable R N c c' := by
  induction sched with
  | nil =>
    intro c c' h
    simp only [run, Option.some.injEq] at h
    subst h
    exact Relation.ReflTransGen.refl
  | cons r rest ih =>
    intro c c' h
    unfold run at h
    by_cases hr : r < R
    · rw [if_pos hr] at h
      cases hstep : all_reduce_low_latency R N r c with
      | none => rw [hstep] at h; cases h
      | some c1 =>
        rw [hstep] at h
        exact Relation.ReflTransGen.head ⟨r, hr, hstep⟩ (ih c1 c' h)
    · rw [if_neg hr] at h
      cases h

theorem getD_of_isSome {α : Type} (o : Option α) (d : α) (h : o.isSome = true) :
    o = some (o.getD d) := by
  cases o with
  | none => cases h
  | some a => rfl

theorem final_data {R N : Nat} {ws0 : Workspace} {inp : Nat → Buf} {c : Config}
    (h : Inv R N ws0 inp c) (r : Nat) (hr : r < R) (hpc : (c.rank r).pc = .l559)
    (i : Nat) (hi : i < N) : (c.rank r).data i = reduced R N ws0 inp i := by
  rw [h.data r hr, hpc]
  simp [expected_data, copied_out, memcpy, hi]

theorem final_state {R N : Nat} {ws0 : Workspace} {inp : Nat → Buf} {c : Config}
    (h : Inv R N ws0 inp c) (r : Nat) (hr : r < R) (hpc : (c.rank r).pc = .l559) :
    (c.buffer r).state = 0 := by
  rw [h.state r hr, hpc]
  rfl

theorem peer_copy_after_reduce {R N : Nat} {ws0 : Workspace} {inp : Nat → Buf} {c : Config}
    (h : Inv R N ws0 inp c) (r : Nat) (hr0 : 0 < r) (hr : r < R)
    (hpc : (c.rank r).pc = .l548) :
    ((c.rank 0).pc = .l544 ∨ ∃ i, (c.rank 0).pc = .l552 i)
      ∧ (c.buffer 0).buffer = reduced R N ws0 inp := by
  have hp := h.peers r hr0 hr
  have hb0 := h.buf 0 (by omega)
  rw [hpc] at hp
  rw [hb0]
  cases hpc0 : (c.rank 0).pc <;> rw [hpc0] at hp <;> simp only [compat] at hp <;>
    first
      | exact absurd hp id
      | exact ⟨Or.inl rfl, rfl⟩
      | exact ⟨Or.inr ⟨_, rfl⟩, rfl⟩
      | simp at hp

theorem reduce_after_copy_in {R N : Nat} {ws0 : Workspace} {inp : Nat → Buf} {c : Config}
    (h : Inv R N ws0 inp c) (hpc : (c.rank 0).pc = .l539) (r : Nat) (hr : r < R) :
    (c.rank r).pc ≠ .l530 ∧ (c.buffer r).buffer = loaded ws0 inp N r := by
  by_cases h0 : r = 0
  · subst h0
    rw [h.buf 0 hr, hpc]
    exact ⟨by simp, rfl⟩
  · have hp := h.peers r (by omega) hr
    rw [hpc] at hp
    simp only [compat] at hp
    rw [h.buf r hr, hp]
    exact ⟨by simp, rfl⟩

theorem loaded_apply (ws0 : Workspace) (inp : Nat → Buf) (N r i : Nat) (hi : i < N) :
    loaded ws0 inp N r i = inp r i := by
  simp [loaded, memcpy, hi]

/-! ### Values at the concrete inputs -/

theorem reduced_apply (R N : Nat) (ws0 : Workspace) (inp : Nat → Buf) (i : Nat)
    (hi : i < N) :
    reduced R N ws0 inp i
      = if 3 ≤ R ∧ R ≤ 8
        then sum_once (inp 0 i) ((List.range' 1 (R - 1)).map (fun r => inp r i))
        else sum_pairwise (inp 0 i) ((List.range' 1 (R - 1)).map (fun r => inp r i)) := by
  unfold reduced
  rw [reduce_all_apply, if_pos (lt_blocks_end N i hi)]
  have h0 : (loaded_ws ws0 inp N 0).buffer i = inp 0 i := loaded_apply ws0 inp N 0 i hi
  have hs : source_elems (loaded_ws ws0 inp N) 1 (R - 1) i
      = (List.range' 1 (R - 1)).map (fun r => inp r i) := by
    unfold source_elems
    apply List.map_congr_left
    intro s _
    exact loaded_apply ws0 inp N s i hi
  rw [h0, hs]

theorem sum_pairwise_single (x y : Nat) : sum_pairwise x [y] = sum_once x [y] := rfl

set_option maxRecDepth 100000 in
theorem final9_run : run 9 16 sched9 (init ws_idle in9) = some final9 :=
  getD_of_isSome _ _ (by decide)

set_option maxRecDepth 100000 in
theorem final9_finished : finished 9 final9 := by
  unfold finished
  decide

set_option maxRecDepth 100000 in
theorem final2_run : run 2 16 sched2 (init ws_idle in2) = some final2 :=
  getD_of_isSome _ _ (by decide)

theorem ws_idle_state (R : Nat) : ∀ r, r < R → (ws_idle r).state = 0 := fun _ _ => rfl

set_option maxRecDepth 100000 in
theorem nine_pairwise : sum_pairwise (in9 0 0) ((List.range' 1 8).map (fun r => in9 r 0))
    = 0x4380 := by decide

set_option maxRecDepth 100000 in
theorem nine_once : sum_once (in9 0 0) ((List.range' 1 8).map (fun r => in9 r 0))
    = 0x4384 := by decide

set_option maxRecDepth 100000 in
theorem three_once : sum_once 0x4380 [0x3F80, 0x3F80] = 0x4381 := by decide

set_option maxRecDepth 100000 in
theorem three_pairwise : sum_pairwise 0x4380 [0x3F80, 0x3F80] = 0x4380 := by decide

/-! ### Every run of one invocation completes -/

theorem pc_index_le (R : Nat) (pc : PC) : pc_index R pc ≤ 2 * R + 6 := by
  cases pc <;> simp only [pc_index] <;> omega

theorem progress_le (R : Nat) (c : Config) (n : Nat) : progress R c n ≤ n * (2 * R + 6) := by
  induction n with
  | zero => simp [progress]
  | succ n ih =>
    have h := pc_index_le R (c.rank n).pc
    simp only [progress]
    rw [Nat.succ_mul]
    omega

theorem progress_congr (R : Nat) (c c' : Config) (n : Nat)
    (h : ∀ s, s < n → c'.rank s = c.rank s) : progress R c' n = progress R c n := by
  induction n with
  | zero => rfl
  | succ n ih =>
    simp only [progress]
    rw [ih (fun s hs => h s (by omega)), h n (by omega)]

theorem progress_lt (R : Nat) (c c' : Config) (r : Nat)
    (hother : ∀ s, s ≠ r → c'.rank s = c.rank s)
    (hlt : pc_index R (c.rank r).pc < pc_index R (c'.rank r).pc) :
    ∀ n, r < n → progress R c n < progress R c' n := by
  intro n
  induction n with
  | zero => intro h; omega
  | succ n ih =>
    intro hr
    simp only [progress]
    by_cases hrn : r = n
    · subst hrn
      rw [progress_congr R c c' r (fun s hs => hother s (by omega))]
      omega
    · have := ih (by omega)
      rw [hother n (fun h => hrn h.symm)]
      omega

theorem step_advances {R N r : Nat} {c c' : Config} (hr : r < R)
    (hs : all_reduce_low_latency R N r c = some c') :
    (∀ s, s ≠ r → c'.rank s = c.rank s)
      ∧ pc_index R (c.rank r).pc < pc_index R (c'.rank r).pc := by
  unfold all_reduce_low_latency at hs
  cases hpc : (c.rank r).pc <;> simp only [hpc] at hs
  case l537 i =>
    by_cases hi : i < R
    · rw [if_pos hi] at hs
      by_cases hw : wait_buffer_state_until c.buffer i 1 = true
      · rw [if_pos hw] at hs
        simp only [Option.some.injEq] at hs
        subst hs
        refine ⟨fun s hs => goto_rank_ne _ _ _ _ _ s hs, ?_⟩
        rw [goto_rank_self]
        simp only [pc_index]
        omega
      · rw [if_neg hw] at hs; cases hs
    · rw [if_neg hi] at hs
      simp only [Option.some.injEq] at hs
      subst hs
      refine ⟨fun s hs => goto_rank_ne _ _ _ _ _ s hs, ?_⟩
      rw [goto_rank_self]
      simp only [pc_index]
      omega
  case l552 i =>
    by_cases hi : i < R
    · rw [if_pos hi] at hs
      by_cases hw : wait_buffer_state_until c.buffer i 2 = true
      · rw [if_pos hw] at hs
        simp only [Option.some.injEq] at hs
        subst hs
        refine ⟨fun s hs => goto_rank_ne _ _ _ _ _ s hs, ?_⟩
        rw [goto_rank_self]
        simp only [pc_index]
        omega
      · rw [if_neg hw] at hs; cases hs
    · rw [if_neg hi] at hs
      simp only [Option.some.injEq] at hs
      subst hs
      refine ⟨fun s hs => goto_rank_ne _ _ _ _ _ s hs, ?_⟩
      rw [goto_rank_self]
      simp only [pc_index]
      omega
  case l547 =>
    by_cases hw : wait_buffer_state_until c.buffer 0 2 = true
    · rw [if_pos hw] at hs
      simp only [Option.some.injEq] at hs
      subst hs
      refine ⟨fun s hs => goto_rank_ne _ _ _ _ _ s hs, ?_⟩
      rw [goto_rank_self]
      simp only [pc_index]
      omega
    · rw [if_neg hw] at hs; cases hs
  case l556 =>
    by_cases hw : wait_buffer_state_until c.buffer 0 0 = true
    · rw [if_pos hw] at hs
      simp only [Option.some.injEq] at hs
      subst hs
      refine ⟨fun s hs => goto_rank_ne _ _ _ _ _ s hs, ?_⟩
      rw [goto_rank_self]
      simp only [pc_index]
      omega
    · rw [if_neg hw] at hs; cases hs
  case l531 =>
    simp only [Option.some.injEq] at hs
    subst hs
    refine ⟨fun s hs => goto_rank_ne _ _ _ _ _ s hs, ?_⟩
    rw [goto_rank_self]
    split_ifs <;> simp only [pc_index] <;> omega
  all_goals
    cases hs
    try (refine ⟨fun s hs => goto_rank_ne _ _ _ _ _ s hs, ?_⟩
         rw [goto_rank_self]
         simp only [pc_index]
         omega)

theorem can_step {R N : Nat} {ws0 : Workspace} {inp : Nat → Buf} {c : Config}
    (h : Inv R N ws0 inp c) (hnf : ¬ finished R c) :
    ∃ r, r < R ∧ (all_reduce_low_latency R N r c).isSome = true := by
  unfold finished at hnf
  push_neg at hnf
  obtain ⟨q, hqR, hq⟩ := hnf
  have h0 : 0 < R := by omega
  have hst0 := h.state 0 h0
  have hrole := h.role0
  cases hpc0 : (c.rank 0).pc with
  | l530 => exact ⟨0, h0, by simp [all_reduce_low_latency, hpc0]⟩
  | l531 => exact ⟨0, h0, by simp [all_reduce_low_latency, hpc0]⟩
  | l539 => exact ⟨0, h0, by simp [all_reduce_low_latency, hpc0]⟩
  | l543 => exact ⟨0, h0, by simp [all_reduce_low_latency, hpc0]⟩
  | l544 => exact ⟨0, h0, by simp [all_reduce_low_latency, hpc0]⟩
  | l553 => exact ⟨0, h0, by simp [all_reduce_low_latency, hpc0]⟩
  | l537 i =>
    rw [hpc0] at hst0
    by_cases hi : i < R
    · by_cases hw : wait_buffer_state_until c.buffer i 1 = true
      · exact ⟨0, h0, by simp [all_reduce_low_latency, hpc0, hi, hw]⟩
      · have hsi : (c.buffer i).state ≠ 1 := by
          simpa [wait_buffer_state_until] using hw
        have hi0 : i ≠ 0 := by
          intro hz
          subst hz
          exact hsi hst0
        have hc := h.peers i (by omega) hi
        rw [hpc0] at hc
        simp only [compat] at hc
        have hsti := h.state i hi
        rcases hc.2 with h1 | ⟨h1 | h1, _⟩
        · rw [h1] at hsti
          exact absurd hsti hsi
        · exact ⟨i, hi, by simp [all_reduce_low_latency, h1]⟩
        · exact ⟨i, hi, by simp [all_reduce_low_latency, h1, hi0]⟩
    · exact ⟨0, h0, by simp [all_reduce_low_latency, hpc0, hi]⟩
  | l552 i =>
    rw [hpc0] at hst0
    have hst0' : (c.buffer 0).state = 2 := hst0
    by_cases hi : i < R
    · by_cases hw : wait_buffer_state_until c.buffer i 2 = true
      · exact ⟨0, h0, by simp [all_reduce_low_latency, hpc0, hi, hw]⟩
      · have hsi : (c.buffer i).state ≠ 2 := by
          simpa [wait_buffer_state_until] using hw
        have hi0 : i ≠ 0 := by
          intro hz
          subst hz
          exact hsi hst0
        have hc := h.peers i (by omega) hi
        rw [hpc0] at hc
        simp only [compat] at hc
        have hsti := h.state i hi
        rcases hc.2 with h1 | ⟨h1 | h1 | h1, _⟩
        · rw [h1] at hsti
          exact absurd hsti hsi
        · exact ⟨i, hi, by simp [all_reduce_low_latency, h1, wait_buffer_state_until, hst0']⟩
        · exact ⟨i, hi, by simp [all_reduce_low_latency, h1]⟩
        · exact ⟨i, hi, by simp [all_reduce_low_latency, h1]⟩
    · exact ⟨0, h0, by simp [all_reduce_low_latency, hpc0, hi]⟩
  | l559 =>
    rw [hpc0] at hst0
    have hst0' : (c.buffer 0).state = 0 := hst0
    have hq0 : q ≠ 0 := by
      intro hz
      subst hz
      exact hq hpc0
    have hc := h.peers q (by omega) hqR
    rw [hpc0] at hc
    simp only [compat] at hc
    rcases hc with h1 | h1 | h1
    · exact ⟨q, hqR, by simp [all_reduce_low_latency, h1, wait_buffer_state_until, hst0']⟩
    · exact ⟨q, hqR, by simp [all_reduce_low_latency, h1]⟩
    · exact absurd h1 hq
  | l547 => rw [hpc0] at hrole; cases hrole
  | l548 => rw [hpc0] at hrole; cases hrole
  | l549 => rw [hpc0] at hrole; cases hrole
  | l556 => rw [hpc0] at hrole; cases hrole
  | l557 => rw [hpc0] at hrole; cases hrole

theorem finished_reachable_aux {R N : Nat} {ws0 : Workspace} {inp : Nat → Buf} (n : Nat) :
    ∀ c, Inv R N ws0 inp c → R * (2 * R + 6) - progress R c R ≤ n →
      ∃ c', Reachable R N c c' ∧ finished R c' := by
  induction n with
  | zero =>
    intro c h hn
    by_cases hf : finished R c
    · exact ⟨c, Relation.ReflTransGen.refl, hf⟩
    · obtain ⟨r, hr, hsome⟩ := can_step h hf
      obtain ⟨c1, hstep⟩ := Option.isSome_iff_exists.mp hsome
      have hadv := step_advances hr hstep
      have hlt := progress_lt R c c1 r hadv.1 hadv.2 R hr
      have hle := progress_le R c1 R
      omega
  | succ n ih =>
    intro c h hn
    by_cases hf : finished R c
    · exact ⟨c, Relation.ReflTransGen.refl, hf⟩
    · obtain ⟨r, hr, hsome⟩ := can_step h hf
      obtain ⟨c1, hstep⟩ := Option.isSome_iff_exists.mp hsome
      have hadv := step_advances hr hstep
      have hlt := progress_lt R c c1 r hadv.1 hadv.2 R hr
      have hle := progress_le R c1 R
      have hinv1 := inv_step h ⟨r, hr, hstep⟩
      obtain ⟨c', hreach, hfin⟩ := ih c1 hinv1 (by omega)
      exact ⟨c', Relation.ReflTransGen.head ⟨r, hr, hstep⟩ hreach, hfin⟩

/-- No deadlock and no endless run within one invocation: from every state reachable from
an all-IDLE start, a state in which all ranks have returned can be reached. -/
theorem finished_reachable {R N : Nat} {ws0 : Workspace} {inp : Nat → Buf} {c : Config}
    (hidle : ∀ r, r < R → (ws0 r).state = 0)
    (hreach : Reachable R N (init ws0 inp) c) :
    ∃ c', Reachable R N c c' ∧ finished R c' :=
  finished_reachable_aux _ c (inv_reachable hidle hreach) (le_refl _)

/-- Every run of one invocation is finite: each step of a run raises the progress measure
by at least one, and the measure never exceeds `R * (2 * R + 6)`. -/
theorem run_length_le {R N : Nat} (sched : List Nat) :
    ∀ (c c' : Config), run R N sched c = some c' →
      progress R c R + sched.length ≤ progress R c' R := by
  induction sched with
  | nil =>
    intro c c' h
    simp only [run, Option.some.injEq] at h
    subst h
    simp
  | cons r rest ih =>
    intro c c' h
    unfold run at h
    by_cases hr : r < R
    · rw [if_pos hr] at h
      cases hstep : all_reduce_low_latency R N r c with
      | none => rw [hstep] at h; cases h
      | some c1 =>
        rw [hstep] at h
        have hadv := step_advances hr hstep
        have hlt := progress_lt R c c1 r hadv.1 hadv.2 R hr
        have := ih c1 c' h
        simp only [List.length_cons]
        omega
    · rw [if_neg hr] at h
      cases h

/-! ## The claims -/

/-- C1, as amended. For every rank count `R ≥ 2` and inputs of `N` elements (`N` a multiple
of 16, `N ≤ 16384`), started from an all-IDLE workspace: every reachable state can be run on
to a state in which all ranks have returned, and in every such state element `i` of every
rank's output is, for `R ≤ 8`, the fp32 sum of the widened inputs accumulated in rank order
and narrowed to bf16 once, and for `R > 8` the result of adding the inputs of ranks
`1 .. R-1` one at a time with a narrowing to bf16 after every addition. -/
theorem all_reduce_output (R N : Nat) (ws0 : Workspace) (inputs : Nat → Buf)
    (_hR : 2 ≤ R) (_hN16 : N % 16 = 0) (_hN : N ≤ slot_capacity)
    (hidle : ∀ r, r < R → (ws0 r).state = 0) :
    (∀ c, Reachable R N (init ws0 inputs) c → ∃ c', Reachable R N c c' ∧ finished R c')
      ∧ ∀ c, Reachable R N (init ws0 inputs) c → finished R c →
          ∀ r, r < R → ∀ i, i < N →
            (c.rank r).data i
              = if R ≤ 8
                then sum_once (inputs 0 i)
                  ((List.range' 1 (R - 1)).map (fun s => inputs s i))
                else sum_pairwise (inputs 0 i)
                  ((List.range' 1 (R - 1)).map (fun s => inputs s i)) := by
  refine ⟨fun c hreach => finished_reachable hidle hreach, ?_⟩
  intro c hreach hfin r hr i hi
  rw [final_data (inv_reachable hidle hreach) r hr (hfin r hr) i hi,
    reduced_apply R N ws0 inputs i hi]
  by_cases h2 : R = 2
  · subst h2
    simp only [show ¬ (3 ≤ 2 ∧ 2 ≤ 8) by omega, if_false, show (2 : Nat) ≤ 8 by omega, if_true]
    exact sum_pairwise_single _ _
  · by_cases h8 : R ≤ 8
    · rw [if_pos (⟨by omega, h8⟩ : 3 ≤ R ∧ R ≤ 8), if_pos h8]
    · rw [if_neg (fun h => h8 h.2), if_neg h8]

/-- Witness of C1 as amended: two ranks of sixteen elements each. -/
theorem all_reduce_output_witness :
    (2 ≤ 2 ∧ 16 % 16 = 0 ∧ 16 ≤ slot_capacity ∧ ∀ r, r < 2 → (ws_idle r).state = 0)
    ∧ ((∀ c, Reachable 2 16 (init ws_idle in2) c → ∃ c', Reachable 2 16 c c' ∧ finished 2 c')
      ∧ ∀ c, Reachable 2 16 (init ws_idle in2) c → finished 2 c →
          ∀ r, r < 2 → ∀ i, i < 16 →
            (c.rank r).data i
              = if 2 ≤ 8
                then sum_once (in2 0 i)
                  ((List.range' 1 (2 - 1)).map (fun s => in2 s i))
                else sum_pairwise (in2 0 i)
                  ((List.range' 1 (2 - 1)).map (fun s => in2 s i))) :=
  ⟨⟨le_refl 2, rfl, by decide, ws_idle_state 2⟩,
    all_reduce_output 2 16 ws_idle in2 (le_refl 2) rfl (by decide) (ws_idle_state 2)⟩

/-- C1, counterexample. Nine ranks, sixteen elements, rank 0 holding `256.0` and the others
`1.0`: a state in which all ranks have returned is reachable, its output element 0 on rank 0
is `0x4380` (`256.0`), while the fp32 sum narrowed once is `0x4384` (`264.0`). -/
theorem all_reduce_nine_ranks_narrows_repeatedly :
    9 ≥ 2 ∧ 16 % 16 = 0 ∧ 16 ≤ slot_capacity ∧ (∀ r, r < 9 → (ws_idle r).state = 0)
      ∧ Reachable 9 16 (init ws_idle in9) final9 ∧ finished 9 final9
      ∧ (final9.rank 0).data 0 = 0x4380
      ∧ sum_once (in9 0 0) ((List.range' 1 (9 - 1)).map (fun s => in9 s 0)) = 0x4384
      ∧ (final9.rank 0).data 0
          ≠ sum_once (in9 0 0) ((List.range' 1 (9 - 1)).map (fun s => in9 s 0)) := by
  have hreach := run_reachable 9 16 sched9 _ _ final9_run
  have hdata : (final9.rank 0).data 0 = 0x4380 := by
    rw [final_data (inv_reachable (ws_idle_state 9) hreach) 0 (by decide)
      (final9_finished 0 (by decide)) 0 (by decide), reduced_apply 9 16 ws_idle in9 0 (by decide),
      if_neg (by omega)]
    exact nine_pairwise
  refine ⟨by decide, rfl, by decide, ws_idle_state 9, hreach, final9_finished, hdata,
    nine_once, ?_⟩
  rw [hdata]
  have h := nine_once
  simp only [show (9 : Nat) - 1 = 8 by rfl]
  rw [h]
  decide

/-- C2. For every `k` in `2 .. 8`, every element count `N` and every index `i < N`, after
`reduce_all_bf16_buffers(buffer, N, k)` element `i` of slot 0 is the narrowing of the
accumulator obtained from the widened element of slot 0 by adding the widened elements of
slots `1, .., k-1` in that order; `N` need not be a multiple of 16. -/
theorem reduce_all_accumulates_in_fp32 (buffer : Workspace) (N k i : Nat) (hk2 : 2 ≤ k)
    (hk8 : k ≤ 8) (hi : i < N) :
    ((reduce_all_bf16_buffers buffer N k) 0).buffer i
      = narrow (List.foldl fp32_add (widen ((buffer 0).buffer i))
          ((List.range' 1 (k - 1)).map (fun s => widen ((buffer s).buffer i)))) := by
  rw [reduce_all_apply, if_pos (lt_blocks_end N i hi)]
  have hmap : (List.range' 1 (k - 1)).map (fun s => widen ((buffer s).buffer i))
      = (source_elems buffer 1 (k - 1) i).map widen := by
    simp [source_elems, List.map_map, Function.comp_def]
  rw [hmap]
  by_cases h2 : k = 2
  · subst h2
    rw [if_neg (by omega)]
    rfl
  · rw [if_pos (⟨by omega, hk8⟩ : 3 ≤ k ∧ k ≤ 8)]
    rfl

/-- Witness of C2: three slots, five elements, the last element of the partial block. -/
theorem reduce_all_accumulates_in_fp32_witness :
    (2 ≤ 3 ∧ 3 ≤ 8 ∧ 4 < 5)
    ∧ ((reduce_all_bf16_buffers ws_sample 5 3) 0).buffer 4
      = narrow (List.foldl fp32_add (widen ((ws_sample 0).buffer 4))
          ((List.range' 1 (3 - 1)).map (fun s => widen ((ws_sample s).buffer 4)))) :=
  ⟨by decide, reduce_all_accumulates_in_fp32 ws_sample 5 3 4 (by decide) (by decide)
    (by decide)⟩

/-- C3, as amended. For every `k` in `2 .. 8` the specialised kernel that
`reduce_all_bf16_buffers` selects (`reduce_bf16_buffers` for `k = 2`, `reduce_k_bf16_buffers`
for `k = 3 .. 8`) gives at element `e` the same bf16 pattern as `k - 1` calls of
`reduce_bf16_buffers` into dest in source order, provided every intermediate fp32 partial sum
at `e` (dest plus the first `t` sources, `1 ≤ t ≤ k - 2`) is a NaN or has its low sixteen
bits zero, so that narrowing it loses nothing. For `k = 2` there is no intermediate sum. -/
theorem specialised_eq_pairwise_when_exact (buffer : Workspace) (N k e : Nat) (hk2 : 2 ≤ k)
    (_hk8 : k ≤ 8)
    (hexact : ∀ t, 0 < t → t < k - 1 →
      bf16_exact (accumulate ((buffer 0).buffer e) (source_elems buffer 1 t e)) = true) :
    ((reduce_all_bf16_buffers buffer N k) 0).buffer e
      = pairwise_sequence (buffer 0).buffer
          ((List.range' 1 (k - 1)).map (fun s => (buffer s).buffer)) N e :=
  reduce_all_eq_pairwise_of_exact buffer N k e hk2 hexact

set_option maxRecDepth 100000 in
/-- Witness of C3 as amended: three buffers of `1.0`, whose partial sum `2.0` is exact. -/
theorem specialised_eq_pairwise_when_exact_witness :
    (2 ≤ 3 ∧ 3 ≤ 8
      ∧ ∀ t, 0 < t → t < 3 - 1 →
        bf16_exact (accumulate ((ws_ones 0).buffer 0) (source_elems ws_ones 1 t 0)) = true)
    ∧ ((reduce_all_bf16_buffers ws_ones 16 3) 0).buffer 0
      = pairwise_sequence (ws_ones 0).buffer
          ((List.range' 1 (3 - 1)).map (fun s => (ws_ones s).buffer)) 16 0 :=
  have hex : ∀ t, 0 < t → t < 3 - 1 →
      bf16_exact (accumulate ((ws_ones 0).buffer 0) (source_elems ws_ones 1 t 0)) = true := by
    intro t h0 h1
    have ht : t = 1 := by omega
    subst ht
    decide
  ⟨⟨by decide, by decide, hex⟩,
    specialised_eq_pairwise_when_exact ws_ones 16 3 0 (by decide) (by decide) hex⟩

/-- C3, counterexample. With dest `256.0` and two sources `1.0`, `reduce_3_bf16_buffers`
leaves `0x4381` (`258.0`) in element 0 while two calls of `reduce_bf16_buffers` leave
`0x4380` (`256.0`). -/
theorem reduce_3_differs_from_pairwise :
    reduce_3_bf16_buffers buf_256 buf_one buf_one 16 0 = 0x4381
      ∧ pairwise_sequence buf_256 [buf_one, buf_one] 16 0 = 0x4380
      ∧ reduce_3_bf16_buffers buf_256 buf_one buf_one 16 0
          ≠ pairwise_sequence buf_256 [buf_one, buf_one] 16 0 := by
  have h3 : reduce_3_bf16_buffers buf_256 buf_one buf_one 16 0 = 0x4381 := by
    rw [reduce_3_apply, if_pos (by decide)]
    exact three_once
  have hp : pairwise_sequence buf_256 [buf_one, buf_one] 16 0 = 0x4380 := by
    rw [pairwise_sequence_apply, if_pos (by decide)]
    exact three_pairwise
  refine ⟨h3, hp, ?_⟩
  rw [h3, hp]
  decide

/-- C5. NaN propagation: for every `k ≥ 2`, every index `i < N` and every slot `j < k`, if
the element of slot `j` at index `i` is a bf16 NaN pattern then element `i` of slot 0 after
`reduce_all_bf16_buffers` is the sentinel `0xFFFF`, whatever the other operands are. -/
theorem nan_propagation (buffer : Workspace) (N k i j : Nat) (hk : 2 ≤ k) (hi : i < N)
    (hj : j < k) (hnan : bf16_isNaN ((buffer j).buffer i) = true) :
    ((reduce_all_bf16_buffers buffer N k) 0).buffer i = 0xFFFF :=
  reduce_all_nan buffer N k i j hk hi hj hnan

/-- Witness of C5: nine slots, two elements, the NaN in slot 2 at index 1. -/
theorem nan_propagation_witness :
    (2 ≤ 9 ∧ 1 < 2 ∧ 2 < 9 ∧ bf16_isNaN ((ws_nan 2).buffer 1) = true)
    ∧ ((reduce_all_bf16_buffers ws_nan 2 9) 0).buffer 1 = 0xFFFF :=
  ⟨by decide, nan_propagation ws_nan 2 9 1 2 (by decide) (by decide) (by decide)
    (by decide)⟩

/-- C6. `cvt_fp32_to_bf16` rounds to nearest, ties to even: for a lane holding a 32-bit
pattern `v` that is not a NaN, with `hi = v / 65536` and `lo = v % 65536`, the result is `hi`
when `lo < 0x8000`, `hi + 1` when `lo > 0x8000`, and the even one of the two when
`lo = 0x8000`; the additions of the rounding bias do not wrap, and the unsigned saturation
leaves the value unchanged. -/
theorem cvt_fp32_to_bf16_round_nearest_even (src : Lanes) (j : Nat) (hv : src j < 2 ^ 32)
    (hn : fp32_isNaN (src j) = false) :
    cvt_fp32_to_bf16 src j
        = (if src j % 65536 < 0x8000 then src j / 65536
           else if 0x8000 < src j % 65536 then src j / 65536 + 1
           else if src j / 65536 % 2 = 0 then src j / 65536 else src j / 65536 + 1)
      ∧ mm512_and_si512 (mm512_srli_epi32 src 16) (mm512_set1_epi32 0x1) j
          + mm512_set1_epi32 0x7fff j + src j < 2 ^ 32
      ∧ mm512_cvtusepi32_epi16 (cvt_fp32_to_bf16_rounded src) j
          = cvt_fp32_to_bf16_rounded src j :=
  rne src j hv hn

/-- Witness of C6: a lane exactly half way between two bf16 values. -/
theorem cvt_fp32_to_bf16_round_nearest_even_witness :
    (lanes_tie 0 < 2 ^ 32 ∧ fp32_isNaN (lanes_tie 0) = false)
    ∧ (cvt_fp32_to_bf16 lanes_tie 0
        = (if lanes_tie 0 % 65536 < 0x8000 then lanes_tie 0 / 65536
           else if 0x8000 < lanes_tie 0 % 65536 then lanes_tie 0 / 65536 + 1
           else if lanes_tie 0 / 65536 % 2 = 0 then lanes_tie 0 / 65536
           else lanes_tie 0 / 65536 + 1)
      ∧ mm512_and_si512 (mm512_srli_epi32 lanes_tie 16) (mm512_set1_epi32 0x1) 0
          + mm512_set1_epi32 0x7fff 0 + lanes_tie 0 < 2 ^ 32
      ∧ mm512_cvtusepi32_epi16 (cvt_fp32_to_bf16_rounded lanes_tie) 0
          = cvt_fp32_to_bf16_rounded lanes_tie 0) :=
  ⟨by decide, cvt_fp32_to_bf16_round_nearest_even lanes_tie 0 (by decide) (by decide)⟩

/-- C7. `cvt_bf16_to_fp32` is an exact widening: for sixteen 16-bit patterns, lane `j` of
the result is `x j * 65536`; the zero-extension followed by the two-byte shift inside each
128-bit group equals the left shift by 16 of the 32-bit lane; the lane depends on no other
lane of the operand; and its upper sixteen bits are `x j`, its lower sixteen bits zero. -/
theorem cvt_bf16_to_fp32_lossless (x : Lanes) (hx : ∀ j, j < 16 → x j < 2 ^ 16) (j : Nat)
    (hj : j < 16) :
    cvt_bf16_to_fp32 x j = x j * 65536
      ∧ mm512_bslli_epi128 (mm512_cvtepu16_epi32 x) 2 j
          = mm512_cvtepu16_epi32 x j * 2 ^ 16 % 2 ^ 32
      ∧ (∀ y : Lanes, y j = x j → cvt_bf16_to_fp32 y j = cvt_bf16_to_fp32 x j)
      ∧ cvt_bf16_to_fp32 x j / 65536 = x j
      ∧ cvt_bf16_to_fp32 x j % 65536 = 0 := by
  have hxj := hx j hj
  have h1 : cvt_bf16_to_fp32 x j = x j * 65536 := by
    rw [cvt_bf16_to_fp32_lane]
    norm_num at hxj
    omega
  refine ⟨h1, ?_, ?_, ?_, ?_⟩
  · have h2 : mm512_bslli_epi128 (mm512_cvtepu16_epi32 x) 2 j = cvt_bf16_to_fp32 x j := rfl
    rw [h2, h1]
    simp only [mm512_cvtepu16_epi32]
    norm_num at hxj ⊢
    omega
  · intro y hy
    rw [cvt_bf16_to_fp32_lane, cvt_bf16_to_fp32_lane, hy]
  · rw [h1]; omega
  · rw [h1]; omega

/-- Witness of C7: lane 5 of the register holding `0x3F80 + j` in lane `j`. -/
theorem cvt_bf16_to_fp32_lossless_witness :
    ((∀ j, j < 16 → lanes_sample j < 2 ^ 16) ∧ 5 < 16)
    ∧ (cvt_bf16_to_fp32 lanes_sample 5 = lanes_sample 5 * 65536
      ∧ mm512_bslli_epi128 (mm512_cvtepu16_epi32 lanes_sample) 2 5
          = mm512_cvtepu16_epi32 lanes_sample 5 * 2 ^ 16 % 2 ^ 32
      ∧ (∀ y : Lanes, y 5 = lanes_sample 5 →
          cvt_bf16_to_fp32 y 5 = cvt_bf16_to_fp32 lanes_sample 5)
      ∧ cvt_bf16_to_fp32 lanes_sample 5 / 65536 = lanes_sample 5
      ∧ cvt_bf16_to_fp32 lanes_sample 5 % 65536 = 0) :=
  ⟨⟨by decide, by decide⟩, cvt_bf16_to_fp32_lossless lanes_sample (by decide) 5 (by decide)⟩

/-- C8. The NaN guard of the narrowing: a lane holding a NaN yields the sentinel `0xFFFF`,
whatever the rounding arithmetic gives for it; a lane that is not a NaN yields the saturated
result of the rounding arithmetic. The guard does override: for the NaN `0x7FC00000` the
rounding arithmetic alone would give `0x7FC0`. -/
theorem cvt_fp32_to_bf16_nan_guard (src : Lanes) (j : Nat) :
    cvt_fp32_to_bf16 src j
        = (if fp32_isNaN (src j) then 0xFFFF
           else mm512_cvtusepi32_epi16 (cvt_fp32_to_bf16_rounded src) j)
      ∧ fp32_isNaN 0x7FC00000 = true
      ∧ mm512_cvtusepi32_epi16 (cvt_fp32_to_bf16_rounded (fun _ => 0x7FC00000)) 0 = 0x7FC0 :=
  ⟨cvt_fp32_to_bf16_guard src j, by decide, by decide⟩

/-- C9. Agreement under every interleaving. In every state `c` that the ranks of one
invocation can reach from an all-IDLE workspace (`numel ≤ 16384`): if all ranks have
returned, every rank's output equals in its first `numel` elements what
`reduce_all_bf16_buffers` computes from the workspace holding the ranks' inputs; a peer
that is about to copy slot 0 out finds rank 0 past the reduction and past the FINAL flag,
with the reduced buffer in slot 0; when rank 0 is about to reduce, every rank has copied
its input into its slot; all ranks return the same output; and some interleaving takes `c`
on to a state in which all ranks have returned. -/
theorem agreement_under_every_interleaving (R N : Nat) (ws0 : Workspace)
    (inputs : Nat → Buf) (c : Config) (_hN : N ≤ slot_capacity)
    (hidle : ∀ r, r < R → (ws0 r).state = 0)
    (hreach : Reachable R N (init ws0 inputs) c) :
    (finished R c → ∀ r, r < R → ∀ i, i < N →
        (c.rank r).data i
          = ((reduce_all_bf16_buffers (loaded_ws ws0 inputs N) N R) 0).buffer i)
      ∧ (∀ r, 0 < r → r < R → (c.rank r).pc = .l548 →
          ((c.rank 0).pc = .l544 ∨ ∃ i, (c.rank 0).pc = .l552 i)
            ∧ (c.buffer 0).buffer
                = ((reduce_all_bf16_buffers (loaded_ws ws0 inputs N) N R) 0).buffer)
      ∧ ((c.rank 0).pc = .l539 → ∀ r, r < R →
          (c.rank r).pc ≠ .l530 ∧ ∀ i, i < N → (c.buffer r).buffer i = inputs r i)
      ∧ (finished R c → ∀ r, r < R → ∀ r', r' < R → ∀ i, i < N →
          (c.rank r).data i = (c.rank r').data i)
      ∧ ∃ c', Reachable R N c c' ∧ finished R c' := by
  have hinv := inv_reachable hidle hreach
  refine ⟨?_, ?_, ?_, ?_, finished_reachable hidle hreach⟩
  · intro hfin r hr i hi
    exact final_data hinv r hr (hfin r hr) i hi
  · intro r hr0 hr hpc
    exact peer_copy_after_reduce hinv r hr0 hr hpc
  · intro hpc r hr
    have h := reduce_after_copy_in hinv hpc r hr
    refine ⟨h.1, fun i hi => ?_⟩
    rw [h.2]
    exact loaded_apply ws0 inputs N r i hi
  · intro hfin r hr r' hr' i hi
    rw [final_data hinv r hr (hfin r hr) i hi, final_data hinv r' hr' (hfin r' hr') i hi]

/-- Witness of C9: two ranks, sixteen elements, the state at the end of `sched2`. -/
theorem agreement_under_every_interleaving_witness :
    (16 ≤ slot_capacity ∧ (∀ r, r < 2 → (ws_idle r).state = 0)
      ∧ Reachable 2 16 (init ws_idle in2) final2)
    ∧ ((finished 2 final2 → ∀ r, r < 2 → ∀ i, i < 16 →
        (final2.rank r).data i
          = ((reduce_all_bf16_buffers (loaded_ws ws_idle in2 16) 16 2) 0).buffer i)
      ∧ (∀ r, 0 < r → r < 2 → (final2.rank r).pc = .l548 →
          ((final2.rank 0).pc = .l544 ∨ ∃ i, (final2.rank 0).pc = .l552 i)
            ∧ (final2.buffer 0).buffer
                = ((reduce_all_bf16_buffers (loaded_ws ws_idle in2 16) 16 2) 0).buffer)
      ∧ ((final2.rank 0).pc = .l539 → ∀ r, r < 2 →
          (final2.rank r).pc ≠ .l530 ∧ ∀ i, i < 16 → (final2.buffer r).buffer i = in2 r i)
      ∧ (finished 2 final2 → ∀ r, r < 2 → ∀ r', r' < 2 → ∀ i, i < 16 →
          (final2.rank r).data i = (final2.rank r').data i)
      ∧ ∃ c', Reachable 2 16 final2 c' ∧ finished 2 c') :=
  ⟨⟨by decide, ws_idle_state 2, run_reachable 2 16 sched2 _ _ final2_run⟩,
    agreement_under_every_interleaving 2 16 ws_idle in2 final2 (by decide) (ws_idle_state 2)
      (run_reachable 2 16 sched2 _ _ final2_run)⟩

/-! ### Outputs do not depend on what the workspace held before -/

theorem reduced_indep (R N : Nat) (ws0 ws0' : Workspace) (inp : Nat → Buf) (i : Nat)
    (hi : i < N) : reduced R N ws0 inp i = reduced R N ws0' inp i := by
  rw [reduced_apply R N ws0 inp i hi, reduced_apply R N ws0' inp i hi]

theorem outputs_indep {R N : Nat} {ws0 ws0' : Workspace} {inp : Nat → Buf} {c c' : Config}
    (hidle : ∀ r, r < R → (ws0 r).state = 0) (hidle' : ∀ r, r < R → (ws0' r).state = 0)
    (hreach : Reachable R N (init ws0 inp) c) (hfin : finished R c)
    (hreach' : Reachable R N (init ws0' inp) c') (hfin' : finished R c')
    (r : Nat) (hr : r < R) (i : Nat) (hi : i < N) :
    (c.rank r).data i = (c'.rank r).data i := by
  rw [final_data (inv_reachable hidle hreach) r hr (hfin r hr) i hi,
    final_data (inv_reachable hidle' hreach') r hr (hfin' r hr) i hi]
  exact reduced_indep R N ws0 ws0' inp i hi

theorem finished_idle {R N : Nat} {ws0 : Workspace} {inp : Nat → Buf} {c : Config}
    (hidle : ∀ r, r < R → (ws0 r).state = 0)
    (hreach : Reachable R N (init ws0 inp) c) (hfin : finished R c) :
    ∀ r, r < R → (c.buffer r).state = 0 :=
  fun r hr => final_state (inv_reachable hidle hreach) r hr (hfin r hr)

/-! ### What holds when a rank has returned -/

theorem returned_facts {R N : Nat} {ws0 : Workspace} {inp : Nat → Buf} {c : Config}
    (h : Inv R N ws0 inp c) (r : Nat) (hr : r < R) (hpc : (c.rank r).pc = .l559) :
    (c.buffer r).state = 0
      ∧ (0 < r → (c.rank 0).pc = .l559 ∧ (c.buffer 0).state = 0)
      ∧ (r = 0 → ∀ j, 0 < j → j < R →
          copied_out (c.rank j).pc = true
            ∧ ((c.buffer j).state = 2 ∨ (c.buffer j).state = 0)) := by
  refine ⟨final_state h r hr hpc, ?_, ?_⟩
  · intro hr0
    have hp := h.peers r hr0 hr
    rw [hpc] at hp
    have hpc0 : (c.rank 0).pc = .l559 := by
      cases h0 : (c.rank 0).pc <;> rw [h0] at hp <;> simp only [compat] at hp <;>
        first
          | rfl
          | exact absurd hp id
          | simp at hp
    exact ⟨hpc0, final_state h 0 (by omega) hpc0⟩
  · intro hr0 j hj hjR
    subst hr0
    have hp := h.peers j hj hjR
    rw [hpc] at hp
    simp only [compat] at hp
    have hs := h.state j hjR
    rcases hp with h1 | h1 | h1 <;> rw [h1] at hs ⊢ <;> simp [copied_out, hs, state_of_pc]

/-! ### The state fields move along the cycle -/

theorem state_of_pc_values (pc : PC) :
    state_of_pc pc = 0 ∨ state_of_pc pc = 1 ∨ state_of_pc pc = 2 := by
  cases pc <;> simp [state_of_pc]

theorem step_pc_cycle {R N r : Nat} {c c' : Config}
    (hs : all_reduce_low_latency R N r c = some c') :
    state_of_pc (c'.rank r).pc = state_of_pc (c.rank r).pc
      ∨ cycle_step (state_of_pc (c.rank r).pc) (state_of_pc (c'.rank r).pc) := by
  unfold all_reduce_low_latency at hs
  cases hpc : (c.rank r).pc <;> simp only [hpc] at hs
  case l537 i =>
    split_ifs at hs <;> cases hs <;> rw [goto_rank_self] <;> simp [state_of_pc]
  case l552 i =>
    split_ifs at hs <;> cases hs <;> rw [goto_rank_self] <;> simp [state_of_pc]
  case l547 =>
    split_ifs at hs
    cases hs
    rw [goto_rank_self]
    simp [state_of_pc]
  case l556 =>
    split_ifs at hs
    cases hs
    rw [goto_rank_self]
    simp [state_of_pc]
  case l531 =>
    cases hs
    rw [goto_rank_self]
    split_ifs <;> simp [state_of_pc, cycle_step]
  all_goals
    cases hs
    try (rw [goto_rank_self]; simp [state_of_pc, cycle_step])

theorem step_state_frame {R N r : Nat} {c c' : Config}
    (hs : all_reduce_low_latency R N r c = some c') (s : Nat) (hsr : s ≠ r) :
    (c'.buffer s).state = (c.buffer s).state := by
  unfold all_reduce_low_latency at hs
  cases hpc : (c.rank r).pc <;> simp only [hpc] at hs
  case l537 i => split_ifs at hs <;> cases hs <;> rfl
  case l552 i => split_ifs at hs <;> cases hs <;> rfl
  case l547 =>
    split_ifs at hs
    cases hs
    rfl
  case l556 =>
    split_ifs at hs
    cases hs
    rfl
  case l539 =>
    cases hs
    rw [goto_buffer]
    by_cases h0 : s = 0
    · subst h0; exact reduce_all_state _ _ _
    · rw [reduce_all_other _ _ _ s h0]
  all_goals
    cases hs
    try (rw [goto_buffer])
    try (rw [set_state_ne _ _ _ s hsr])
    try (rw [set_buffer_ne _ _ _ s hsr])

theorem state_cycle {R N : Nat} {ws0 : Workspace} {inp : Nat → Buf} {c c' : Config}
    (h : Inv R N ws0 inp c) (r : Nat) (hr : r < R)
    (hs : all_reduce_low_latency R N r c = some c') (s : Nat) (_hsR : s < R) :
    (c'.buffer s).state = (c.buffer s).state
      ∨ (s = r ∧ cycle_step (c.buffer s).state (c'.buffer s).state) := by
  by_cases hsr : s = r
  · subst hsr
    have h' := inv_step h ⟨s, hr, hs⟩
    rw [h.state s hr, h'.state s hr]
    rcases step_pc_cycle hs with h1 | h1
    · exact Or.inl h1
    · exact Or.inr ⟨rfl, h1⟩
  · exact Or.inl (step_state_frame hs s hsr)
/-! ### What a step writes -/

theorem sum_pairwise_nil (x : Nat) : sum_pairwise x [] = x := rfl

theorem reduce_all_unwritten (ws : Workspace) (n k e : Nat)
    (h : ¬ (2 ≤ k ∧ e < blocks_end n)) :
    ((reduce_all_bf16_buffers ws n k) 0).buffer e = (ws 0).buffer e := by
  rw [reduce_all_apply]
  by_cases he : e < blocks_end n
  · have hk : ¬ 2 ≤ k := fun h2 => h ⟨h2, he⟩
    have hk1 : k - 1 = 0 := by omega
    rw [if_pos he, if_neg (by omega), hk1]
    rfl
  · rw [if_neg he]

theorem writes_sound {R N r : Nat} {c c' : Config}
    (hs : all_reduce_low_latency R N r c = some c') (l : Loc)
    (hl : writes R N r (c.rank r).pc l = false) :
    read_loc c'.buffer l = read_loc c.buffer l := by
  unfold all_reduce_low_latency at hs
  cases hpc : (c.rank r).pc <;> rw [hpc] at hl <;> simp only [hpc] at hs
  case l537 i => split_ifs at hs <;> cases hs <;> rfl
  case l552 i => split_ifs at hs <;> cases hs <;> rfl
  case l547 =>
    split_ifs at hs
    cases hs
    rfl
  case l556 =>
    split_ifs at hs
    cases hs
    rfl
  case l530 =>
    cases hs
    rw [goto_buffer]
    cases l with
    | state s =>
      simp only [read_loc]
      by_cases hsr : s = r
      · subst hsr; rw [(set_buffer_self _ _ _).1]
      · rw [set_buffer_ne _ _ _ s hsr]
    | elem s e =>
      simp only [read_loc]
      by_cases hsr : s = r
      · subst hsr
        have he : ¬ e < N * 2 / 2 := by simpa [writes] using hl
        rw [(set_buffer_self _ _ _).2]
        simp only [memcpy, if_neg he]
      · rw [set_buffer_ne _ _ _ s hsr]
  case l539 =>
    cases hs
    rw [goto_buffer]
    cases l with
    | state s =>
      simp only [read_loc]
      by_cases h0 : s = 0
      · subst h0; rw [reduce_all_state]
      · rw [reduce_all_other _ _ _ s h0]
    | elem s e =>
      simp only [read_loc]
      by_cases h0 : s = 0
      · subst h0
        have he : ¬ (2 ≤ R ∧ e < blocks_end N) := by
          intro hh
          simp [writes, hh.1, hh.2] at hl
        rw [reduce_all_unwritten _ _ _ _ he]
      · rw [reduce_all_other _ _ _ s h0]
  case l544 => cases hs; rfl
  case l548 => cases hs; rfl
  case l559 => cases hs
  all_goals
    cases hs
    rw [goto_buffer]
    cases l with
    | state s =>
      have hsr : s ≠ r := by simpa [writes] using hl
      simp only [read_loc]
      rw [set_state_ne _ _ _ s hsr]
    | elem s e =>
      simp only [read_loc]
      by_cases hsr : s = r
      · subst hsr; rw [(set_state_self _ _ _).2]
      · rw [set_state_ne _ _ _ s hsr]

theorem blocks_end_le_capacity (N : Nat) (hN : N ≤ slot_capacity) :
    blocks_end N ≤ slot_capacity := by
  unfold blocks_end
  unfold slot_capacity at hN ⊢
  omega

theorem peer_not_at_reduce {R N : Nat} {ws0 : Workspace} {inp : Nat → Buf} {c : Config}
    (h : Inv R N ws0 inp c) (r : Nat) (hr : r < R) (hpc : (c.rank r).pc = .l539) : r = 0 := by
  by_contra h0
  have hp := compat_peer_pc (h.peers r (by omega) hr)
  rw [hpc] at hp
  simp [is_rank0_pc] at hp

theorem writes_own_slot {R N : Nat} {ws0 : Workspace} {inp : Nat → Buf} {c : Config}
    (h : Inv R N ws0 inp c) (hN : N ≤ slot_capacity) (r : Nat) (hr : r < R) (l : Loc)
    (hl : writes R N r (c.rank r).pc l = true) :
    l = .state r ∨ ∃ e, e < slot_capacity ∧ l = .elem r e := by
  cases hpc : (c.rank r).pc <;> rw [hpc] at hl
  case l530 =>
    cases l with
    | state s => simp [writes] at hl
    | elem s e =>
      simp only [writes, Bool.and_eq_true, beq_iff_eq, decide_eq_true_eq] at hl
      obtain ⟨hs, he⟩ := hl
      subst hs
      exact Or.inr ⟨e, by omega, rfl⟩
  case l539 =>
    have hr0 := peer_not_at_reduce h r hr hpc
    subst hr0
    cases l with
    | state s => simp [writes] at hl
    | elem s e =>
      simp only [writes, Bool.and_eq_true, beq_iff_eq, decide_eq_true_eq] at hl
      obtain ⟨⟨hs, _⟩, he⟩ := hl
      subst hs
      have := blocks_end_le_capacity N hN
      exact Or.inr ⟨e, by omega, rfl⟩
  all_goals
    cases l with
    | state s =>
      first
        | (simp only [writes, beq_iff_eq] at hl
           subst hl
           exact Or.inl rfl)
        | simp [writes] at hl
    | elem s e => simp [writes] at hl

theorem own_slot_bytes (r : Nat) (l : Loc)
    (h : l = .state r ∨ ∃ e, e < slot_capacity ∧ l = .elem r e) :
    r * slot_bytes ≤ (loc_bytes l).1 ∧ (loc_bytes l).2 ≤ (r + 1) * slot_bytes := by
  rcases h with rfl | ⟨e, he, rfl⟩
  · simp only [loc_bytes, slot_bytes]
    omega
  · unfold slot_capacity at he
    simp only [loc_bytes, slot_bytes]
    omega
/-! ### Block ranges and values at the concrete inputs of the second part -/

theorem blocks_end_bounds (N : Nat) : N ≤ blocks_end N ∧ blocks_end N < N + 16 := by
  unfold blocks_end
  omega

theorem blocks_end_gt (N : Nat) (h : N % 16 ≠ 0) : N < blocks_end N := by
  unfold blocks_end
  omega

set_option maxRecDepth 100000 in
theorem ones_four : sum_once 0x3F80 [0x3F80, 0x3F80, 0x3F80] = 0x4080 := by decide

set_option maxRecDepth 100000 in
theorem one_plus_three : sum_pairwise 0x3F80 [0x4040] = 0x4080 := by decide

set_option maxRecDepth 100000 in
theorem one_plus_one : sum_once 0x3F80 [0x3F80] = 0x4000 := by decide

set_option maxRecDepth 100000 in
theorem returned2_run :
    run 2 16 sched2_rank0_returned (init ws_idle in2) = some returned2 :=
  getD_of_isSome _ _ (by decide)

set_option maxRecDepth 100000 in
theorem returned2_facts : (returned2.rank 0).pc = .l559 ∧ (returned2.buffer 1).state = 2 := by
  decide

set_option maxRecDepth 100000 in
theorem final5_run : run 2 5 sched2 (init ws_idle in2) = some final5 :=
  getD_of_isSome _ _ (by decide)

set_option maxRecDepth 100000 in
theorem final5_finished : finished 2 final5 := by
  unfold finished
  decide

set_option maxRecDepth 100000 in
theorem final5_stale_run : run 2 5 sched2 (init ws_sample in2) = some final5_stale :=
  getD_of_isSome _ _ (by decide)

set_option maxRecDepth 100000 in
theorem final5_stale_finished : finished 2 final5_stale := by
  unfold finished
  decide

theorem ws_sample_state (R : Nat) : ∀ r, r < R → (ws_sample r).state = 0 := fun _ _ => rfl

set_option maxRecDepth 100000 in
theorem copied2_run : run 2 16 [0] (init ws_idle in2) = some copied2 :=
  getD_of_isSome _ _ (by decide)

set_option maxRecDepth 100000 in
theorem flagged2_step : all_reduce_low_latency 2 16 0 copied2 = some flagged2 :=
  getD_of_isSome _ _ (by decide)

set_option maxRecDepth 100000 in
theorem final4_run : run 4 16 sched4 (init ws_idle in_ones) = some final4 :=
  getD_of_isSome _ _ (by decide)

set_option maxRecDepth 100000 in
theorem final4_finished : finished 4 final4 := by
  unfold finished
  decide

set_option maxRecDepth 100000 in
theorem final_nan_run : run 2 2 sched2 (init ws_idle (in_nan 0x7FC0)) = some final_nan :=
  getD_of_isSome _ _ (by decide)

set_option maxRecDepth 100000 in
theorem final_nan_finished : finished 2 final_nan := by
  unfold finished
  decide

/-! ### The segment functions and the reduction operator -/

theorem shared_open_fails (os : Os) (data : SharedData) (name nbytes : Nat)
    (h : os.shm_open_rdwr name = -1) :
    shared_open os data name nbytes = { data with descriptor := -1 } := by
  simp [shared_open, h]

theorem shared_close_failed (data : SharedData) (h : data.descriptor = -1) :
    shared_close data = [] := by
  simp [shared_close, h]

theorem get_ccl_reduce_op_bool_sum (R : ReduceOp) (u : reduction) :
    get_ccl_reduce_op R true R.SUM true u = .ok .sum := by
  simp [get_ccl_reduce_op]
  rfl

/-! ## The claims, second part -/

/-- C13. Single writer per slot: in every state reachable within one invocation with
`numel ≤ 16384`, every location the next statement of rank `r` stores to is the state field
of slot `r` or one of the 16384 elements of its buffer, and its bytes lie inside the bytes
of slot `r`; every location the statement does not store to keeps its content, so nothing
outside slot `r` changes. -/
theorem single_writer_per_slot (R N : Nat) (ws0 : Workspace) (inputs : Nat → Buf)
    (c : Config) (hN : N ≤ slot_capacity) (hidle : ∀ r, r < R → (ws0 r).state = 0)
    (hreach : Reachable R N (init ws0 inputs) c) (r : Nat) (hr : r < R) (c' : Config)
    (hstep : all_reduce_low_latency R N r c = some c') :
    (∀ l, writes R N r (c.rank r).pc l = true →
        (l = .state r ∨ ∃ e, e < slot_capacity ∧ l = .elem r e)
          ∧ r * slot_bytes ≤ (loc_bytes l).1 ∧ (loc_bytes l).2 ≤ (r + 1) * slot_bytes)
      ∧ (∀ l, writes R N r (c.rank r).pc l = false →
          read_loc c'.buffer l = read_loc c.buffer l)
      ∧ (∀ l, l ≠ .state r → (∀ e, l ≠ .elem r e) →
          read_loc c'.buffer l = read_loc c.buffer l) := by
  have hinv := inv_reachable hidle hreach
  have hown := fun l hl => writes_own_slot hinv hN r hr l hl
  refine ⟨fun l hl => ⟨hown l hl, own_slot_bytes r l (hown l hl)⟩,
    fun l hl => writes_sound hstep l hl, ?_⟩
  intro l hls hle
  apply writes_sound hstep l
  by_contra hw
  have hw' : writes R N r (c.rank r).pc l = true := by simpa using hw
  rcases hown l hw' with h1 | ⟨e, _, h1⟩
  · exact hls h1
  · exact hle e h1

/-- Witness of C13: two ranks, the step in which rank 0 sets its flag to COPIED. -/
theorem single_writer_per_slot_witness :
    (16 ≤ slot_capacity ∧ (∀ r, r < 2 → (ws_idle r).state = 0)
      ∧ Reachable 2 16 (init ws_idle in2) copied2 ∧ 0 < 2
      ∧ all_reduce_low_latency 2 16 0 copied2 = some flagged2)
    ∧ ((∀ l, writes 2 16 0 (copied2.rank 0).pc l = true →
        (l = .state 0 ∨ ∃ e, e < slot_capacity ∧ l = .elem 0 e)
          ∧ 0 * slot_bytes ≤ (loc_bytes l).1 ∧ (loc_bytes l).2 ≤ (0 + 1) * slot_bytes)
      ∧ (∀ l, writes 2 16 0 (copied2.rank 0).pc l = false →
          read_loc flagged2.buffer l = read_loc copied2.buffer l)
      ∧ (∀ l, l ≠ .state 0 → (∀ e, l ≠ .elem 0 e) →
          read_loc flagged2.buffer l = read_loc copied2.buffer l)) :=
  ⟨⟨by decide, ws_idle_state 2, run_reachable 2 16 [0] _ _ copied2_run, by decide,
      flagged2_step⟩,
    single_writer_per_slot 2 16 ws_idle in2 copied2 (by decide) (ws_idle_state 2)
      (run_reachable 2 16 [0] _ _ copied2_run) 0 (by decide) flagged2 flagged2_step⟩

/-- C14, as amended. For every `N` that is not a multiple of 16 and every kernel of the
family, the loop runs over whole blocks: the last block ends at `blocks_end N`, which lies
after `N` and less than sixteen elements after it; the elements of dest from `blocks_end N`
on are unchanged, and every element before it, those at indices `N` and above included, is
replaced by the reduction of the elements at its index. -/
theorem kernels_leave_dest_after_last_block (in_out in1 in2 in3 in4 in5 in6 in7 : Buf)
    (N e : Nat) (hN : N % 16 ≠ 0) :
    (N < blocks_end N ∧ blocks_end N < N + 16)
      ∧ (blocks_end N ≤ e →
        reduce_bf16_buffers in_out in1 N e = in_out e
          ∧ reduce_3_bf16_buffers in_out in1 in2 N e = in_out e
          ∧ reduce_4_bf16_buffers in_out in1 in2 in3 N e = in_out e
          ∧ reduce_5_bf16_buffers in_out in1 in2 in3 in4 N e = in_out e
          ∧ reduce_6_bf16_buffers in_out in1 in2 in3 in4 in5 N e = in_out e
          ∧ reduce_7_bf16_buffers in_out in1 in2 in3 in4 in5 in6 N e = in_out e
          ∧ reduce_8_bf16_buffers in_out in1 in2 in3 in4 in5 in6 in7 N e = in_out e)
      ∧ (e < blocks_end N →
        reduce_bf16_buffers in_out in1 N e = sum_once (in_out e) [in1 e]
          ∧ reduce_3_bf16_buffers in_out in1 in2 N e = sum_once (in_out e) [in1 e, in2 e]
          ∧ reduce_4_bf16_buffers in_out in1 in2 in3 N e
              = sum_once (in_out e) [in1 e, in2 e, in3 e]
          ∧ reduce_5_bf16_buffers in_out in1 in2 in3 in4 N e
              = sum_once (in_out e) [in1 e, in2 e, in3 e, in4 e]
          ∧ reduce_6_bf16_buffers in_out in1 in2 in3 in4 in5 N e
              = sum_once (in_out e) [in1 e, in2 e, in3 e, in4 e, in5 e]
          ∧ reduce_7_bf16_buffers in_out in1 in2 in3 in4 in5 in6 N e
              = sum_once (in_out e) [in1 e, in2 e, in3 e, in4 e, in5 e, in6 e]
          ∧ reduce_8_bf16_buffers in_out in1 in2 in3 in4 in5 in6 in7 N e
              = sum_once (in_out e) [in1 e, in2 e, in3 e, in4 e, in5 e, in6 e, in7 e]) := by
  refine ⟨⟨blocks_end_gt N hN, (blocks_end_bounds N).2⟩, ?_, ?_⟩
  · intro he
    have hn : ¬ e < blocks_end N := by omega
    rw [reduce_bf16_buffers_apply, reduce_3_apply, reduce_4_apply, reduce_5_apply,
      reduce_6_apply, reduce_7_apply, reduce_8_apply]
    simp only [if_neg hn, and_self]
  · intro he
    rw [reduce_bf16_buffers_apply, reduce_3_apply, reduce_4_apply, reduce_5_apply,
      reduce_6_apply, reduce_7_apply, reduce_8_apply]
    simp only [if_pos he, and_self]

/-- Witness of C14 as amended: five elements, buffers of `1.0` and of a ramp. -/
theorem kernels_leave_dest_after_last_block_witness :
    5 % 16 ≠ 0
    ∧ ((5 < blocks_end 5 ∧ blocks_end 5 < 5 + 16)
      ∧ (blocks_end 5 ≤ 20 →
        reduce_bf16_buffers buf_ramp buf_one 5 20 = buf_ramp 20
          ∧ reduce_3_bf16_buffers buf_ramp buf_one buf_one 5 20 = buf_ramp 20
          ∧ reduce_4_bf16_buffers buf_ramp buf_one buf_one buf_one 5 20 = buf_ramp 20
          ∧ reduce_5_bf16_buffers buf_ramp buf_one buf_one buf_one buf_one 5 20 = buf_ramp 20
          ∧ reduce_6_bf16_buffers buf_ramp buf_one buf_one buf_one buf_one buf_one 5 20
              = buf_ramp 20
          ∧ reduce_7_bf16_buffers buf_ramp buf_one buf_one buf_one buf_one buf_one buf_one
              5 20 = buf_ramp 20
          ∧ reduce_8_bf16_buffers buf_ramp buf_one buf_one buf_one buf_one buf_one buf_one
              buf_one 5 20 = buf_ramp 20)
      ∧ (20 < blocks_end 5 →
        reduce_bf16_buffers buf_ramp buf_one 5 20 = sum_once (buf_ramp 20) [buf_one 20]
          ∧ reduce_3_bf16_buffers buf_ramp buf_one buf_one 5 20
              = sum_once (buf_ramp 20) [buf_one 20, buf_one 20]
          ∧ reduce_4_bf16_buffers buf_ramp buf_one buf_one buf_one 5 20
              = sum_once (buf_ramp 20) [buf_one 20, buf_one 20, buf_one 20]
          ∧ reduce_5_bf16_buffers buf_ramp buf_one buf_one buf_one buf_one 5 20
              = sum_once (buf_ramp 20) [buf_one 20, buf_one 20, buf_one 20, buf_one 20]
          ∧ reduce_6_bf16_buffers buf_ramp buf_one buf_one buf_one buf_one buf_one 5 20
              = sum_once (buf_ramp 20)
                  [buf_one 20, buf_one 20, buf_one 20, buf_one 20, buf_one 20]
          ∧ reduce_7_bf16_buffers buf_ramp buf_one buf_one buf_one buf_one buf_one buf_one
              5 20
              = sum_once (buf_ramp 20)
                  [buf_one 20, buf_one 20, buf_one 20, buf_one 20, buf_one 20, buf_one 20]
          ∧ reduce_8_bf16_buffers buf_ramp buf_one buf_one buf_one buf_one buf_one buf_one
              buf_one 5 20
              = sum_once (buf_ramp 20)
                  [buf_one 20, buf_one 20, buf_one 20, buf_one 20, buf_one 20, buf_one 20,
                    buf_one 20])) :=
  ⟨by decide,
    kernels_leave_dest_after_last_block buf_ramp buf_one buf_one buf_one buf_one buf_one
      buf_one buf_one 5 20 (by decide)⟩

/-- C14, counterexample. `reduce_bf16_buffers` on two buffers of `1.0` with `N = 5`
replaces element 10 of dest, an index at or above `N`, by `2.0` (`0x4000`). -/
theorem last_block_overwrites_dest :
    5 % 16 ≠ 0 ∧ 5 ≤ 10
      ∧ buf_one 10 = 0x3F80
      ∧ reduce_bf16_buffers buf_one buf_one 5 10 = 0x4000
      ∧ reduce_bf16_buffers buf_one buf_one 5 10 ≠ buf_one 10 := by
  have h : reduce_bf16_buffers buf_one buf_one 5 10 = 0x4000 := by
    rw [reduce_bf16_buffers_apply, if_pos (by decide)]
    exact one_plus_one
  refine ⟨by decide, by decide, rfl, h, ?_⟩
  rw [h]
  decide

/-- C15, the code at the failing inputs. With the zero-initialised handle: when `shm_open`
returns `-1`, and when `write` writes nothing, `shared_create` leaves the handle as it was,
descriptor `0`; when `write` fails with `-1` the handle gets the descriptor `3` and the
address `MAP_FAILED`. In none of the three cases is the descriptor `-1`. -/
theorem shared_create_failure_not_signalled :
    shared_create os_no_shm handle_zero 7 100 64 = handle_zero
      ∧ (shared_create os_no_shm handle_zero 7 100 64).descriptor = 0
      ∧ shared_create os_write_nothing handle_zero 7 100 64 = handle_zero
      ∧ (shared_create os_write_fails handle_zero 7 100 64).descriptor = 3
      ∧ (shared_create os_write_fails handle_zero 7 100 64).bytes = 2 ^ 64 - 1
      ∧ (shared_create os_write_fails handle_zero 7 100 64).nbytes = 2 ^ 64 - 1 := by
  decide

/-- C16. Opening a segment that is not there: when `shm_open` returns `-1`, `shared_open`
sets the descriptor of the handle to `-1` and leaves `bytes`, `nbytes` and `name` as they
were, and `shared_close` on that handle makes no call, neither `munmap` nor `shm_unlink`. -/
theorem shared_open_missing_segment (os : Os) (data : SharedData) (name nbytes : Nat)
    (h : os.shm_open_rdwr name = -1) :
    (shared_open os data name nbytes).descriptor = -1
      ∧ (shared_open os data name nbytes).bytes = data.bytes
      ∧ (shared_open os data name nbytes).nbytes = data.nbytes
      ∧ (shared_open os data name nbytes).name = data.name
      ∧ shared_close (shared_open os data name nbytes) = [] := by
  rw [shared_open_fails os data name nbytes h]
  exact ⟨rfl, rfl, rfl, rfl, shared_close_failed _ rfl⟩

/-- Witness of C16: a handle left over from an earlier open, on a system without the
segment. -/
theorem shared_open_missing_segment_witness :
    os_no_shm.shm_open_rdwr 7 = -1
    ∧ ((shared_open os_no_shm handle_old 7 128).descriptor = -1
      ∧ (shared_open os_no_shm handle_old 7 128).bytes = handle_old.bytes
      ∧ (shared_open os_no_shm handle_old 7 128).nbytes = handle_old.nbytes
      ∧ (shared_open os_no_shm handle_old 7 128).name = handle_old.name
      ∧ shared_close (shared_open os_no_shm handle_old 7 128) = []) :=
  ⟨rfl, shared_open_missing_segment os_no_shm handle_old 7 128 rfl⟩

/-- C18. Four ranks, each holding sixteen elements of `1.0` (`0x3F80`): started from an
all-IDLE workspace, every reachable state can be run on to a state in which all ranks have
returned, and in every such state all sixteen output elements of every rank are `4.0`
(`0x4080`). -/
theorem four_ranks_of_ones (ws0 : Workspace) (inputs : Nat → Buf) (c : Config)
    (hin : ∀ r, r < 4 → ∀ i, i < 16 → inputs r i = 0x3F80)
    (hidle : ∀ r, r < 4 → (ws0 r).state = 0)
    (hreach : Reachable 4 16 (init ws0 inputs) c) :
    (finished 4 c → ∀ r, r < 4 → ∀ i, i < 16 → (c.rank r).data i = 0x4080)
      ∧ ∃ c', Reachable 4 16 c c' ∧ finished 4 c' := by
  refine ⟨?_, finished_reachable hidle hreach⟩
  intro hfin r hr i hi
  rw [final_data (inv_reachable hidle hreach) r hr (hfin r hr) i hi,
    reduced_apply 4 16 ws0 inputs i hi, if_pos (by omega)]
  have hl : (List.range' 1 (4 - 1)).map (fun s => inputs s i)
      = [inputs 1 i, inputs 2 i, inputs 3 i] := rfl
  rw [hl, hin 0 (by omega) i hi, hin 1 (by omega) i hi, hin 2 (by omega) i hi,
    hin 3 (by omega) i hi]
  exact ones_four

/-- Witness of C18: the state at the end of the interleaving `sched4`. -/
theorem four_ranks_of_ones_witness :
    ((∀ r, r < 4 → ∀ i, i < 16 → in_ones r i = 0x3F80)
      ∧ (∀ r, r < 4 → (ws_idle r).state = 0)
      ∧ Reachable 4 16 (init ws_idle in_ones) final4)
    ∧ ((finished 4 final4 → ∀ r, r < 4 → ∀ i, i < 16 → (final4.rank r).data i = 0x4080)
      ∧ ∃ c', Reachable 4 16 final4 c' ∧ finished 4 c') :=
  ⟨⟨fun _ _ _ _ => rfl, ws_idle_state 4, run_reachable 4 16 sched4 _ _ final4_run⟩,
    four_ranks_of_ones ws_idle in_ones final4 (fun _ _ _ _ => rfl) (ws_idle_state 4)
      (run_reachable 4 16 sched4 _ _ final4_run)⟩

/-- C19. Two ranks of two elements, rank 0 holding a NaN pattern and `1.0`, rank 1 holding
`2.0` and `3.0`: started from an all-IDLE workspace, every reachable state can be run on to
a state in which both ranks have returned, and in every such state the output of both ranks
is the sentinel `0xFFFF` followed by `4.0` (`0x4080`). -/
theorem nan_scenario (x : Nat) (ws0 : Workspace) (c : Config)
    (hx : bf16_isNaN x = true) (hidle : ∀ r, r < 2 → (ws0 r).state = 0)
    (hreach : Reachable 2 2 (init ws0 (in_nan x)) c) :
    (finished 2 c → ∀ r, r < 2 → (c.rank r).data 0 = 0xFFFF ∧ (c.rank r).data 1 = 0x4080)
      ∧ ∃ c', Reachable 2 2 c c' ∧ finished 2 c' := by
  refine ⟨?_, finished_reachable hidle hreach⟩
  intro hfin r hr
  have hinv := inv_reachable hidle hreach
  rw [final_data hinv r hr (hfin r hr) 0 (by omega),
    final_data hinv r hr (hfin r hr) 1 (by omega),
    reduced_apply 2 2 ws0 (in_nan x) 0 (by omega),
    reduced_apply 2 2 ws0 (in_nan x) 1 (by omega), if_neg (by omega), if_neg (by omega)]
  constructor
  · exact pairwise_step_nan x 0x4000 (Or.inl hx)
  · exact one_plus_three

/-- Witness of C19: the quiet NaN `0x7FC0`, the state at the end of the interleaving
`sched2`. -/
theorem nan_scenario_witness :
    (bf16_isNaN 0x7FC0 = true ∧ (∀ r, r < 2 → (ws_idle r).state = 0)
      ∧ Reachable 2 2 (init ws_idle (in_nan 0x7FC0)) final_nan)
    ∧ ((finished 2 final_nan →
        ∀ r, r < 2 → (final_nan.rank r).data 0 = 0xFFFF ∧ (final_nan.rank r).data 1 = 0x4080)
      ∧ ∃ c', Reachable 2 2 final_nan c' ∧ finished 2 c') :=
  ⟨⟨by decide, ws_idle_state 2, run_reachable 2 2 sched2 _ _ final_nan_run⟩,
    nan_scenario 0x7FC0 ws_idle final_nan (by decide) (ws_idle_state 2)
      (run_reachable 2 2 sched2 _ _ final_nan_run)⟩

/-- C20, the code at the failing input. For a bool tensor and `op = ReduceOp.SUM`,
whatever the values of the enumeration are, `get_ccl_reduce_op` returns
`ccl::reduction::sum`: the assignment of `max` in the bool branch is overwritten by the
chain of comparisons that follows it. -/
theorem get_ccl_reduce_op_bool_sum_is_sum (ReduceOp : ReduceOp) (indeterminate : reduction) :
    get_ccl_reduce_op ReduceOp true ReduceOp.SUM true indeterminate = .ok .sum
      ∧ get_ccl_reduce_op ReduceOp true ReduceOp.SUM true indeterminate ≠ .ok .max := by
  rw [get_ccl_reduce_op_bool_sum]
  exact ⟨rfl, by simp⟩

/-! ### Conversions: round trip and special values -/

theorem bf16_isNaN_false_iff (x : Nat) :
    bf16_isNaN x = false ↔ (x / 2 ^ 7 % 256 = 255 → x % 2 ^ 7 = 0) := by
  unfold bf16_isNaN
  cases h1 : (x / 2 ^ 7 % 256 == 255) <;> cases h2 : (x % 2 ^ 7 != 0) <;> simp_all

theorem widen_not_isNaN (x : Nat) (hx : x < 2 ^ 16) (h : bf16_isNaN x = false) :
    fp32_isNaN (widen x) = false := by
  rw [bf16_isNaN_false_iff] at h
  rw [isNaN_false_iff, widen_eq]
  norm_num at h hx ⊢
  omega

theorem narrow_widen (x : Nat) (hx : x < 2 ^ 16) :
    narrow (widen x) = if bf16_isNaN x then 0xFFFF else x := by
  cases h : bf16_isNaN x
  · rw [narrow_eq_hi (widen x) (widen_lt x) (widen_not_isNaN x hx h)]
    · rw [widen_eq]
      norm_num at hx ⊢
      omega
    · rw [widen_eq]
      omega
  · rw [narrow_of_isNaN (widen x) (widen_isNaN x h)]
    rfl

theorem round_trip_lane (x : Lanes) (j : Nat) (hx : x j < 2 ^ 16) :
    cvt_fp32_to_bf16 (cvt_bf16_to_fp32 x) j = if bf16_isNaN (x j) then 0xFFFF else x j := by
  rw [cvt_fp32_to_bf16_lane, cvt_bf16_to_fp32_lane, ← widen_eq]
  exact narrow_widen (x j) hx

theorem narrow_special (src : Lanes) (j : Nat) (hv : src j < 2 ^ 32)
    (hn : fp32_isNaN (src j) = false) :
    bf16_isNaN (cvt_fp32_to_bf16 src j) = false
      ∧ cvt_fp32_to_bf16 src j < 2 ^ 16
      ∧ cvt_fp32_to_bf16 src j / 2 ^ 15 = src j / 2 ^ 31
      ∧ cvt_fp32_to_bf16 src j ≠ 0xFFFF
      ∧ (0x7F7F8000 ≤ src j % 2 ^ 31 →
          cvt_fp32_to_bf16 src j = src j / 2 ^ 31 * 0x8000 + 0x7F80) := by
  rw [(rne src j hv hn).1, bf16_isNaN_false_iff]
  rw [isNaN_false_iff] at hn
  generalize src j = v at *
  norm_num at hn hv ⊢
  have hb : v ≤ 0xFF800000 := by omega
  have hs : v < 0x80000000 → v ≤ 0x7F800000 := by omega
  refine ⟨?_, ?_, ?_, ?_, ?_⟩
  · split_ifs <;> omega
  · split_ifs <;> omega
  · split_ifs <;> omega
  · split_ifs <;> omega
  · split_ifs <;> omega

theorem sentinel_iff (src : Lanes) (j : Nat) (hv : src j < 2 ^ 32) :
    cvt_fp32_to_bf16 src j = 0xFFFF ↔ fp32_isNaN (src j) = true := by
  constructor
  · intro h
    cases hn : fp32_isNaN (src j)
    · exact absurd h (narrow_special src j hv hn).2.2.2.1
    · rfl
  · intro h
    rw [cvt_fp32_to_bf16_lane]
    exact narrow_of_isNaN (src j) h

/-! ### The addition is commutative up to the payload of a NaN -/

theorem isInf_iff (v : Nat) :
    fp32_isInf v = true ↔ (v / 2 ^ 23 % 256 = 255 ∧ v % 2 ^ 23 = 0) := by
  unfold fp32_isInf fp32_exp fp32_frac
  cases h1 : (v / 2 ^ 23 % 256 == 255) <;> cases h2 : (v % 2 ^ 23 == 0) <;> simp_all

theorem inf_eq_of_sign (a b : Nat) (ha : a < 2 ^ 32) (hb : b < 2 ^ 32)
    (hia : fp32_isInf a = true) (hib : fp32_isInf b = true)
    (hs : fp32_sign a = fp32_sign b) : a = b := by
  rw [isInf_iff] at hia hib
  unfold fp32_sign at hs
  norm_num at hia hib ha hb hs
  omega

theorem fp32_add_comm (a b : Nat) (ha : a < 2 ^ 32) (hb : b < 2 ^ 32)
    (hna : fp32_isNaN a = false) (hnb : fp32_isNaN b = false) :
    fp32_add a b = fp32_add b a := by
  unfold fp32_add
  simp only [hna, hnb, Bool.false_eq_true, if_false]
  by_cases hia : fp32_isInf a = true
  · by_cases hib : fp32_isInf b = true
    · by_cases hs : fp32_sign a = fp32_sign b
      · have e := inf_eq_of_sign a b ha hb hia hib hs
        subst e
        rfl
      · have hs2 : ¬ fp32_sign b = fp32_sign a := fun c => hs c.symm
        simp [hia, hib, hs, hs2]
    · simp [hia, hib]
  · by_cases hib : fp32_isInf b = true
    · simp [hia, hib]
    · simp only [hia, hib, Bool.false_eq_true, if_false]
      rw [add_comm (fp32_val a) (fp32_val b)]
      simp only [and_comm]

theorem narrow_add_comm (a b : Nat) (ha : a < 2 ^ 32) (hb : b < 2 ^ 32) :
    narrow (fp32_add a b) = narrow (fp32_add b a) := by
  cases hna : fp32_isNaN a
  · cases hnb : fp32_isNaN b
    · rw [fp32_add_comm a b ha hb hna hnb]
    · rw [narrow_of_isNaN _ (fp32_add_isNaN_right a b hnb),
        narrow_of_isNaN _ (fp32_add_isNaN_left b a hnb)]
  · rw [narrow_of_isNaN _ (fp32_add_isNaN_left a b hna),
      narrow_of_isNaN _ (fp32_add_isNaN_right b a hna)]

theorem sum_once_comm (x y : Nat) : sum_once x [y] = sum_once y [x] := by
  rw [sum_once_single, sum_once_single]
  exact narrow_add_comm (widen x) (widen y) (widen_lt x) (widen_lt y)

theorem reduce_bf16_buffers_comm (a b : Buf) (N e : Nat) (he : e < blocks_end N) :
    reduce_bf16_buffers a b N e = reduce_bf16_buffers b a N e := by
  rw [reduce_bf16_buffers_apply, reduce_bf16_buffers_apply, if_pos he, if_pos he]
  exact sum_once_comm (a e) (b e)
/-! ### The launch guard -/

theorem launch_guard_iff (size groups : Int) (hs : 0 ≤ size) (hg : 1 ≤ groups) :
    ((size.tdiv groups) - 1).tdiv 4096 + 1 ≤ 256 ↔ size.tdiv groups ≤ 1048576 := by
  have hq : 0 ≤ size.tdiv groups := Int.tdiv_nonneg hs (by omega)
  generalize size.tdiv groups = q at *
  by_cases h0 : q = 0
  · subst h0
    decide
  · have h1 : 0 ≤ q - 1 := by omega
    rw [Int.tdiv_eq_ediv h1 (by norm_num)]
    omega

theorem ds_quantize_eq (vals : Tensor) (groups bits : Int)
    (hs : 0 ≤ element_count vals.sizes) (hg : 1 ≤ groups) :
    ds_quantize vals groups bits
      = (if (element_count vals.sizes).tdiv groups ≤ 1048576
         then [{ asym := false, vals := vals.data_ptr, size := element_count vals.sizes,
                 groups := groups, bits := bits }]
         else [], vals) := by
  unfold ds_quantize
  simp only [launch_guard_iff _ _ hs hg]
  split_ifs <;> rfl

theorem ds_quantize_asym_eq (vals : Tensor) (groups bits : Int)
    (hs : 0 ≤ element_count vals.sizes) (hg : 1 ≤ groups) :
    ds_quantize_asym vals groups bits
      = (if (element_count vals.sizes).tdiv groups ≤ 1048576
         then [{ asym := true, vals := vals.data_ptr, size := element_count vals.sizes,
                 groups := groups, bits := bits }]
         else [], vals) := by
  unfold ds_quantize_asym
  simp only [launch_guard_iff _ _ hs hg]
  split_ifs <;> rfl

theorem element_count_single (size : Int) (h0 : 0 ≤ size) (h1 : size < 2 ^ 31) :
    element_count [size] = size := by
  simp only [element_count, List.foldl_cons, List.foldl_nil, to_int, one_mul]
  omega

/-! ### `next_unique_val` -/

theorem next_unique_val_loop_spec (past_end : Int) (itr : List Int) :
    ∀ prev_val, List.Chain (fun x y => x < y) prev_val itr →
      (itr = (List.range itr.length).map (fun (i : Nat) => prev_val + 1 + (i : Int))
          ∧ next_unique_val_loop past_end prev_val itr = past_end + 1)
        ∨ (prev_val < next_unique_val_loop past_end prev_val itr
          ∧ next_unique_val_loop past_end prev_val itr ∉ prev_val :: itr
          ∧ ∀ k, prev_val ≤ k → k < next_unique_val_loop past_end prev_val itr →
              k ∈ prev_val :: itr) := by
  induction itr with
  | nil =>
    intro prev_val _
    left
    exact ⟨rfl, rfl⟩
  | cons x itr ih =>
    intro prev_val hc
    rw [List.chain_cons] at hc
    obtain ⟨hlt, hc⟩ := hc
    unfold next_unique_val_loop
    by_cases hx : x = prev_val + 1
    · rw [if_neg (by simpa using hx)]
      rcases ih x hc with ⟨h1, h2⟩ | ⟨h1, h2, h3⟩
      · left
        refine ⟨?_, h2⟩
        rw [List.length_cons, List.range_succ_eq_map, List.map_cons, List.map_map]
        congr 1
        · simp [hx]
        · rw [h1, List.length_map, List.length_range]
          apply List.map_congr_left
          intro i _
          simp only [Function.comp, Nat.succ_eq_add_one, Nat.cast_add, Nat.cast_one, hx]
          ring
      · right
        refine ⟨by omega, ?_, ?_⟩
        · intro hm
          rw [List.mem_cons] at hm
          rcases hm with hm | hm
          · omega
          · exact h2 hm
        · intro k hk1 hk2
          by_cases hk : k = prev_val
          · rw [hk]
            exact List.mem_cons_self _ _
          · exact List.mem_cons_of_mem _ (h3 k (by omega) hk2)
    · rw [if_pos hx]
      right
      refine ⟨by omega, ?_, ?_⟩
      · intro hm
        rw [List.mem_cons, List.mem_cons] at hm
        rcases hm with hm | hm | hm
        · omega
        · omega
        · have h2 : x < prev_val + 1 := (List.pairwise_cons.mp (List.chain_iff_pairwise.mp hc)).1 (prev_val + 1) hm
          omega
      · intro k hk1 hk2
        have hk : k = prev_val := by omega
        rw [hk]
        exact List.mem_cons_self _ _
theorem next_unique_val_loop_gap_free (past_end : Int) (m : Nat) :
    ∀ prev_val, next_unique_val_loop past_end prev_val
        ((List.range m).map (fun (i : Nat) => prev_val + 1 + (i : Int))) = past_end + 1 := by
  induction m with
  | zero => intro prev_val; rfl
  | succ m ih =>
    intro prev_val
    rw [List.range_succ_eq_map, List.map_cons, List.map_map]
    unfold next_unique_val_loop
    rw [if_neg (by simp)]
    have e : List.map ((fun (i : Nat) => prev_val + 1 + (i : Int)) ∘ Nat.succ) (List.range m)
        = List.map (fun (i : Nat) => (prev_val + 1 + ((0 : Nat) : Int)) + 1 + (i : Int))
            (List.range m) := by
      apply List.map_congr_left
      intro i _
      simp only [Function.comp, Nat.succ_eq_add_one, Nat.cast_add, Nat.cast_one, Nat.cast_zero]
      ring
    rw [e]
    exact ih _

theorem gap_free_eq (n : Nat) :
    gap_free n = 0 :: (List.range n).map (fun (i : Nat) => (0 : Int) + 1 + (i : Int)) := by
  unfold gap_free
  rw [List.range_succ_eq_map, List.map_cons, List.map_map]
  congr 1
  apply List.map_congr_left
  intro i _
  simp only [Function.comp, Nat.succ_eq_add_one, Nat.cast_add, Nat.cast_one]
  ring

theorem next_unique_val_gap_free (n : Nat) (past_end : Int) :
    next_unique_val (gap_free (n + 1)) past_end = past_end + 1 := by
  rw [gap_free_eq]
  unfold next_unique_val
  simp only [ne_eq, not_true_eq_false, if_false, List.length_cons, List.length_map,
    List.length_range]
  rw [if_neg (by omega)]
  exact next_unique_val_loop_gap_free past_end (n + 1) 0

theorem mem_gap_free (n : Nat) (k : Int) : k ∈ gap_free n ↔ 0 ≤ k ∧ k ≤ n := by
  unfold gap_free
  rw [List.mem_map]
  constructor
  · rintro ⟨i, hi, rfl⟩
    rw [List.mem_range] at hi
    omega
  · intro h
    refine ⟨k.toNat, ?_, ?_⟩
    · rw [List.mem_range]
      omega
    · omega

theorem least_missing_gap_free (n : Nat) : least_missing (gap_free n) (n + 1) := by
  refine ⟨by omega, ?_, ?_⟩
  · rw [mem_gap_free]
    omega
  · intro k h0 h1
    rw [mem_gap_free]
    omega

theorem least_missing_unique (s : List Int) (v w : Int) (hv : least_missing s v)
    (hw : least_missing s w) : v = w := by
  obtain ⟨v0, v1, v2⟩ := hv
  obtain ⟨w0, w1, w2⟩ := hw
  by_contra hne
  rcases lt_or_gt_of_ne hne with h | h
  · exact v1 (w2 v v0 h)
  · exact w1 (v2 w w0 h)

theorem next_unique_val_spec (s : List Int) (past_end : Int)
    (hs : List.Chain' (fun x y => x < y) s) (h0 : ∀ x ∈ s, 0 ≤ x) :
    (∃ n, s = gap_free (n + 1) ∧ next_unique_val s past_end = past_end + 1)
      ∨ least_missing s (next_unique_val s past_end) := by
  cases s with
  | nil =>
    right
    refine ⟨le_refl 0, ?_, ?_⟩
    · simp
    · intro k h1 h2
      exact absurd h2 (by simp only [next_unique_val]; omega)
  | cons b rest =>
    have hc : List.Chain (fun x y => x < y) b rest := hs
    have hb : 0 ≤ b := h0 b (List.mem_cons_self _ _)
    have hp := List.pairwise_cons.mp (List.chain_iff_pairwise.mp hc)
    unfold next_unique_val
    by_cases hb0 : b = 0
    · subst hb0
      simp only [ne_eq, not_true_eq_false, if_false]
      by_cases hl : (0 :: rest).length = 1
      · rw [if_pos hl]
        have hr : rest = [] := by
          cases rest with
          | nil => rfl
          | cons y ys => simp at hl
        subst hr
        right
        refine ⟨by norm_num, by simp, ?_⟩
        intro k h1 h2
        have hk : k = 0 := by omega
        simp [hk]
      · rw [if_neg hl]
        rcases next_unique_val_loop_spec past_end rest 0 hc with ⟨h1, h2⟩ | ⟨h1, h2, h3⟩
        · left
          cases hn : rest.length with
          | zero =>
            rw [List.length_eq_zero] at hn
            subst hn
            simp at hl
          | succ n =>
            refine ⟨n, ?_, h2⟩
            rw [gap_free_eq, ← hn, ← h1]
        · right
          exact ⟨by omega, h2, fun k hk1 hk2 => h3 k hk1 hk2⟩
    · simp only [ne_eq, hb0, not_false_eq_true, if_true]
      right
      refine ⟨le_refl 0, ?_, ?_⟩
      · intro hm
        rw [List.mem_cons] at hm
        rcases hm with hm | hm
        · exact hb0 hm.symm
        · have := hp.1 0 hm
          omega
      · intro k h1 h2
        omega

/-! ### Two invocations in a row -/

theorem run_calls_reachable (K R N : Nat) (sched : List Nat) :
    ∀ (c c' : Caller), run_calls K R N sched c = some c' → ReachableCalls K R N c c' := by
  induction sched with
  | nil =>
    intro c c' h
    simp only [run_calls, Option.some.injEq] at h
    subst h
    exact Relation.ReflTransGen.refl
  | cons r rest ih =>
    intro c c' h
    unfold run_calls at h
    by_cases hr : r < R
    · rw [if_pos hr] at h
      cases hstep : back_to_back K R N r c with
      | none => rw [hstep] at h; simp at h
      | some c1 =>
        rw [hstep] at h
        exact Relation.ReflTransGen.head ⟨r, hr, hstep⟩ (ih c1 c' h)
    · rw [if_neg hr] at h
      simp at h

theorem stuck_stays (K R N : Nat) (c c' : Caller) (hs : stuck K R N c)
    (hr : ReachableCalls K R N c c') : c' = c := by
  rcases Relation.ReflTransGen.cases_head hr with h | ⟨d, ⟨r, hr1, hr2⟩, _⟩
  · exact h.symm
  · have := hs r hr1
    rw [hr2] at this
    simp at this

set_option maxRecDepth 100000 in
theorem reentered2_run :
    (run_calls 2 2 16 sched_reenter (init_calls ws_idle in2)).isSome = true := by
  decide

set_option maxRecDepth 100000 in
theorem reentered2_facts :
    (reentered2.cfg.rank 0).pc = .l537 1 ∧ reentered2.completed 0 = 1
      ∧ (reentered2.cfg.rank 1).pc = .l556 ∧ reentered2.completed 1 = 0
      ∧ (reentered2.cfg.buffer 0).state = 1 ∧ (reentered2.cfg.buffer 1).state = 2 := by
  decide

set_option maxRecDepth 100000 in
theorem reentered2_stuck : stuck 2 2 16 reentered2 := by
  intro r hr
  interval_cases r
  · decide
  · decide

theorem reentered2_reachable :
    ReachableCalls 2 2 16 (init_calls ws_idle in2) reentered2 :=
  run_calls_reachable 2 2 16 sched_reenter _ _
    (getD_of_isSome _ _ reentered2_run)

theorem reentered2_not_finished : ¬ finished_calls 2 2 reentered2 := by
  intro h
  have h1 := (h 1 (by norm_num)).2
  rw [reentered2_facts.2.2.2.1] at h1
  exact absurd h1 (by decide)

/-! ## Claims C21 to C26 -/

/-- C21: on a gap-free set `{0, 1, .., n + 1}` the smallest non-negative integer outside the
set is `n + 2`, but `next_unique_val` returns the value read through `s.end()` plus one,
whatever that value is; the result is the smallest missing value only if the read happens to
give `n + 1`. For the set `{0, 1}` the result is `past_end + 1`, not `2`. -/
theorem next_unique_val_reads_past_the_end (n : Nat) (past_end : Int) :
    least_missing (gap_free (n + 1)) ((n : Int) + 2)
      ∧ next_unique_val (gap_free (n + 1)) past_end = past_end + 1
      ∧ (least_missing (gap_free (n + 1)) (next_unique_val (gap_free (n + 1)) past_end)
          ↔ past_end = (n : Int) + 1)
      ∧ gap_free 1 = [0, 1]
      ∧ next_unique_val [0, 1] past_end = past_end + 1
      ∧ next_unique_val [0, 1, 2, 7] past_end = 3
      ∧ next_unique_val [] past_end = 0
      ∧ next_unique_val [0] past_end = 1 := by
  have hl : least_missing (gap_free (n + 1)) ((n : Int) + 2) := by
    have h := least_missing_gap_free (n + 1)
    have e : (((n + 1 : Nat) : Int) + 1) = (n : Int) + 2 := by push_cast; ring
    rw [e] at h
    exact h
  refine ⟨hl, next_unique_val_gap_free n past_end, ?_, rfl,
    next_unique_val_gap_free 0 past_end, ?_, rfl, rfl⟩
  · rw [next_unique_val_gap_free]
    constructor
    · intro h
      have := least_missing_unique _ _ _ h hl
      omega
    · intro h
      have e : past_end + 1 = (n : Int) + 2 := by omega
      rw [e]
      exact hl
  · simp [next_unique_val, next_unique_val_loop]

/-- C22: in every lane holding a 16-bit pattern, narrowing the widened value gives the
pattern back when it is not a bf16 NaN and the sentinel 0xFFFF when it is; the zeros, the
smallest subnormals and the infinities of both signs are not NaNs. -/
theorem cvt_round_trip (x : Lanes) (j : Nat) (hx : x j < 2 ^ 16) :
    cvt_fp32_to_bf16 (cvt_bf16_to_fp32 x) j = (if bf16_isNaN (x j) then 0xFFFF else x j)
      ∧ bf16_isNaN 0x0000 = false ∧ bf16_isNaN 0x8000 = false
      ∧ bf16_isNaN 0x0001 = false ∧ bf16_isNaN 0x8001 = false
      ∧ bf16_isNaN 0x7F80 = false ∧ bf16_isNaN 0xFF80 = false :=
  ⟨round_trip_lane x j hx, by decide⟩

set_option maxRecDepth 100000 in
/-- Witness of C22: lane 3 of the sample register, pattern 0x3F83. -/
theorem cvt_round_trip_witness :
    lanes_sample 3 < 2 ^ 16
    ∧ (cvt_fp32_to_bf16 (cvt_bf16_to_fp32 lanes_sample) 3
        = (if bf16_isNaN (lanes_sample 3) then 0xFFFF else lanes_sample 3)
      ∧ bf16_isNaN 0x0000 = false ∧ bf16_isNaN 0x8000 = false
      ∧ bf16_isNaN 0x0001 = false ∧ bf16_isNaN 0x8001 = false
      ∧ bf16_isNaN 0x7F80 = false ∧ bf16_isNaN 0xFF80 = false) :=
  ⟨by decide, cvt_round_trip lanes_sample 3 (by decide)⟩

/-- C23: for buffers `a` and `b` of `N` elements, every element that `reduce_bf16_buffers`
leaves in the destination is the same pattern whether the destination is `a` and the source
`b` or the other way round, whatever the patterns are, NaNs of any payload included. -/
theorem reduce_bf16_buffers_commutative (a b : Buf) (N e : Nat) (he : e < N) :
    reduce_bf16_buffers a b N e = reduce_bf16_buffers b a N e :=
  reduce_bf16_buffers_comm a b N e (lt_blocks_end N e he)

/-- Witness of C23: element 0 of two buffers that hold NaNs of different sign and payload
there. -/
theorem reduce_bf16_buffers_commutative_witness :
    0 < 16
    ∧ reduce_bf16_buffers buf_nan_a buf_nan_b 16 0
        = reduce_bf16_buffers buf_nan_b buf_nan_a 16 0 :=
  ⟨by decide, reduce_bf16_buffers_commutative buf_nan_a buf_nan_b 16 0 (by decide)⟩

/-- C24: for a lane holding a 32-bit pattern that is not a NaN, the result of
`cvt_fp32_to_bf16` is a 16-bit pattern that is not a bf16 NaN, has the sign bit of the
input and is not the sentinel 0xFFFF; when the magnitude is at least half way between the
largest finite bf16 and the next power of two, the result is the infinity of that sign. -/
theorem narrowing_never_makes_nan (src : Lanes) (j : Nat) (hv : src j < 2 ^ 32)
    (hn : fp32_isNaN (src j) = false) :
    bf16_isNaN (cvt_fp32_to_bf16 src j) = false
      ∧ cvt_fp32_to_bf16 src j < 2 ^ 16
      ∧ cvt_fp32_to_bf16 src j / 2 ^ 15 = src j / 2 ^ 31
      ∧ cvt_fp32_to_bf16 src j ≠ 0xFFFF
      ∧ (0x7F7F8000 ≤ src j % 2 ^ 31 →
          cvt_fp32_to_bf16 src j = src j / 2 ^ 31 * 0x8000 + 0x7F80) :=
  narrow_special src j hv hn

set_option maxRecDepth 100000 in
/-- Witness of C24: the largest finite binary32 value with negative sign becomes the
negative infinity 0xFF80. -/
theorem narrowing_never_makes_nan_witness :
    (lanes_max 0 < 2 ^ 32 ∧ fp32_isNaN (lanes_max 0) = false)
    ∧ (bf16_isNaN (cvt_fp32_to_bf16 lanes_max 0) = false
      ∧ cvt_fp32_to_bf16 lanes_max 0 < 2 ^ 16
      ∧ cvt_fp32_to_bf16 lanes_max 0 / 2 ^ 15 = lanes_max 0 / 2 ^ 31
      ∧ cvt_fp32_to_bf16 lanes_max 0 ≠ 0xFFFF
      ∧ (0x7F7F8000 ≤ lanes_max 0 % 2 ^ 31 →
          cvt_fp32_to_bf16 lanes_max 0 = lanes_max 0 / 2 ^ 31 * 0x8000 + 0x7F80)) :=
  ⟨by decide, narrowing_never_makes_nan lanes_max 0 (by decide) (by decide)⟩

/-- C25: two ranks that each call `all_reduce_low_latency` twice in a row from an all-IDLE
workspace can reach a state in which neither has finished and neither can take a step:
rank 0, inside its second invocation, waits for slot 1 to become COPIED while slot 1 is
FINAL, and rank 1, still inside its first invocation, waits for slot 0 to become IDLE
while slot 0 is COPIED. The system stays in this state for ever. -/
theorem consecutive_invocations_deadlock :
    ReachableCalls 2 2 16 (init_calls ws_idle in2) reentered2
      ∧ ¬ finished_calls 2 2 reentered2
      ∧ stuck 2 2 16 reentered2
      ∧ (∀ c, ReachableCalls 2 2 16 reentered2 c → c = reentered2)
      ∧ (reentered2.cfg.rank 0).pc = .l537 1 ∧ reentered2.completed 0 = 1
      ∧ (reentered2.cfg.rank 1).pc = .l556 ∧ reentered2.completed 1 = 0
      ∧ (reentered2.cfg.buffer 0).state = 1 ∧ (reentered2.cfg.buffer 1).state = 2 :=
  ⟨reentered2_reachable, reentered2_not_finished, reentered2_stuck,
    fun c h => stuck_stays 2 2 16 reentered2 c reentered2_stuck h, reentered2_facts⟩

/-- C26: for a tensor of `size >= 0` elements and `groups >= 1`, the guard of `ds_quantize`
and of `ds_quantize_asym` holds exactly when `size / groups <= 1048576`; each function
launches its kernel once in that case and not at all otherwise, and returns the tensor it
was given. -/
theorem ds_quantize_launch_guard (vals : Tensor) (groups bits : Int)
    (hs : 0 ≤ element_count vals.sizes) (hg : 1 ≤ groups) :
    ((((element_count vals.sizes).tdiv groups) - 1).tdiv 4096 + 1 ≤ 256
        ↔ (element_count vals.sizes).tdiv groups ≤ 1048576)
      ∧ ds_quantize vals groups bits
        = (if (element_count vals.sizes).tdiv groups ≤ 1048576
           then [{ asym := false, vals := vals.data_ptr, size := element_count vals.sizes,
                   groups := groups, bits := bits }]
           else [], vals)
      ∧ ds_quantize_asym vals groups bits
        = (if (element_count vals.sizes).tdiv groups ≤ 1048576
           then [{ asym := true, vals := vals.data_ptr, size := element_count vals.sizes,
                   groups := groups, bits := bits }]
           else [], vals)
      ∧ (ds_quantize vals groups bits).2 = vals
      ∧ (ds_quantize_asym vals groups bits).2 = vals := by
  refine ⟨launch_guard_iff _ _ hs hg, ds_quantize_eq vals groups bits hs hg,
    ds_quantize_asym_eq vals groups bits hs hg, ?_, ?_⟩
  · rw [ds_quantize_eq vals groups bits hs hg]
  · rw [ds_quantize_asym_eq vals groups bits hs hg]

/-- Witness of C26: 2048 x 1024 elements in 2 groups, exactly 1048576 elements per group,
the largest group size for which the kernel is launched. -/
theorem ds_quantize_launch_guard_witness :
    (0 ≤ element_count tensor_2m.sizes ∧ (1 : Int) ≤ 2)
    ∧ (((((element_count tensor_2m.sizes).tdiv 2) - 1).tdiv 4096 + 1 ≤ 256
        ↔ (element_count tensor_2m.sizes).tdiv 2 ≤ 1048576)
      ∧ ds_quantize tensor_2m 2 8
        = (if (element_count tensor_2m.sizes).tdiv 2 ≤ 1048576
           then [{ asym := false, vals := tensor_2m.data_ptr,
                   size := element_count tensor_2m.sizes, groups := 2, bits := 8 }]
           else [], tensor_2m)
      ∧ ds_quantize_asym tensor_2m 2 8
        = (if (element_count tensor_2m.sizes).tdiv 2 ≤ 1048576
           then [{ asym := true, vals := tensor_2m.data_ptr,
                   size := element_count tensor_2m.sizes, groups := 2, bits := 8 }]
           else [], tensor_2m)
      ∧ (ds_quantize tensor_2m 2 8).2 = tensor_2m
      ∧ (ds_quantize_asym tensor_2m 2 8).2 = tensor_2m) :=
  ⟨by decide, ds_quantize_launch_guard tensor_2m 2 8 (by decide) (by decide)⟩

/-! ### Returns within one invocation -/

/-- What one invocation does ensure when a rank returns: the state of its own slot is IDLE;
for a rank other than 0, rank 0 has returned and slot 0 is IDLE; for rank 0, every other
rank has copied the result out and its slot is FINAL or IDLE. -/
theorem returns_after_own_reset (R N : Nat) (ws0 : Workspace) (inputs : Nat → Buf)
    (c : Config) (_hN : N ≤ slot_capacity) (hidle : ∀ r, r < R → (ws0 r).state = 0)
    (hreach : Reachable R N (init ws0 inputs) c) (r : Nat) (hr : r < R)
    (hpc : (c.rank r).pc = .l559) :
    (c.buffer r).state = 0
      ∧ (0 < r → (c.rank 0).pc = .l559 ∧ (c.buffer 0).state = 0)
      ∧ (r = 0 → ∀ j, 0 < j → j < R →
          copied_out (c.rank j).pc = true
            ∧ ((c.buffer j).state = 2 ∨ (c.buffer j).state = 0)) :=
  returned_facts (inv_reachable hidle hreach) r hr hpc

/-- An instance of `returns_after_own_reset`: two ranks, rank 0 has returned and rank 1 has
not. -/
theorem returns_after_own_reset_witness :
    (16 ≤ slot_capacity ∧ (∀ r, r < 2 → (ws_idle r).state = 0)
      ∧ Reachable 2 16 (init ws_idle in2) returned2
      ∧ 0 < 2 ∧ (returned2.rank 0).pc = .l559)
    ∧ ((returned2.buffer 0).state = 0
      ∧ (0 < 0 → (returned2.rank 0).pc = .l559 ∧ (returned2.buffer 0).state = 0)
      ∧ (0 = 0 → ∀ j, 0 < j → j < 2 →
          copied_out (returned2.rank j).pc = true
            ∧ ((returned2.buffer j).state = 2 ∨ (returned2.buffer j).state = 0))) :=
  ⟨⟨by decide, ws_idle_state 2, run_reachable 2 16 sched2_rank0_returned _ _ returned2_run,
      by decide, returned2_facts.1⟩,
    returns_after_own_reset 2 16 ws_idle in2 returned2 (by decide) (ws_idle_state 2)
      (run_reachable 2 16 sched2_rank0_returned _ _ returned2_run) 0 (by decide)
      returned2_facts.1⟩

set_option maxRecDepth 100000 in
theorem returned2_reenters :
    (back_to_back 2 2 16 0 { cfg := returned2, completed := fun _ => 0 }).isSome = true := by
  decide

/-! ### Two invocations on the same inputs -/

theorem view_ws_buffer (k : Nat → Nat) (ws : Workspace) (s : Nat) :
    (view_ws k ws s).buffer = (ws s).buffer := by
  unfold view_ws
  split_ifs <;> rfl

theorem view_ws_state (k : Nat → Nat) (ws : Workspace) (s : Nat) (h : k s ≠ 0) :
    view_ws k ws s = ws s := by
  unfold view_ws
  rw [if_neg h]

theorem view_ws_set_state (k : Nat → Nat) (ws : Workspace) (r : Nat) (v : Int)
    (h : k r ≠ 0) : view_ws k (set_state ws r v) = set_state (view_ws k ws) r v := by
  funext s
  by_cases hs : s = r
  · subst hs
    simp [view_ws, set_state, h]
  · simp [view_ws, set_state, Function.update_noteq hs]

theorem view_ws_set_buffer (k : Nat → Nat) (ws : Workspace) (r : Nat) (b : Buf) :
    view_ws k (set_buffer ws r b) = set_buffer (view_ws k ws) r b := by
  funext s
  by_cases hs : s = r
  · subst hs
    by_cases h : k s = 0 <;> simp [view_ws, set_buffer, h]
  · simp [view_ws, set_buffer, Function.update_noteq hs]

theorem workspace_ext (a b : allreduce_workspace) (hs : a.state = b.state)
    (hb : a.buffer = b.buffer) : a = b := by
  cases a
  cases b
  simp only at hs hb
  subst hs
  subst hb
  rfl

theorem view_ws_reduce (k : Nat → Nat) (ws : Workspace) (N R : Nat) (h0 : k 0 ≠ 0)
    (hR : 0 < R) :
    view_ws k (reduce_all_bf16_buffers ws N R) = reduce_all_bf16_buffers (view_ws k ws) N R := by
  funext s
  by_cases hs : s = 0
  · subst hs
    rw [view_ws_state _ _ _ h0]
    apply workspace_ext
    · rw [reduce_all_state, reduce_all_state, view_ws_state _ _ _ h0]
    · exact reduce_all_congr _ _ N R hR (fun t _ => (view_ws_buffer k ws t).symm)
  · rw [reduce_all_other _ _ _ _ hs]
    unfold view_ws
    rw [reduce_all_other _ _ _ _ hs]

theorem second_view_goto (inp : Nat → Buf) (cfg : Config) (k : Nat → Nat) (r : Nat) (pc : PC)
    (ws : Workspace) (d : Buf) (h : k r ≠ 0) :
    second_view inp { cfg := goto cfg r pc ws d, completed := k }
      = goto (second_view inp { cfg := cfg, completed := k }) r pc (view_ws k ws) d := by
  unfold second_view goto
  simp only [Config.mk.injEq, true_and]
  funext s
  by_cases hs : s = r
  · subst hs
    simp [h]
  · simp [Function.update_noteq hs]

theorem second_view_rank (inp : Nat → Buf) (c : Caller) (r : Nat) (h : c.completed r ≠ 0) :
    (second_view inp c).rank r = c.cfg.rank r := by
  simp [second_view, h]

theorem second_view_buffer (inp : Nat → Buf) (c : Caller) :
    (second_view inp c).buffer = view_ws c.completed c.cfg.buffer := rfl

theorem second_view_goto_with (inp : Nat → Buf) (c : Caller) (r : Nat) (pc : PC)
    (ws : Workspace) (d : Buf) (h : c.completed r ≠ 0) :
    second_view inp { c with cfg := goto c.cfg r pc ws d }
      = goto (second_view inp c) r pc (view_ws c.completed ws) d :=
  second_view_goto inp c.cfg c.completed r pc ws d h

theorem view_step {R N : Nat} {ws1 : Workspace} {inp : Nat → Buf} {c : Caller}
    {cfg' : Config} {r : Nat} (h : Inv R N ws1 inp (second_view inp c)) (hr : r < R)
    (hk : c.completed r ≠ 0)
    (hlag1 : ∀ s, s < R → c.completed s = 0 → (c.cfg.buffer s).state ≠ 1)
    (hlag0 : c.completed 0 = 0 → (c.cfg.buffer 0).state = 0)
    (hs : all_reduce_low_latency R N r c.cfg = some cfg') :
    all_reduce_low_latency R N r (second_view inp c)
      = some (second_view inp { c with cfg := cfg' }) := by
  have hrank : (second_view inp c).rank r = c.cfg.rank r := second_view_rank inp c r hk
  have hown : view_ws c.completed c.cfg.buffer r = c.cfg.buffer r :=
    view_ws_state _ _ _ hk
  unfold all_reduce_low_latency at hs ⊢
  simp only [hrank, second_view_buffer] at hs ⊢
  cases hpc : (c.cfg.rank r).pc with
  | l530 =>
    simp only [hpc, Option.some.injEq] at hs ⊢
    subst hs
    rw [second_view_goto_with _ _ _ _ _ _ hk, view_ws_set_buffer, hown]
  | l531 =>
    simp only [hpc, Option.some.injEq] at hs ⊢
    subst hs
    rw [second_view_goto_with _ _ _ _ _ _ hk, view_ws_set_state _ _ _ _ hk]
  | l537 i =>
    simp only [hpc] at hs ⊢
    by_cases hi : i < R
    · rw [if_pos hi] at hs ⊢
      by_cases hw : wait_buffer_state_until c.cfg.buffer i 1 = true
      · rw [if_pos hw] at hs
        have hst : (c.cfg.buffer i).state = 1 := by
          simpa [wait_buffer_state_until] using hw
        have hki : c.completed i ≠ 0 := fun h0 => hlag1 i hi h0 hst
        have hw' : wait_buffer_state_until (view_ws c.completed c.cfg.buffer) i 1 = true := by
          unfold wait_buffer_state_until
          rw [view_ws_state _ _ _ hki]
          exact hw
        rw [if_pos hw']
        simp only [Option.some.injEq] at hs ⊢
        subst hs
        rw [second_view_goto_with _ _ _ _ _ _ hk]
      · rw [if_neg hw] at hs
        exact absurd hs (by simp)
    · rw [if_neg hi] at hs ⊢
      simp only [Option.some.injEq] at hs ⊢
      subst hs
      rw [second_view_goto_with _ _ _ _ _ _ hk]
  | l539 =>
    simp only [hpc, Option.some.injEq] at hs ⊢
    subst hs
    have hr0 : r = 0 := peer_not_at_reduce h r hr (by rw [hrank]; exact hpc)
    subst hr0
    rw [second_view_goto_with _ _ _ _ _ _ hk, view_ws_reduce _ _ _ _ hk hr]
  | l543 =>
    simp only [hpc, Option.some.injEq] at hs ⊢
    subst hs
    rw [second_view_goto_with _ _ _ _ _ _ hk, view_ws_set_state _ _ _ _ hk]
  | l544 =>
    simp only [hpc, Option.some.injEq] at hs ⊢
    subst hs
    rw [second_view_goto_with _ _ _ _ _ _ hk, view_ws_buffer]
  | l547 =>
    simp only [hpc] at hs ⊢
    by_cases hw : wait_buffer_state_until c.cfg.buffer 0 2 = true
    · rw [if_pos hw] at hs
      have hst : (c.cfg.buffer 0).state = 2 := by
        simpa [wait_buffer_state_until] using hw
      have hk0 : c.completed 0 ≠ 0 := fun h0 => by
        rw [hlag0 h0] at hst
        exact absurd hst (by decide)
      have hw' : wait_buffer_state_until (view_ws c.completed c.cfg.buffer) 0 2 = true := by
        unfold wait_buffer_state_until
        rw [view_ws_state _ _ _ hk0]
        exact hw
      rw [if_pos hw']
      simp only [Option.some.injEq] at hs ⊢
      subst hs
      rw [second_view_goto_with _ _ _ _ _ _ hk]
    · rw [if_neg hw] at hs
      exact absurd hs (by simp)
  | l548 =>
    simp only [hpc, Option.some.injEq] at hs ⊢
    subst hs
    rw [second_view_goto_with _ _ _ _ _ _ hk, view_ws_buffer]
  | l549 =>
    simp only [hpc, Option.some.injEq] at hs ⊢
    subst hs
    rw [second_view_goto_with _ _ _ _ _ _ hk, view_ws_set_state _ _ _ _ hk]
  | l552 i =>
    simp only [hpc] at hs ⊢
    by_cases hi : i < R
    · rw [if_pos hi] at hs ⊢
      by_cases hw : wait_buffer_state_until c.cfg.buffer i 2 = true
      · rw [if_pos hw] at hs
        have hr0 : r = 0 := by
          by_contra hne
          have hp := compat_peer_pc (h.peers r (by omega) hr)
          rw [hrank, hpc] at hp
          simp [is_rank0_pc] at hp
        subst hr0
        have hki : c.completed i ≠ 0 := by
          by_cases hi0 : i = 0
          · rw [hi0]; exact hk
          · intro h0
            have hp := h.peers i (by omega) hi
            rw [hrank, hpc] at hp
            have hv : ((second_view inp c).rank i).pc = .l530 := by
              simp [second_view, h0]
            rw [hv] at hp
            simp [compat] at hp
        have hw' : wait_buffer_state_until (view_ws c.completed c.cfg.buffer) i 2 = true := by
          unfold wait_buffer_state_until
          rw [view_ws_state _ _ _ hki]
          exact hw
        rw [if_pos hw']
        simp only [Option.some.injEq] at hs ⊢
        subst hs
        rw [second_view_goto_with _ _ _ _ _ _ hk]
      · rw [if_neg hw] at hs
        exact absurd hs (by simp)
    · rw [if_neg hi] at hs ⊢
      simp only [Option.some.injEq] at hs ⊢
      subst hs
      rw [second_view_goto_with _ _ _ _ _ _ hk]
  | l553 =>
    simp only [hpc, Option.some.injEq] at hs ⊢
    subst hs
    rw [second_view_goto_with _ _ _ _ _ _ hk, view_ws_set_state _ _ _ _ hk]
  | l556 =>
    simp only [hpc] at hs ⊢
    by_cases hw : wait_buffer_state_until c.cfg.buffer 0 0 = true
    · rw [if_pos hw] at hs
      have hw' : wait_buffer_state_until (view_ws c.completed c.cfg.buffer) 0 0 = true := by
        unfold wait_buffer_state_until view_ws
        by_cases h0 : c.completed 0 = 0
        · rw [if_pos h0]
          simp
        · rw [if_neg h0]
          exact hw
      rw [if_pos hw']
      simp only [Option.some.injEq] at hs ⊢
      subst hs
      rw [second_view_goto_with _ _ _ _ _ _ hk]
    · rw [if_neg hw] at hs
      exact absurd hs (by simp)
  | l557 =>
    simp only [hpc, Option.some.injEq] at hs ⊢
    subst hs
    rw [second_view_goto_with _ _ _ _ _ _ hk, view_ws_set_state _ _ _ _ hk]
  | l559 =>
    simp only [hpc] at hs
    exact absurd hs (by simp)

theorem step_frame {R N r : Nat} {c c' : Config}
    (hs : all_reduce_low_latency R N r c = some c') (s : Nat) (hsr : s ≠ r) :
    c'.rank s = c.rank s
      ∧ ((c.rank r).pc ≠ .l539 ∨ s ≠ 0 → c'.buffer s = c.buffer s) := by
  unfold all_reduce_low_latency at hs
  cases hpc : (c.rank r).pc <;> simp only [hpc] at hs
  case l537 i =>
    split_ifs at hs <;> cases hs <;> exact ⟨goto_rank_ne _ _ _ _ _ s hsr, fun _ => rfl⟩
  case l552 i =>
    split_ifs at hs <;> cases hs <;> exact ⟨goto_rank_ne _ _ _ _ _ s hsr, fun _ => rfl⟩
  case l547 =>
    split_ifs at hs
    cases hs
    exact ⟨goto_rank_ne _ _ _ _ _ s hsr, fun _ => rfl⟩
  case l556 =>
    split_ifs at hs
    cases hs
    exact ⟨goto_rank_ne _ _ _ _ _ s hsr, fun _ => rfl⟩
  case l559 => exact absurd hs (by simp)
  case l539 =>
    cases hs
    refine ⟨goto_rank_ne _ _ _ _ _ s hsr, fun h => ?_⟩
    rcases h with h | h
    · exact absurd rfl h
    · rw [goto_buffer]
      exact reduce_all_other _ _ _ _ h
  all_goals
    cases hs
    refine ⟨goto_rank_ne _ _ _ _ _ s hsr, fun _ => ?_⟩
    first
      | rfl
      | (rw [goto_buffer]; exact set_state_ne _ _ _ s hsr)
      | (rw [goto_buffer]; exact set_buffer_ne _ _ _ s hsr)

theorem lag_state {R N : Nat} {ws0 : Workspace} {inp : Nat → Buf} {c : Caller} {r : Nat}
    (h : Lag R N ws0 inp c r) :
    (c.cfg.buffer r).state ≠ 1 ∧ (r = 0 → (c.cfg.buffer r).state = 0) := by
  have hst := h.state
  rcases h.pc with hp | ⟨h0, hp | hp⟩
  · rw [hp] at hst
    rw [hst]
    exact ⟨by decide, fun _ => rfl⟩
  · rw [hp] at hst
    rw [hst]
    exact ⟨by decide, fun hr => by omega⟩
  · rw [hp] at hst
    rw [hst]
    exact ⟨by decide, fun hr => by omega⟩

theorem lag_congr {R N : Nat} {ws0 : Workspace} {inp : Nat → Buf} {c c' : Caller} {r : Nat}
    (h : Lag R N ws0 inp c r) (hrank : c'.cfg.rank r = c.cfg.rank r)
    (hbuf : c'.cfg.buffer r = c.cfg.buffer r) : Lag R N ws0 inp c' r where
  pc := by rw [hrank]; exact h.pc
  state := by rw [hrank, hbuf]; exact h.state
  buf := by rw [hbuf]; exact h.buf
  data := by rw [hrank]; exact h.data

/-- In the second phase a step of a rank that has entered its second invocation keeps the
invariant. -/
theorem inv2_step_entered {R N : Nat} {ws0 : Workspace} {inp : Nat → Buf} {c : Caller}
    {cfg' : Config} {r : Nat}
    (h : Inv R N (ws_after R N ws0 inp) inp (second_view inp c))
    (hl : ∀ s, s < R → c.completed s = 1 ∨ (c.completed s = 0 ∧ Lag R N ws0 inp c s))
    (hr : r < R) (hk : c.completed r = 1)
    (hs : all_reduce_low_latency R N r c.cfg = some cfg') :
    Inv2 R N ws0 inp { c with cfg := cfg' } := by
  have hk0 : c.completed r ≠ 0 := by omega
  have hlag1 : ∀ s, s < R → c.completed s = 0 → (c.cfg.buffer s).state ≠ 1 := by
    intro s hsR h0
    rcases hl s hsR with h1 | ⟨_, hlag⟩
    · omega
    · exact (lag_state hlag).1
  have hlag0 : c.completed 0 = 0 → (c.cfg.buffer 0).state = 0 := by
    intro h0
    rcases hl 0 (by omega) with h1 | ⟨_, hlag⟩
    · omega
    · exact (lag_state hlag).2 rfl
  right
  refine ⟨inv_step h ⟨r, hr, view_step h hr hk0 hlag1 hlag0 hs⟩, ?_⟩
  intro s hsR
  rcases hl s hsR with h1 | ⟨h0, hlag⟩
  · exact Or.inl h1
  · right
    refine ⟨h0, ?_⟩
    have hsr : s ≠ r := fun e => by rw [e] at h0; omega
    have hf := step_frame hs s hsr
    refine lag_congr hlag hf.1 (hf.2 ?_)
    by_cases hpc : (c.cfg.rank r).pc = .l539
    · right
      have hr0 : r = 0 :=
        peer_not_at_reduce h r hr (by rw [second_view_rank inp c r hk0]; exact hpc)
      omega
    · exact Or.inl hpc

/-- In the second phase a step of a rank that is still in its first invocation is not seen
by the second invocation and keeps the invariant. -/
theorem inv2_step_lagging {R N : Nat} {ws0 : Workspace} {inp : Nat → Buf} {c : Caller}
    {cfg' : Config} {r : Nat}
    (h : Inv R N (ws_after R N ws0 inp) inp (second_view inp c))
    (hl : ∀ s, s < R → c.completed s = 1 ∨ (c.completed s = 0 ∧ Lag R N ws0 inp c s))
    (hk : c.completed r = 0) (hlag : Lag R N ws0 inp c r)
    (hs : all_reduce_low_latency R N r c.cfg = some cfg') :
    Inv2 R N ws0 inp { c with cfg := cfg' } := by
  have hne : (c.cfg.rank r).pc ≠ .l539 := by
    rcases hlag.pc with hp | ⟨_, hp | hp⟩ <;> rw [hp] <;> simp
  have hframe := fun s (hsr : s ≠ r) => step_frame hs s hsr
  -- the slot of the stepping rank keeps its buffer, and the rank lags on
  have hown : (cfg'.buffer r).buffer = (c.cfg.buffer r).buffer
      ∧ Lag R N ws0 inp { c with cfg := cfg' } r := by
    have hst := hlag.state
    have hb := hlag.buf
    have hd := hlag.data
    unfold all_reduce_low_latency at hs
    rcases hlag.pc with hp | ⟨h0, hp | hp⟩
    · simp only [hp] at hs
      exact absurd hs (by simp)
    · simp only [hp] at hs
      split_ifs at hs
      cases hs
      rw [hp] at hst
      refine ⟨rfl, ⟨?_, ?_, ?_, ?_⟩⟩
      · right
        exact ⟨h0, Or.inr (by simp [goto])⟩
      · show (c.cfg.buffer r).state = state_of_pc ((goto _ _ _ _ _).rank r).pc
        rw [goto_rank_self, hst]
        rfl
      · exact hb
      · show ((goto _ _ _ _ _).rank r).data = _
        rw [goto_rank_self]
        exact hd
    · simp only [hp, Option.some.injEq] at hs
      cases hs
      refine ⟨?_, ⟨?_, ?_, ?_, ?_⟩⟩
      · rw [goto_buffer, (set_state_self _ _ _).2]
      · left
        simp [goto]
      · show ((goto _ _ _ _ _).buffer r).state = state_of_pc ((goto _ _ _ _ _).rank r).pc
        rw [goto_rank_self, goto_buffer, (set_state_self _ _ _).1]
        rfl
      · show ((goto _ _ _ _ _).buffer r).buffer = _
        rw [goto_buffer, (set_state_self _ _ _).2]
        exact hb
      · show ((goto _ _ _ _ _).rank r).data = _
        rw [goto_rank_self]
        exact hd
  have hview : second_view inp { c with cfg := cfg' } = second_view inp c := by
    unfold second_view
    simp only [Config.mk.injEq]
    constructor
    · funext s
      by_cases hsr : s = r
      · subst hsr
        simp only [view_ws, hk, if_true]
        exact workspace_ext _ _ rfl hown.1
      · unfold view_ws
        rw [(hframe s hsr).2 (Or.inl hne)]
    · funext s
      by_cases hsr : s = r
      · subst hsr
        simp [hk]
      · rw [(hframe s hsr).1]
  right
  rw [hview]
  refine ⟨h, fun s hsR => ?_⟩
  by_cases hsr : s = r
  · subst hsr
    exact Or.inr ⟨hk, hown.2⟩
  · rcases hl s hsR with h1 | ⟨h0, hlag'⟩
    · exact Or.inl h1
    · exact Or.inr ⟨h0, lag_congr hlag' (hframe s hsr).1 ((hframe s hsr).2 (Or.inl hne))⟩

/-- In the second phase the entry of a lagging rank into its second invocation keeps the
invariant. -/
theorem inv2_enter_second {R N : Nat} {ws0 : Workspace} {inp : Nat → Buf} {c : Caller}
    {r : Nat} (h : Inv R N (ws_after R N ws0 inp) inp (second_view inp c))
    (hl : ∀ s, s < R → c.completed s = 1 ∨ (c.completed s = 0 ∧ Lag R N ws0 inp c s))
    (hk : c.completed r = 0) (hlag : Lag R N ws0 inp c r)
    (hpc : (c.cfg.rank r).pc = .l559) :
    Inv2 R N ws0 inp
      { cfg := goto c.cfg r .l530 c.cfg.buffer (inp r),
        completed := Function.update c.completed r (c.completed r + 1) } := by
  have hst : (c.cfg.buffer r).state = 0 := by
    rw [hlag.state, hpc]
    rfl
  have hview : second_view inp
      { cfg := goto c.cfg r .l530 c.cfg.buffer (inp r),
        completed := Function.update c.completed r (c.completed r + 1) }
      = second_view inp c := by
    unfold second_view
    simp only [Config.mk.injEq, goto_buffer]
    constructor
    · funext s
      by_cases hsr : s = r
      · subst hsr
        simp only [view_ws, Function.update_same, hk, if_true]
        rw [if_neg (by omega)]
        exact workspace_ext _ _ hst rfl
      · simp only [view_ws, Function.update_noteq hsr]
    · funext s
      by_cases hsr : s = r
      · subst hsr
        simp [hk, goto]
      · simp only [Function.update_noteq hsr, goto_rank_ne _ _ _ _ _ s hsr]
  right
  rw [hview]
  refine ⟨h, fun s hsR => ?_⟩
  by_cases hsr : s = r
  · subst hsr
    left
    simp [hk]
  · simp only [Function.update_noteq hsr]
    rcases hl s hsR with h1 | ⟨h0, hlag'⟩
    · exact Or.inl h1
    · exact Or.inr ⟨h0, lag_congr hlag' (goto_rank_ne _ _ _ _ _ s hsr) rfl⟩

theorem all_returning {R N : Nat} {ws0 : Workspace} {inp : Nat → Buf} {c : Config}
    (h : Inv R N ws0 inp c) (r : Nat) (hr : r < R) (hpc : (c.rank r).pc = .l559) (s : Nat)
    (hs : s < R) :
    (c.rank s).pc = .l559 ∨ (0 < s ∧ ((c.rank s).pc = .l556 ∨ (c.rank s).pc = .l557)) := by
  have hpc0 : (c.rank 0).pc = .l559 := by
    by_cases h0 : r = 0
    · rw [← h0]; exact hpc
    · exact ((returned_facts h r hr hpc).2.1 (by omega)).1
  by_cases hs0 : s = 0
  · left
    rw [hs0]
    exact hpc0
  · have hp := h.peers s (by omega) hs
    rw [hpc0] at hp
    simp only [compat] at hp
    rcases hp with hp | hp | hp
    · exact Or.inr ⟨by omega, Or.inl hp⟩
    · exact Or.inr ⟨by omega, Or.inr hp⟩
    · exact Or.inl hp

theorem lag_of_returning {R N : Nat} {ws0 : Workspace} {inp : Nat → Buf} {c : Caller}
    (h : Inv R N ws0 inp c.cfg) (s : Nat) (hs : s < R)
    (hpc : (c.cfg.rank s).pc = .l559
      ∨ (0 < s ∧ ((c.cfg.rank s).pc = .l556 ∨ (c.cfg.rank s).pc = .l557))) :
    Lag R N ws0 inp c s where
  pc := hpc
  state := h.state s hs
  buf := by
    rw [h.buf s hs]
    rcases hpc with hp | ⟨h0, hp | hp⟩
    · rw [hp]
    · rw [hp]
      simp only [expected_buffer]
      rw [if_neg (by omega)]
    · rw [hp]
      simp only [expected_buffer]
      rw [if_neg (by omega)]
  data := by
    rw [h.data s hs]
    rcases hpc with hp | ⟨_, hp | hp⟩ <;> rw [hp] <;> simp [expected_data, copied_out]

/-- The first entry of a rank into its second invocation leads from the first phase to the
second. -/
theorem inv2_enter_first {R N : Nat} {ws0 : Workspace} {inp : Nat → Buf} {c : Caller}
    {r : Nat} (hall : ∀ s, s < R → c.completed s = 0) (h : Inv R N ws0 inp c.cfg)
    (hr : r < R) (hpc : (c.cfg.rank r).pc = .l559) :
    Inv2 R N ws0 inp
      { cfg := goto c.cfg r .l530 c.cfg.buffer (inp r),
        completed := Function.update c.completed r (c.completed r + 1) } := by
  have hlag : ∀ s, s < R → Lag R N ws0 inp c s := fun s hs =>
    lag_of_returning h s hs (all_returning h r hr hpc s hs)
  have hst : (c.cfg.buffer r).state = 0 := final_state h r hr hpc
  have hrank : ∀ s, s < R →
      (second_view inp
        { cfg := goto c.cfg r .l530 c.cfg.buffer (inp r),
          completed := Function.update c.completed r (c.completed r + 1) }).rank s
        = { pc := .l530, data := inp s } := by
    intro s hs
    by_cases hsr : s = r
    · subst hsr
      simp [second_view, goto]
    · simp [second_view, Function.update_noteq hsr, hall s hs]
  have hbuf : ∀ s, s < R →
      ((second_view inp
        { cfg := goto c.cfg r .l530 c.cfg.buffer (inp r),
          completed := Function.update c.completed r (c.completed r + 1) }).buffer s).state = 0
      ∧ ((second_view inp
        { cfg := goto c.cfg r .l530 c.cfg.buffer (inp r),
          completed := Function.update c.completed r (c.completed r + 1) }).buffer s).buffer
        = (c.cfg.buffer s).buffer := by
    intro s hs
    rw [second_view_buffer, view_ws_buffer]
    refine ⟨?_, rfl⟩
    by_cases hsr : s = r
    · subst hsr
      simp only [view_ws, Function.update_same, hall s hs]
      exact hst
    · simp [view_ws, Function.update_noteq hsr, hall s hs]
  right
  refine ⟨⟨?_, ?_, ?_, ?_, ?_⟩, fun s hs => ?_⟩
  · rw [hrank 0 (by omega)]
    rfl
  · intro j _ hj
    rw [hrank 0 (by omega), hrank j hj]
    exact Or.inl rfl
  · intro s hs
    rw [(hbuf s hs).1, hrank s hs]
    rfl
  · intro s hs
    rw [(hbuf s hs).2, hrank s hs, (hlag s hs).buf]
    rfl
  · intro s hs
    rw [hrank s hs]
    rfl
  · by_cases hsr : s = r
    · subst hsr
      left
      simp [hall s hs]
    · right
      simp only [Function.update_noteq hsr]
      exact ⟨hall s hs, lag_congr (hlag s hs) (goto_rank_ne _ _ _ _ _ s hsr) rfl⟩

/-- Every step of two invocations in a row on the same inputs keeps the invariant. -/
theorem inv2_step {R N : Nat} {ws0 : Workspace} {inp : Nat → Buf} {c c' : Caller}
    (h : Inv2 R N ws0 inp c) (hs : StepRepeat 2 R N inp c c') : Inv2 R N ws0 inp c' := by
  obtain ⟨r, hr, hstep⟩ := hs
  unfold repeat_calls at hstep
  cases hc : all_reduce_low_latency R N r c.cfg with
  | some cfg' =>
    rw [hc] at hstep
    simp only [Option.some.injEq] at hstep
    subst hstep
    rcases h with ⟨hall, hinv⟩ | ⟨hinv, hl⟩
    · exact Or.inl ⟨hall, inv_step hinv ⟨r, hr, hc⟩⟩
    · rcases hl r hr with h1 | ⟨h0, hlag⟩
      · exact inv2_step_entered hinv hl hr h1 hc
      · exact inv2_step_lagging hinv hl h0 hlag hc
  | none =>
    rw [hc] at hstep
    simp only at hstep
    split_ifs at hstep with hcond
    simp only [Option.some.injEq] at hstep
    subst hstep
    have hk : c.completed r = 0 := by omega
    rcases h with ⟨hall, hinv⟩ | ⟨hinv, hl⟩
    · exact inv2_enter_first hall hinv hr hcond.1
    · rcases hl r hr with h1 | ⟨h0, hlag⟩
      · omega
      · exact inv2_enter_second hinv hl h0 hlag hcond.1

theorem inv2_reachable {R N : Nat} {ws0 : Workspace} {inp : Nat → Buf} {c : Caller}
    (hidle : ∀ r, r < R → (ws0 r).state = 0)
    (hreach : ReachableRepeat 2 R N inp (init_calls ws0 inp) c) : Inv2 R N ws0 inp c := by
  induction hreach with
  | refl => exact Or.inl ⟨fun _ _ => rfl, inv_init hidle⟩
  | tail _ hstep ih => exact inv2_step ih hstep

/-- Whenever a rank has returned from an invocation, the first or the second, its tensor
holds the result of one invocation on the inputs. -/
theorem repeat_output {R N : Nat} {ws0 : Workspace} {inp : Nat → Buf} {c : Caller}
    (h : Inv2 R N ws0 inp c) (r : Nat) (hr : r < R) (hpc : (c.cfg.rank r).pc = .l559)
    (i : Nat) (hi : i < N) : (c.cfg.rank r).data i = reduced R N ws0 inp i := by
  rcases h with ⟨_, hinv⟩ | ⟨hinv, hl⟩
  · exact final_data hinv r hr hpc i hi
  · rcases hl r hr with h1 | ⟨_, hlag⟩
    · have hk : c.completed r ≠ 0 := by omega
      have hv := second_view_rank inp c r hk
      have := final_data hinv r hr (by rw [hv]; exact hpc) i hi
      rw [hv] at this
      rw [this]
      exact reduced_indep R N _ ws0 inp i hi
    · rw [hlag.data]
      simp [expected_data, copied_out, memcpy, hi]

theorem repeat_lift {K R N : Nat} {inp : Nat → Buf} (k : Nat → Nat) {c c' : Config}
    (h : Reachable R N c c') :
    ReachableRepeat K R N inp { cfg := c, completed := k } { cfg := c', completed := k } := by
  induction h with
  | refl => exact Relation.ReflTransGen.refl
  | tail _ hstep ih =>
    obtain ⟨r, hr, hs⟩ := hstep
    refine Relation.ReflTransGen.tail ih ⟨r, hr, ?_⟩
    unfold repeat_calls
    simp only [hs]

theorem entered_zero (inp : Nat → Buf) (c : Config) :
    entered inp 0 c = { cfg := c, completed := fun _ => 0 } := by
  simp [entered]

theorem entered_step {R N : Nat} (inp : Nat → Buf) (c : Config) (m : Nat)
    (hpc : (c.rank m).pc = .l559) :
    repeat_calls 2 R N inp m (entered inp m c) = some (entered inp (m + 1) c) := by
  have hrank : (entered inp m c).cfg.rank m = c.rank m := by simp [entered]
  have hnone : all_reduce_low_latency R N m (entered inp m c).cfg = none := by
    unfold all_reduce_low_latency
    simp only [hrank, hpc]
  have hk : (entered inp m c).completed m = 0 := by simp [entered]
  unfold repeat_calls
  simp only [hnone, hrank, hpc, hk, true_and]
  rw [if_pos (by norm_num)]
  simp only [Option.some.injEq]
  unfold entered goto
  simp only [Caller.mk.injEq, Config.mk.injEq, true_and]
  constructor
  · funext s
    by_cases hs : s = m
    · subst hs
      simp
    · have h1 : (s < m + 1) ↔ (s < m) := by omega
      simp [Function.update_noteq hs, h1]
  · funext s
    by_cases hs : s = m
    · subst hs
      simp
    · have h1 : (s < m + 1) ↔ (s < m) := by omega
      simp [Function.update_noteq hs, h1]

theorem entered_reachable {R N : Nat} (inp : Nat → Buf) (c : Config) (hfin : finished R c) :
    ∀ m, m ≤ R → ReachableRepeat 2 R N inp (entered inp 0 c) (entered inp m c) := by
  intro m
  induction m with
  | zero => intro _; exact Relation.ReflTransGen.refl
  | succ m ih =>
    intro hm
    exact Relation.ReflTransGen.tail (ih (by omega))
      ⟨m, by omega, entered_step inp c m (hfin m (by omega))⟩

theorem inv_entered {R N : Nat} (inp : Nat → Buf) (c : Config) (hR : 0 < R)
    (hidle : ∀ r, r < R → (c.buffer r).state = 0) :
    Inv R N c.buffer inp (entered inp R c).cfg where
  role0 := by simp [entered, hR, is_rank0_pc]
  peers := fun j _ hj => by simp [entered, hR, hj, compat]
  state := fun r hr => by
    simp only [entered, hr, if_true]
    exact hidle r hr
  buf := fun r hr => by simp [entered, hr, expected_buffer]
  data := fun r hr => by simp [entered, hr, expected_data, copied_out]

/-- Two invocations in a row on the same inputs can run to the end: some interleaving
brings every rank to the return from its second invocation. -/
theorem repeat_can_finish {R N : Nat} {ws0 : Workspace} {inp : Nat → Buf}
    (hidle : ∀ r, r < R → (ws0 r).state = 0) :
    ∃ d, ReachableRepeat 2 R N inp (init_calls ws0 inp) d ∧ finished_calls 2 R d := by
  by_cases hR : R = 0
  · subst hR
    exact ⟨init_calls ws0 inp, Relation.ReflTransGen.refl, fun r hr => by omega⟩
  · have hstart : Reachable R N (init ws0 inp) (init ws0 inp) := Relation.ReflTransGen.refl
    obtain ⟨c1, hreach1, hfin1⟩ := finished_reachable hidle hstart
    have hidle1 := finished_idle hidle hreach1 hfin1
    have hinv := inv_entered (N := N) inp c1 (by omega) hidle1
    obtain ⟨c3, hreach3, hfin3⟩ := finished_reachable_aux _ _ hinv (le_refl _)
    have s1 : ReachableRepeat 2 R N inp (init_calls ws0 inp) (entered inp 0 c1) := by
      rw [entered_zero]
      exact repeat_lift (fun _ => 0) hreach1
    have s2 := entered_reachable (N := N) inp c1 hfin1 R (le_refl R)
    have s3 : ReachableRepeat 2 R N inp (entered inp R c1)
        { cfg := c3, completed := (entered inp R c1).completed } :=
      repeat_lift (entered inp R c1).completed hreach3
    refine ⟨_, Relation.ReflTransGen.trans (Relation.ReflTransGen.trans s1 s2) s3, ?_⟩
    intro r hr
    exact ⟨hfin3 r hr, by simp [entered, hr]⟩

/-! ## Claims on the workspace, within the capacity of a slot -/

/-- C4. For every `num_buffers > 8` and `N` within the capacity of a slot buffer,
`reduce_all_bf16_buffers` leaves the workspace equal to the one obtained by
`reduce_bf16_buffers(slot 0, slot i, N)` for `i = 1, .., k-1` in that order; every slot other
than slot 0 is unchanged, and so are the state field of slot 0 and the elements of slot 0
from the end of the last block on, which lies inside the slot. -/
theorem reduce_all_fallback_is_pairwise (buffer : Workspace) (N k : Nat) (hk : 8 < k)
    (hN : N ≤ slot_capacity) :
    reduce_all_bf16_buffers buffer N k = pairwise_reduction buffer N k
      ∧ (∀ s, s ≠ 0 → (reduce_all_bf16_buffers buffer N k) s = buffer s)
      ∧ ((reduce_all_bf16_buffers buffer N k) 0).state = (buffer 0).state
      ∧ blocks_end N ≤ slot_capacity
      ∧ (∀ e, blocks_end N ≤ e →
          ((reduce_all_bf16_buffers buffer N k) 0).buffer e = (buffer 0).buffer e) := by
  refine ⟨?_, fun s hs => reduce_all_other buffer N k s hs, reduce_all_state buffer N k,
    blocks_end_le_capacity N hN,
    fun e he => reduce_all_unwritten buffer N k e (fun h => absurd h.2 (by omega))⟩
  unfold reduce_all_bf16_buffers
  rw [if_neg (by omega), if_neg (by omega), if_neg (by omega), if_neg (by omega),
    if_neg (by omega), if_neg (by omega), fallback_eq_foldl k 1 k N buffer (by omega)]
  rfl

/-- Witness of C4: nine slots of sixteen elements. -/
theorem reduce_all_fallback_is_pairwise_witness :
    (8 < 9 ∧ 16 ≤ slot_capacity)
    ∧ (reduce_all_bf16_buffers ws_sample 16 9 = pairwise_reduction ws_sample 16 9
      ∧ (∀ s, s ≠ 0 → (reduce_all_bf16_buffers ws_sample 16 9) s = ws_sample s)
      ∧ ((reduce_all_bf16_buffers ws_sample 16 9) 0).state = (ws_sample 0).state
      ∧ blocks_end 16 ≤ slot_capacity
      ∧ (∀ e, blocks_end 16 ≤ e →
          ((reduce_all_bf16_buffers ws_sample 16 9) 0).buffer e = (ws_sample 0).buffer e)) :=
  ⟨by decide, reduce_all_fallback_is_pairwise ws_sample 16 9 (by decide) (by decide)⟩

/-- C10. After one full invocation on tensors of `N` elements, `N` within the capacity of a
slot buffer, that is in every state reached from an all-IDLE workspace in which all `R`
ranks have returned, the state field of every slot is IDLE (0); and every reachable state
can be run on to such a state. -/
theorem all_slots_idle_after_invocation (R N : Nat) (ws0 : Workspace) (inputs : Nat → Buf)
    (c : Config) (_hN : N ≤ slot_capacity) (hidle : ∀ r, r < R → (ws0 r).state = 0)
    (hreach : Reachable R N (init ws0 inputs) c) :
    (finished R c → ∀ r, r < R → (c.buffer r).state = 0)
      ∧ ∃ c', Reachable R N c c' ∧ finished R c' ∧ ∀ r, r < R → (c'.buffer r).state = 0 := by
  have hinv := inv_reachable hidle hreach
  refine ⟨fun hfin r hr => final_state hinv r hr (hfin r hr), ?_⟩
  obtain ⟨c', hreach', hfin'⟩ := finished_reachable hidle hreach
  have hinv' := inv_reachable hidle (Relation.ReflTransGen.trans hreach hreach')
  exact ⟨c', hreach', hfin', fun r hr => final_state hinv' r hr (hfin' r hr)⟩

/-- Witness of C10: nine ranks, the state at the end of `sched9`. -/
theorem all_slots_idle_after_invocation_witness :
    (16 ≤ slot_capacity ∧ (∀ r, r < 9 → (ws_idle r).state = 0)
      ∧ Reachable 9 16 (init ws_idle in9) final9)
    ∧ ((finished 9 final9 → ∀ r, r < 9 → (final9.buffer r).state = 0)
      ∧ ∃ c', Reachable 9 16 final9 c' ∧ finished 9 c'
          ∧ ∀ r, r < 9 → (c'.buffer r).state = 0) :=
  ⟨⟨by decide, ws_idle_state 9, run_reachable 9 16 sched9 _ _ final9_run⟩,
    all_slots_idle_after_invocation 9 16 ws_idle in9 final9 (by decide) (ws_idle_state 9)
      (run_reachable 9 16 sched9 _ _ final9_run)⟩

/-- C12. Two ranks: after the interleaving `sched2_rank0_returned` rank 0 has returned from
`all_reduce_low_latency` while the state of slot 1 is still FINAL (2), so not every slot is
IDLE at that return; and rank 0 is able to start its next invocation in that state. -/
theorem rank0_returns_before_all_idle :
    (∀ r, r < 2 → (ws_idle r).state = 0)
      ∧ Reachable 2 16 (init ws_idle in2) returned2
      ∧ (returned2.rank 0).pc = .l559
      ∧ (returned2.buffer 1).state = 2
      ∧ ¬ (∀ s, s < 2 → (returned2.buffer s).state = 0)
      ∧ (back_to_back 2 2 16 0 { cfg := returned2, completed := fun _ => 0 }).isSome
          = true := by
  refine ⟨ws_idle_state 2, run_reachable 2 16 sched2_rank0_returned _ _ returned2_run,
    returned2_facts.1, returned2_facts.2, ?_, returned2_reenters⟩
  intro h
  have h1 := h 1 (by decide)
  rw [returned2_facts.2] at h1
  exact absurd h1 (by decide)

/-- C17. Per-slot state cycle, for tensors of `N` elements within the capacity of a slot
buffer: in every state reachable within one invocation the state field of every slot is 0,
1 or 2, and a step of rank `r` leaves every state field as it is or moves the state field
of slot `r`, and no other, one position along IDLE (0), COPIED (1), FINAL (2), IDLE (0). -/
theorem slot_state_cycle (R N : Nat) (ws0 : Workspace) (inputs : Nat → Buf) (c : Config)
    (_hN : N ≤ slot_capacity) (hidle : ∀ r, r < R → (ws0 r).state = 0)
    (hreach : Reachable R N (init ws0 inputs) c) :
    (∀ s, s < R →
        (c.buffer s).state = 0 ∨ (c.buffer s).state = 1 ∨ (c.buffer s).state = 2)
      ∧ ∀ r, r < R → ∀ c', all_reduce_low_latency R N r c = some c' → ∀ s, s < R →
          (c'.buffer s).state = (c.buffer s).state
            ∨ (s = r ∧ cycle_step (c.buffer s).state (c'.buffer s).state) := by
  have hinv := inv_reachable hidle hreach
  refine ⟨fun s hs => ?_, fun r hr c' hstep s hs => state_cycle hinv r hr hstep s hs⟩
  rw [hinv.state s hs]
  exact state_of_pc_values _

/-- Witness of C17: two ranks, the state after rank 0 copied its tensor in. -/
theorem slot_state_cycle_witness :
    (16 ≤ slot_capacity ∧ (∀ r, r < 2 → (ws_idle r).state = 0)
      ∧ Reachable 2 16 (init ws_idle in2) copied2)
    ∧ ((∀ s, s < 2 →
        (copied2.buffer s).state = 0 ∨ (copied2.buffer s).state = 1
          ∨ (copied2.buffer s).state = 2)
      ∧ ∀ r, r < 2 → ∀ c', all_reduce_low_latency 2 16 r copied2 = some c' → ∀ s, s < 2 →
          (c'.buffer s).state = (copied2.buffer s).state
            ∨ (s = r ∧ cycle_step (copied2.buffer s).state (c'.buffer s).state)) :=
  ⟨⟨by decide, ws_idle_state 2, run_reachable 2 16 [0] _ _ copied2_run⟩,
    slot_state_cycle 2 16 ws_idle in2 copied2 (by decide) (ws_idle_state 2)
      (run_reachable 2 16 [0] _ _ copied2_run)⟩

/-- C11. No residual state leakage, for tensors of `N` elements within the capacity of a
slot buffer, `N` a multiple of 16 or not: for any two initial contents of the workspace
buffers (all states IDLE) and the same rank inputs, the outputs of every rank are the same,
and the workspace a finished invocation leaves behind is all-IDLE again. When every rank
makes two invocations in a row on the same inputs, with nothing between the calls that
makes one rank wait for another, a rank that has returned from an invocation, the first or
the second, holds these same outputs, and some interleaving brings every rank to the
return from its second invocation. -/
theorem no_residual_state_leakage (R N : Nat) (ws0 ws0' : Workspace) (inputs : Nat → Buf)
    (c c' : Config) (_hN : N ≤ slot_capacity) (hidle : ∀ r, r < R → (ws0 r).state = 0)
    (hidle' : ∀ r, r < R → (ws0' r).state = 0)
    (hreach : Reachable R N (init ws0 inputs) c) (hfin : finished R c)
    (hreach' : Reachable R N (init ws0' inputs) c') (hfin' : finished R c') :
    (∀ r, r < R → ∀ i, i < N → (c.rank r).data i = (c'.rank r).data i)
      ∧ (∀ r, r < R → (c.buffer r).state = 0)
      ∧ (∀ d, ReachableRepeat 2 R N inputs (init_calls ws0 inputs) d →
          ∀ r, r < R → (d.cfg.rank r).pc = .l559 →
            ∀ i, i < N → (d.cfg.rank r).data i = (c.rank r).data i)
      ∧ ∃ d, ReachableRepeat 2 R N inputs (init_calls ws0 inputs) d
          ∧ finished_calls 2 R d := by
  refine ⟨fun r hr i hi => outputs_indep hidle hidle' hreach hfin hreach' hfin' r hr i hi,
    finished_idle hidle hreach hfin, ?_, repeat_can_finish hidle⟩
  intro d hd r hr hpc i hi
  rw [repeat_output (inv2_reachable hidle hd) r hr hpc i hi,
    final_data (inv_reachable hidle hreach) r hr (hfin r hr) i hi]

/-- Witness of C11: two ranks of five elements each, once from a zeroed workspace and once
from a workspace with other content. -/
theorem no_residual_state_leakage_witness :
    (5 ≤ slot_capacity ∧ (∀ r, r < 2 → (ws_idle r).state = 0)
      ∧ (∀ r, r < 2 → (ws_sample r).state = 0)
      ∧ Reachable 2 5 (init ws_idle in2) final5 ∧ finished 2 final5
      ∧ Reachable 2 5 (init ws_sample in2) final5_stale ∧ finished 2 final5_stale)
    ∧ ((∀ r, r < 2 → ∀ i, i < 5 → (final5.rank r).data i = (final5_stale.rank r).data i)
      ∧ (∀ r, r < 2 → (final5.buffer r).state = 0)
      ∧ (∀ d, ReachableRepeat 2 2 5 in2 (init_calls ws_idle in2) d →
          ∀ r, r < 2 → (d.cfg.rank r).pc = .l559 →
            ∀ i, i < 5 → (d.cfg.rank r).data i = (final5.rank r).data i)
      ∧ ∃ d, ReachableRepeat 2 2 5 in2 (init_calls ws_idle in2) d
          ∧ finished_calls 2 2 d) :=
  ⟨⟨by decide, ws_idle_state 2, ws_sample_state 2, run_reachable 2 5 sched2 _ _ final5_run,
      final5_finished, run_reachable 2 5 sched2 _ _ final5_stale_run, final5_stale_finished⟩,
    no_residual_state_leakage 2 5 ws_idle ws_sample in2 final5 final5_stale (by decide)
      (ws_idle_state 2) (ws_sample_state 2) (run_reachable 2 5 sched2 _ _ final5_run)
      final5_finished (run_reachable 2 5 sched2 _ _ final5_stale_run) final5_stale_finished⟩

end CCL
